import Mathlib

/-! # roachprod: host-list registry (hosts.go) and placeholder expander (install/expander.go)

A shallow embedding of the two source files.

* A Go string is modelled as a list of Unicode code points (valid UTF-8 text),
  `Str := List Char`.
* Library routines used by the source (strings.Fields, strings.Split,
  text/tabwriter, path.Join, the four regular expressions, the verb %q of
  fmt, the directory operations of os and ioutil) are modelled by executable
  functions.
* Code of the install package that the two files call but do not contain
  (ListNodes, allNodes, pgurls, Impl.NodePort, Impl.NodeDir) is taken as a
  parameter, bundled in `Deps`.
-/

namespace Roachprod

/-- Go strings, as sequences of code points. -/
abbrev Str := List Char

deriving instance DecidableEq for Except

/-! ## Library: package strings -/

/-- Go unicode.IsSpace, the separator test of strings.Fields: the six ASCII
space characters, NEL, NBSP and the code points of category Z. -/
def isSpace (c : Char) : Bool :=
  c == '\t' || c == '\n' || c.toNat == 0x0B || c.toNat == 0x0C || c == '\r' || c == ' '
    || c.toNat == 0x85 || c.toNat == 0xA0 || c.toNat == 0x1680
    || (0x2000 ≤ c.toNat && c.toNat ≤ 0x200A)
    || c.toNat == 0x2028 || c.toNat == 0x2029 || c.toNat == 0x202F
    || c.toNat == 0x205F || c.toNat == 0x3000

/-- Go strings.Fields: the maximal runs of non-space characters, in order. -/
def Fields : Str → List Str
  | [] => []
  | c :: cs =>
    if isSpace c then Fields cs
    else
      match cs with
      | [] => [[c]]
      | d :: _ =>
        if isSpace d then [c] :: Fields cs
        else
          match Fields cs with
          | [] => [[c]]
          | f :: fs => (c :: f) :: fs

/-- Go strings.Split(s, sep) for a separator of one character: the pieces of
s between occurrences of sep (always at least one piece). -/
def Split (s : Str) (sep : Char) : List Str :=
  match s with
  | [] => [[]]
  | c :: cs =>
    if c = sep then [] :: Split cs sep
    else
      match Split cs sep with
      | [] => [[c]]
      | p :: ps => (c :: p) :: ps

/-- Go strings.Join(xs, " "). -/
def joinSpace : List Str → Str
  | [] => []
  | [x] => x
  | x :: y :: rest => x ++ ' ' :: joinSpace (y :: rest)

/-! ## Data model -/

/-- The install.SyncedCluster record, restricted to the fields the two files
touch: the name and the four parallel per-node sequences. -/
structure SyncedCluster where
  Name : Str
  VMs : List Str
  Users : List Str
  Localities : List Str
  VPCs : List Str
  deriving DecidableEq, Repr

/-- The process-wide catalog install.Clusters, a map from name to cluster. -/
abbrev Catalog := Str → Option SyncedCluster

/-- Map assignment `install.Clusters[name] = c`. -/
def Catalog.set (cat : Catalog) (name : Str) (c : SyncedCluster) : Catalog :=
  fun k => if k = name then some c else cat k

/-- A cloud.VM, restricted to what syncHosts prints. `locality` is the value
returned by the method vm.Locality(), whose body is outside the two files. -/
structure VM where
  RemoteUser : Str
  PublicIP : Str
  locality : Str
  VPC : Str
  deriving DecidableEq, Repr

/-- A cloud.Cluster: its name and its VMs. -/
structure Cluster where
  Name : Str
  VMs : List VM
  deriving DecidableEq, Repr

/-- A cloud.Cloud: the map cloud.Clusters as a list of (key, cluster) pairs,
in the order the range loop of syncHosts visits them. -/
structure Cloud where
  Clusters : List (Str × Cluster)
  deriving DecidableEq, Repr

/-- The map lookup `_, ok := cloud.Clusters[name]`. -/
def Cloud.hasKey (cloud : Cloud) (name : Str) : Bool :=
  cloud.Clusters.any (fun kc => kc.1 == name)

/-! ## The host directory -/

/-- One entry of the host directory as ioutil.ReadDir reports it. -/
structure DirEntry where
  name : Str
  /-- The value of file.Mode().IsRegular(). -/
  regular : Bool
  /-- The bytes ioutil.ReadFile returns (meaningful for regular files). -/
  contents : Str
  deriving DecidableEq, Repr

/-- The state of the directory config.DefaultHostDir together with the
outcome of each system call on it. `entries` is the listing in the order
ioutil.ReadDir returns it (sorted by file name). -/
structure HostDir where
  /-- The string hd := os.ExpandEnv(config.DefaultHostDir). -/
  path : Str
  /-- Whether ioutil.ReadDir(hd) succeeds. -/
  listable : Bool
  entries : List DirEntry
  /-- Whether os.Create succeeds on the path path.Join(hd, name), for the
  cluster name given. -/
  canCreate : Str → Bool
  /-- Whether flushing the written text to the file created for the cluster
  name given succeeds. -/
  canWrite : Str → Bool
  /-- Whether ioutil.ReadFile succeeds. -/
  canRead : Str → Bool
  /-- Whether os.Remove succeeds. -/
  canRemove : Str → Bool

/-- The errors the functions of hosts.go return. -/
inductive HostsError where
  /-- The error of ioutil.ReadDir, returned as is. -/
  | readDir
  /-- The wrapped error "problem creating file <filename>", for the file of
  the cluster called name. -/
  | createFile (name : Str)
  /-- The wrapped error "problem writing file <filename>", for the file of
  the cluster called name. -/
  | writeFile (name : Str)
  /-- The wrapped error "could not read <filename>". -/
  | readFile (name : Str)
  /-- The error built by newInvalidHostsLineErr(line). -/
  | invalidHostsLine (line : Str)
  deriving DecidableEq, Repr

/-- Source: newInvalidHostsLineErr. -/
def newInvalidHostsLineErr (line : Str) : HostsError :=
  HostsError.invalidHostsLine line

/-! ## Library: text/tabwriter

The writer built by `tabwriter.NewWriter(file, 0, 8, 2, ' ', 0)`: minimal
cell width 0, padding 2, padding character space, no flags. With these
settings a cell is padded with spaces on its right to the width of its
column, which is the widest cell of the column block plus the padding.
Text is valid UTF-8, so the escape byte 0xff never occurs. -/

/-- The `minwidth` argument of NewWriter in syncHosts. -/
def twMinwidth : Nat := 0

/-- The `padding` argument of NewWriter in syncHosts. -/
def twPadding : Nat := 2

/-- A line of the tabwriter buffer: the texts of its cells. A cell's width
is the number of code points of its text. -/
abbrev TwLine := List Str

/-- Go Writer.writeLines for one line: each cell's text, followed by padding
up to the column width when the column has a known width. -/
def writeCells : List Nat → TwLine → Str
  | _, [] => []
  | [], c :: cs => c ++ writeCells [] cs
  | w :: ws, c :: cs => c ++ List.replicate (w - c.length) ' ' ++ writeCells ws cs

/-- Whether a line has a cell in the column (tab-terminated cells only: the
last cell of a line belongs to no column): Go `column < len(line)-1`. -/
def hasCell (column : Nat) (line : TwLine) : Bool :=
  column + 1 < line.length

/-- The width of a column block: the maximum of minwidth and of each cell's
width plus the padding. -/
def blockWidth (column : Nat) (block : List TwLine) : Nat :=
  block.foldl (fun width line => max width ((line.getD column []).length + twPadding)) twMinwidth

/-- The loop of Go Writer.format over the lines of a range, at the column
`widths.length`: a maximal run of lines with a cell in the column is a column
block, formatted by `rec` with the block's width pushed; the other lines are
written with the widths known so far. `block` accumulates the current run. -/
def scanBlocks (rec : List Nat → List TwLine → List Str) (widths : List Nat) :
    List TwLine → List TwLine → List Str
  | block, [] =>
    if block.isEmpty then [] else rec (widths ++ [blockWidth widths.length block]) block
  | block, l :: ls =>
    if hasCell widths.length l then scanBlocks rec widths (block ++ [l]) ls
    else
      (if block.isEmpty then [] else rec (widths ++ [blockWidth widths.length block]) block)
        ++ writeCells widths l :: scanBlocks rec widths [] ls

/-- Go Writer.format: the text of each line of the range. The recursion
depth is bounded by the number of cells of the longest line, the fuel. -/
def format : Nat → List Nat → List TwLine → List Str
  | 0, widths, lines => lines.map (writeCells widths)
  | fuel + 1, widths, lines => scanBlocks (format fuel) widths [] lines

/-- The lines written with a newline between them: every line of the buffer
but the last is followed by a newline. -/
def joinLines : List Str → Str
  | [] => []
  | [x] => x
  | x :: y :: rest => x ++ '\n' :: joinLines (y :: rest)

/-- The text `format(0, 0, len(b.lines))` writes for the buffered lines. -/
def flushText (lines : List TwLine) : Str :=
  joinLines (format ((lines.map List.length).foldl max 0) [] lines)

/-- The state of a tabwriter.Writer. -/
structure TabWriter where
  /-- The bytes already written to the underlying file. -/
  out : Str
  /-- The finished lines of the buffer, b.lines without its last element. -/
  lines : List TwLine
  /-- The cells of the line being built, the last element of b.lines. -/
  line : TwLine
  /-- The text of the cell being built. -/
  cell : Str
  deriving DecidableEq, Repr

/-- A new Writer: `tabwriter.NewWriter`. -/
def TabWriter.new : TabWriter := ⟨[], [], [], []⟩

/-- Go Writer.Write for one character. A tab or vertical tab ends the cell;
a newline or form feed ends the cell and the line, and flushes the buffer
when it is a form feed or the line has a single cell. -/
def TabWriter.writeChar (b : TabWriter) (ch : Char) : TabWriter :=
  if ch = '\t' ∨ ch = '\x0b' ∨ ch = '\n' ∨ ch = '\x0c' then
    let line := b.line ++ [b.cell]
    if ch = '\n' ∨ ch = '\x0c' then
      if ch = '\x0c' ∨ line.length = 1 then
        { out := b.out ++ flushText (b.lines ++ [line, []]), lines := [], line := [], cell := [] }
      else
        { b with lines := b.lines ++ [line], line := [], cell := [] }
    else
      { b with line := line, cell := [] }
  else
    { b with cell := b.cell ++ [ch] }

/-- Go Writer.Write. -/
def TabWriter.Write (b : TabWriter) (buf : Str) : TabWriter :=
  buf.foldl TabWriter.writeChar b

/-- Go Writer.Flush: the pending cell is added when it is not empty, the
buffer is formatted; the result is everything written to the file. -/
def TabWriter.Flush (b : TabWriter) : Str :=
  let line := if b.cell.isEmpty then b.line else b.line ++ [b.cell]
  b.out ++ flushText (b.lines ++ [line])

/-! ## Library: path.Join

syncHosts names the file of a cluster `path.Join(hd, c.Name)` and hands that
path to os.Create as it is: no check of the name is made. path.Join joins its
non-empty arguments with a slash and cleans the result with path.Clean, which
works on the text alone: empty elements and `.` elements are dropped, and a
`..` element removes the element before it. The cleaned path is represented
by its elements, innermost first. -/

/-- The elements of a slash-separated path that path.Clean keeps or resolves:
the pieces between slashes, the empty ones and the `.` ones left out. -/
def pathElems (p : Str) : List Str :=
  (Split p '/').filter (fun e => e != [] && e != ['.'])

/-- One step of path.Clean, on the elements kept so far (innermost first): a
`..` removes the element before it, is dropped at the root of a rooted path
and is kept at the beginning of a relative one; any other element is kept. -/
def cleanStep (rooted : Bool) (kept : List Str) (e : Str) : List Str :=
  if e = ['.', '.'] then
    match kept with
    | [] => if rooted then [] else [e]
    | top :: below => if top = ['.', '.'] then e :: kept else below
  else e :: kept

/-- Go path.Clean(p), as the elements of the cleaned path, innermost first;
the path is rooted when it begins with a slash. -/
def cleanElems (p : Str) : List Str :=
  (pathElems p).foldl (cleanStep (p.head? == some '/')) []

/-- The text path.Join(hd, name) cleans: the non-empty arguments joined by a
slash (an empty name leaves a trailing slash, which cleaning drops). -/
def joinStr (hd name : Str) : Str :=
  if hd = [] then name else hd ++ '/' :: name

/-- The entry of the directory hd that the path path.Join(hd, name)
designates: x when the cleaned path is the cleaned hd followed by the single
element x. For `c`, `c/` and `./c` this is the entry c; there is none when the
path is hd itself, lies below an entry of hd or lies outside hd. -/
def joinEntry (hd name : Str) : Option Str :=
  match cleanElems (joinStr hd name) with
  | [] => none
  | x :: dir => if dir = cleanElems hd ∧ x ≠ ['.', '.'] then some x else none

/-! ## hosts.go: syncHosts and gcHostsFiles -/

/-- The order of file names in a directory listing: lexicographic. -/
def strLt : Str → Str → Bool
  | [], [] => false
  | [], _ :: _ => true
  | _ :: _, [] => false
  | a :: as, b :: bs => a < b || (a == b && strLt as bs)

/-- A new entry put at its place in a listing sorted by name. -/
def insertSorted (e : DirEntry) : List DirEntry → List DirEntry
  | [] => [e]
  | x :: xs => if strLt e.name x.name then e :: x :: xs else x :: insertSorted e xs

/-- The listing after a successful os.Create of `name` followed by writing
`contents`: when the name exists, a regular file is overwritten and an entry
that is not a regular file (a link, a pipe, a device) stays the entry it was;
when the name is free, a new regular file appears at its place in the sorted
listing. -/
def putEntry (name contents : Str) (es : List DirEntry) : List DirEntry :=
  if es.any (fun e => e.name == name) then
    es.map (fun e => if e.name = name ∧ e.regular = true then ⟨name, true, contents⟩ else e)
  else insertSorted ⟨name, true, contents⟩ es

/-- The listing after a successful os.Remove of `name`. -/
def removeEntry (name : Str) (es : List DirEntry) : List DirEntry :=
  es.filter (fun e => e.name != name)

/-- The header line syncHosts writes first. -/
def hostsHeader : Str := "# user@host\tlocality\tvpcId\n".toList

/-- The row `fmt.Sprintf("%s@%s\t%s\t%s\n", ...)` of one VM. -/
def vmRow (vm : VM) : Str :=
  vm.RemoteUser ++ '@' :: vm.PublicIP ++ '\t' :: vm.locality ++ '\t' :: vm.VPC ++ ['\n']

/-- The bytes syncHosts writes to the file of a cluster: the header and one
row per VM go through the tabwriter, which is then flushed. -/
def hostsFileText (c : Cluster) : Str :=
  (c.VMs.foldl (fun tw vm => tw.Write (vmRow vm)) (TabWriter.new.Write hostsHeader)).Flush

/-- The loop of gcHostsFiles over the listing `files` taken at its start;
`cur` is the directory as the removals leave it. A failed removal is logged
and the loop goes on. -/
def gcLoop (cloud : Cloud) (canRemove : Str → Bool) :
    List DirEntry → List DirEntry → List DirEntry
  | [], cur => cur
  | file :: files, cur =>
    if !file.regular then gcLoop cloud canRemove files cur
    else if cloud.hasKey file.name then gcLoop cloud canRemove files cur
    else if canRemove file.name then gcLoop cloud canRemove files (removeEntry file.name cur)
    else gcLoop cloud canRemove files cur

/-- Source: gcHostsFiles. The result is the returned error (none for nil)
and the directory after the call. -/
def gcHostsFiles (cloud : Cloud) (hd : HostDir) : Option HostsError × HostDir :=
  if !hd.listable then (some HostsError.readDir, hd)
  else (none, { hd with entries := gcLoop cloud hd.canRemove hd.entries hd.entries })

/-- The listing of hd after a successful os.Create(path.Join(hd, name))
followed by writing `contents`: when the path designates an entry of hd, that
entry is put; a path that designates no entry of hd (a file below a
subdirectory or outside hd) leaves the listing of hd as it was. -/
def HostDir.created (hd : HostDir) (name contents : Str) : List DirEntry :=
  match joinEntry hd.path name with
  | some x => putEntry x contents hd.entries
  | none => hd.entries

/-- The loop `for _, c := range cloud.Clusters` of syncHosts over the
clusters still to write; when it ends, gcHostsFiles runs on the whole
inventory. The file is path.Join(hd, c.Name), the error of os.Create or of
Flush is returned at once, and a file whose flush fails is left created and
empty. -/
def syncLoop (cloud : Cloud) : List (Str × Cluster) → HostDir → Option HostsError × HostDir
  | [], hd => gcHostsFiles cloud hd
  | (_, c) :: rest, hd =>
    if !hd.canCreate c.Name then (some (HostsError.createFile c.Name), hd)
    else if !hd.canWrite c.Name then
      (some (HostsError.writeFile c.Name), { hd with entries := hd.created c.Name [] })
    else
      syncLoop cloud rest { hd with entries := hd.created c.Name (hostsFileText c) }

/-- Source: syncHosts. The result is the returned error (none for nil) and
the directory after the call. -/
def syncHosts (cloud : Cloud) (hd : HostDir) : Option HostsError × HostDir :=
  syncLoop cloud cloud.Clusters hd

/-! ## hosts.go: loadClusters -/

/-- What one accepted data line contributes: host n, user u, locality, vpc. -/
structure HostLine where
  n : Str
  u : Str
  locality : Str
  vpc : Str
  deriving DecidableEq, Repr

/-- The body of the loop `for _, l := range lines` of loadClusters, for one
line: `ok none` is `continue`, `ok (some h)` reaches the four appends,
`error e` is `return e`. `osUser` is config.OSUser.Username. -/
def parseLine (osUser : Str) (l : Str) : Except HostsError (Option HostLine) :=
  let fields := Fields l
  match fields with
  | [] => .ok none
  | f0 :: rest =>
    if f0.head? = some '#' then .ok none
    else if fields.length > 3 then .error (newInvalidHostsLineErr l)
    else
      let parts := Split f0 '@'
      let fields := rest
      let nu : Option (Str × Str) :=
        match parts with
        | [p0] => some (p0, osUser)
        | [p0, p1] => some (p1, p0)
        | _ => none
      match nu with
      | none => .error (newInvalidHostsLineErr l)
      | some (n, u) =>
        let (locality, fields) :=
          match fields with
          | f :: fs => (f, fs)
          | [] => ([], [])
        let (vpc, fields) :=
          match fields with
          | f :: fs => (f, fs)
          | [] => ([], [])
        if fields.length > 0 then .error (newInvalidHostsLineErr l)
        else .ok (some ⟨n, u, locality, vpc⟩)

/-- The four appends that end the loop body. -/
def SyncedCluster.addLine (c : SyncedCluster) (h : HostLine) : SyncedCluster :=
  { c with VMs := c.VMs ++ [h.n], Users := c.Users ++ [h.u],
           Localities := c.Localities ++ [h.locality], VPCs := c.VPCs ++ [h.vpc] }

/-- The loop `for _, l := range lines` of loadClusters. -/
def parseLines (osUser : Str) : SyncedCluster → List Str → Except HostsError SyncedCluster
  | c, [] => .ok c
  | c, l :: ls =>
    match parseLine osUser l with
    | .error e => .error e
    | .ok none => parseLines osUser c ls
    | .ok (some h) => parseLines osUser (c.addLine h) ls

/-- The cluster loadClusters builds from one file: split the contents at
newlines and run the line loop from the empty cluster of that name. -/
def parseFile (osUser : Str) (name contents : Str) : Except HostsError SyncedCluster :=
  parseLines osUser ⟨name, [], [], [], []⟩ (Split contents '\n')

/-- The loop `for _, file := range files` of loadClusters: returns the error
(none for nil) and the catalog as the loop leaves it. -/
def loadFiles (osUser : Str) (canRead : Str → Bool) :
    Catalog → List DirEntry → Option HostsError × Catalog
  | cat, [] => (none, cat)
  | cat, file :: files =>
    if !file.regular then loadFiles osUser canRead cat files
    else if !canRead file.name then (some (HostsError.readFile file.name), cat)
    else
      match parseFile osUser file.name file.contents with
      | .error e => (some e, cat)
      | .ok c => loadFiles osUser canRead (cat.set file.name c) files

/-- Source: loadClusters. The result is the returned error (none for nil)
and the catalog install.Clusters after the call. -/
def loadClusters (osUser : Str) (hd : HostDir) (cat : Catalog) : Option HostsError × Catalog :=
  if !hd.listable then (some HostsError.readDir, cat)
  else loadFiles osUser hd.canRead cat hd.entries

/-! ## install/expander.go -/

/-- A Go map[int]string. -/
abbrev IntMap := Int → Option Str

/-- Map assignment `m[i] = v`. -/
def IntMap.set (m : IntMap) (i : Int) (v : Str) : IntMap :=
  fun k => if k = i then some v else m k

/-- The code of package install that expander.go calls and does not contain. -/
structure Deps where
  /-- The function ListNodes(nodeSpec, n): the selected node indices, or the
  text err.Error() of its error. -/
  ListNodes : Str → Nat → Except Str (List Int)
  /-- The function allNodes(n). -/
  allNodes : Nat → List Int
  /-- The method c.pgurls(nodes): the connection URL of each node. -/
  pgurls : SyncedCluster → List Int → IntMap
  /-- The method c.Impl.NodePort(c, i). -/
  NodePort : SyncedCluster → Int → Int
  /-- The method c.Impl.NodeDir(c, i). -/
  NodeDir : SyncedCluster → Int → Str

/-- Go fmt.Sprint of an integer: its decimal text. -/
def Sprint (p : Int) : Str := (toString p).toList

/-- Source: the struct expander. A nil map is `none`. -/
structure expander where
  node : Int
  pgURLs : Option IntMap
  pgPorts : Option IntMap

/-- The characters of the class `[-,0-9]` of pgURLRe and pgPortRe. -/
def isSpecChar (c : Char) : Bool :=
  c == '-' || c == ',' || ('0' ≤ c && c ≤ '9')

/-- If `p` starts `s`, what follows it in `s`. -/
def dropLit : Str → Str → Option Str
  | [], s => some s
  | _ :: _, [] => none
  | a :: p, b :: s => if a = b then dropLit p s else none

/-- A match of `\x7bNAME(:[-,0-9]+)?\x7d` that starts at the first character
of `s`: the text of group 1 (empty when the group takes no part). -/
def tokenAt (name : Str) (s : Str) : Option Str :=
  match dropLit ('{' :: name) s with
  | none => none
  | some rest =>
    match rest with
    | ':' :: r =>
      let spec := r.takeWhile isSpecChar
      if !spec.isEmpty && (r.dropWhile isSpecChar).head? = some '}' then some (':' :: spec)
      else none
    | '}' :: _ => some []
    | _ => none

/-- Go FindStringSubmatch for the regular expression
`\x7bNAME(:[-,0-9]+)?\x7d`: group 1 of the leftmost match in `s`, none when
nothing matches. The search is not anchored. -/
def findToken (name : Str) : Str → Option Str
  | [] => none
  | c :: cs =>
    match tokenAt name (c :: cs) with
    | some g => some g
    | none => findToken name cs

/-- Go MatchString for a regular expression that is a literal text: whether
`lit` occurs somewhere in `s`. -/
def containsLit (lit : Str) : Str → Bool
  | [] => lit.isEmpty
  | c :: cs => (dropLit lit (c :: cs)).isSome || containsLit lit cs

/-- Source: pgURLRe.FindStringSubmatch(s), reduced to group 1. -/
def pgURLRe (s : Str) : Option Str := findToken "pgurl".toList s

/-- Source: pgPortRe.FindStringSubmatch(s), reduced to group 1. -/
def pgPortRe (s : Str) : Option Str := findToken "pgport".toList s

/-- Source: storeDirRe.MatchString(s). -/
def storeDirRe (s : Str) : Bool := containsLit "\x7bstore-dir\x7d".toList s

/-- Source: expander.maybeExpandMap (the receiver is not used). -/
def maybeExpandMap (D : Deps) (c : SyncedCluster) (m : IntMap) (nodeSpec : Str) : Str × Bool :=
  let nodeSpec := if nodeSpec = [] then "all".toList else nodeSpec.drop 1
  match D.ListNodes nodeSpec c.VMs.length with
  | .error err => (err, true)
  | .ok nodes => (joinSpace (nodes.filterMap m), true)

/-- Source: expander.maybeExpandPgURL. The expander after the call is
returned with the result. -/
def maybeExpandPgURL (D : Deps) (e : expander) (c : SyncedCluster) (s : Str) :
    (Str × Bool) × expander :=
  match pgURLRe s with
  | none => ((s, false), e)
  | some m1 =>
    let urls : IntMap :=
      match e.pgURLs with
      | none => D.pgurls c (D.allNodes c.VMs.length)
      | some urls => urls
    (maybeExpandMap D c urls m1, { e with pgURLs := some urls })

/-- The loop of maybeExpandPgPort that fills a new map e.pgPorts: the port
of every node of allNodes(len(c.VMs)), printed. -/
def buildPgPorts (D : Deps) (c : SyncedCluster) : IntMap :=
  (D.allNodes c.VMs.length).foldl (fun m i => m.set i (Sprint (D.NodePort c i))) (fun _ => none)

/-- Source: expander.maybeExpandPgPort. -/
def maybeExpandPgPort (D : Deps) (e : expander) (c : SyncedCluster) (s : Str) :
    (Str × Bool) × expander :=
  match pgPortRe s with
  | none => ((s, false), e)
  | some m1 =>
    let ports : IntMap :=
      match e.pgPorts with
      | none => buildPgPorts D c
      | some ports => ports
    (maybeExpandMap D c ports m1, { e with pgPorts := some ports })

/-- Source: expander.maybeExpandStoreDir. -/
def maybeExpandStoreDir (D : Deps) (e : expander) (c : SyncedCluster) (s : Str) :
    (Str × Bool) × expander :=
  if !storeDirRe s then ((s, false), e)
  else ((D.NodeDir c e.node, true), e)

/-- The function literal that expand passes to ReplaceAllStringFunc: the
three expanders are tried in order and the first that expands wins. -/
def expandParam (D : Deps) (c : SyncedCluster) (e : expander) (s : Str) : Str × expander :=
  let (r1, e1) := maybeExpandPgURL D e c s
  if r1.2 then (r1.1, e1)
  else
    let (r2, e2) := maybeExpandPgPort D e1 c s
    if r2.2 then (r2.1, e2)
    else
      let (r3, e3) := maybeExpandStoreDir D e2 c s
      if r3.2 then (r3.1, e3)
      else (s, e3)

/-- Go ReplaceAllStringFunc for parameterRe, the regular expression
`\x7b[^\x7d]*\x7d`, with a replacement function that carries a state. The
text is scanned from the left: an opening brace that has a closing brace
somewhere after it starts a match, which runs to the first closing brace;
the match is replaced by what `f` returns and the scan resumes after it.
`open` holds the text of the match being read. -/
def replaceParams {σ : Type} (f : σ → Str → Str × σ) : σ → Option Str → Str → Str × σ
  | st, none, [] => ([], st)
  | st, none, ch :: cs =>
    if ch = '{' ∧ '}' ∈ cs then replaceParams f st (some ['{']) cs
    else
      let (r, st1) := replaceParams f st none cs
      (ch :: r, st1)
  | st, some m, [] => (m, st)
  | st, some m, ch :: cs =>
    if ch = '}' then
      let (t, st1) := f st (m ++ ['}'])
      let (r, st2) := replaceParams f st1 none cs
      (t ++ r, st2)
    else replaceParams f st (some (m ++ [ch])) cs

/-- Source: expander.expand. The expander after the call is returned with
the result. -/
def expand (D : Deps) (e : expander) (c : SyncedCluster) (arg : Str) : Str × expander :=
  replaceParams (expandParam D c) e none arg

/-! ## Vocabulary of the host-list grammar

The words of the specification's host-list grammar, used to state the
properties of loadClusters. -/

/-- The first whitespace-separated field of a line, its address field (empty
when the line has no field). -/
def lineFirst (l : Str) : Str := (Fields l).headD []

/-- A blank line: it has no field. -/
def isBlank (l : Str) : Bool := (Fields l).isEmpty

/-- A comment line: its first field begins with a number sign. -/
def isComment (l : Str) : Bool := (lineFirst l).head? == some '#'

/-- A data line: neither blank nor a comment. -/
def isData (l : Str) : Bool := !isBlank l && !isComment l

/-- A malformed line: a data line with more than three fields or with more
than one at sign in its address field. -/
def isMalformed (l : Str) : Bool :=
  isData l && (decide (3 < (Fields l).length) || decide (1 < (lineFirst l).count '@'))

/-- The data lines of a file's contents, in file order. -/
def dataLines (contents : Str) : List Str := (Split contents '\n').filter isData

/-- The user an address field designates: what precedes its at sign, or the
local operating-system user when it has none. -/
def addrUser (osUser : Str) (a : Str) : Str :=
  if '@' ∈ a then a.takeWhile (fun ch => ch != '@') else osUser

/-- The host an address field designates: what follows its at sign, or the
whole field when it has none. -/
def addrHost (a : Str) : Str :=
  if '@' ∈ a then (a.dropWhile (fun ch => ch != '@')).drop 1 else a

/-- The node a well-formed data line describes. -/
def lineNode (osUser : Str) (l : Str) : HostLine :=
  ⟨addrHost (lineFirst l), addrUser osUser (lineFirst l),
    (Fields l).getD 1 [], (Fields l).getD 2 []⟩

/-- A host directory that can be listed and on which every system call
succeeds, with the given listing. -/
def HostDir.plain (entries : List DirEntry) : HostDir :=
  ⟨"/home/me/.roachprod/hosts".toList, true, entries,
    fun _ => true, fun _ => true, fun _ => true, fun _ => true⟩

/-- The empty catalog. -/
def Catalog.empty : Catalog := fun _ => none

/-! ## Vocabulary of the expander properties -/

/-- An expander as it is constructed for a target node: both maps are nil. -/
def expander.fresh (node : Int) : expander := ⟨node, none, none⟩

/-- The node indices 1, 2, ..., n. -/
def nodes1 (n : Nat) : List Int := (List.range n).map (fun i => (i : Int) + 1)

/-- Whether a left-to-right scan of a text ends outside a brace span: every
opening brace met outside a span is followed by a closing brace. `inside`
tells whether the scan starts inside a span. -/
def closedFrom : Bool → Str → Bool
  | false, [] => true
  | true, [] => false
  | false, ch :: cs => if ch = '{' then closedFrom true cs else closedFrom false cs
  | true, ch :: cs => if ch = '}' then closedFrom false cs else closedFrom true cs

/-- A sample of the collaborators, for evaluating the expander on concrete
arguments: `all` selects every node, `1,3` selects nodes 1 and 3, any other
selection is an error; node i has the URL `pg://n<i>`, the port 26257 and
the directory `/mnt/data<i>`. -/
def sampleDeps : Deps where
  ListNodes := fun s n =>
    if s = "all".toList then .ok (nodes1 n)
    else if s = "1,3".toList then .ok [1, 3]
    else .error "invalid node spec".toList
  allNodes := nodes1
  pgurls := fun _ ns => fun k => if k ∈ ns then some ("pg://n".toList ++ Sprint k) else none
  NodePort := fun _ _ => 26257
  NodeDir := fun _ i => "/mnt/data".toList ++ Sprint i

/-- A sample cluster of three nodes. -/
def sampleCluster : SyncedCluster :=
  ⟨"demo".toList, ["10.0.0.1".toList, "10.0.0.2".toList, "10.0.0.3".toList],
    ["alice".toList, "alice".toList, "alice".toList], [[], [], []], [[], [], []]⟩

/-- Whether a text has a brace span: some opening brace of it has a closing
brace after it. -/
def hasSpan : Str → Bool
  | [] => false
  | ch :: cs => (ch == '{' && cs.contains '}') || hasSpan cs

/-- An expander whose maps, when built, are the tables of the cluster: the
URL map is nil or the one pgurls builds, the port map is nil or the one the
loop of maybeExpandPgPort builds. -/
def coherent (D : Deps) (c : SyncedCluster) (e : expander) : Prop :=
  (e.pgURLs = none ∨ e.pgURLs = some (D.pgurls c (D.allNodes c.VMs.length))) ∧
  (e.pgPorts = none ∨ e.pgPorts = some (buildPgPorts D c))

/-! ## Vocabulary of the round trip through a host-list file -/

/-- Whether a cluster name is a plain file name: not empty, without a slash
or a NUL character, and neither `.` nor `..`. path.Join(hd, name) is then the
entry of hd called name. syncHosts does not test for it; the properties that
need it state it as a hypothesis. -/
def isFileName (name : Str) : Bool :=
  !name.isEmpty && !name.contains '/' && !name.contains (Char.ofNat 0)
    && name != ['.'] && name != ['.', '.']

/-- A text without whitespace. -/
def noSpace (s : Str) : Bool := s.all (fun ch => !isSpace ch)

/-- A VM whose row survives the round trip through a host-list file: its
four values have no whitespace, its user and address have no at sign, and
its user does not begin with a number sign. -/
def cleanVM (vm : VM) : Bool :=
  noSpace vm.RemoteUser && noSpace vm.PublicIP && noSpace vm.locality && noSpace vm.VPC
    && !vm.RemoteUser.contains '@' && !vm.PublicIP.contains '@'
    && vm.RemoteUser.head? != some '#'

/-- The three cells of the row of a VM. -/
def vmCells (vm : VM) : TwLine :=
  [vm.RemoteUser ++ '@' :: vm.PublicIP, vm.locality, vm.VPC]

/-- The three cells of the header line. -/
def headerCells : TwLine := ["# user@host".toList, "locality".toList, "vpcId".toList]

/-- The listing after the write loop of syncHosts has written the files of
the given clusters, in order. -/
def writeAll (cl : List (Str × Cluster)) (es : List DirEntry) : List DirEntry :=
  cl.foldl (fun es kc => putEntry kc.2.Name (hostsFileText kc.2) es) es

/-- The inventory of the specification's example: the cluster demo with the
VMs alice@10.0.0.1 (locality us-east, VPC v1) and alice@10.0.0.2 (locality
us-east, VPC v2). -/
def demoCloud : Cloud :=
  ⟨[("demo".toList, ⟨"demo".toList,
    [⟨"alice".toList, "10.0.0.1".toList, "us-east".toList, "v1".toList⟩,
     ⟨"alice".toList, "10.0.0.2".toList, "us-east".toList, "v2".toList⟩]⟩)]⟩

/-- A host directory with one stale file, on which every call succeeds. -/
def demoDir : HostDir :=
  HostDir.plain [⟨"old".toList, true, "stale file with many fields\n".toList⟩]

/-- An inventory whose only VM has a locality with a space in it. -/
def spacedCloud : Cloud :=
  ⟨[("demo".toList, ⟨"demo".toList,
    [⟨"alice".toList, "10.0.0.1".toList, "us east".toList, "v1".toList⟩]⟩)]⟩

/-- Whether some cluster of the inventory has this name. -/
def Cloud.hasName (cloud : Cloud) (name : Str) : Bool :=
  cloud.Clusters.any (fun kc => kc.2.Name == name)

/-- A directory with a cluster file, a stale file that cannot be removed, a
stale file that can, and a subdirectory. -/
def gcDir : HostDir :=
  ⟨"/home/me/.roachprod/hosts".toList, true,
    [⟨"demo".toList, true, "alice@10.0.0.1\n".toList⟩, ⟨"locked".toList, true, []⟩,
     ⟨"old".toList, true, "junk\n".toList⟩, ⟨"sub".toList, false, []⟩],
    fun _ => true, fun _ => true, fun _ => true, fun name => name != "locked".toList⟩

/-- A catalog that holds the sample cluster under the name `old`. -/
def oldCatalog : Catalog := Catalog.empty.set "old".toList sampleCluster

/-- A host directory with the single file `demo` of one data line, on which
every call succeeds. -/
def oneFileDir : HostDir :=
  HostDir.plain [⟨"demo".toList, true, "# c\nalice@n1 east v1\n".toList⟩]

/-- The locality loadClusters reads back from the row of a VM: the second
field of the row, which is the VPC when the locality is empty. -/
def readLocality (vm : VM) : Str := if vm.locality = [] then vm.VPC else vm.locality

/-- The VPC loadClusters reads back from the row of a VM: the third field of
the row, which is empty when the locality is empty. -/
def readVPC (vm : VM) : Str := if vm.locality = [] then [] else vm.VPC

/-- An inventory whose second VM has an empty locality and the VPC v2. -/
def gapCloud : Cloud :=
  ⟨[("demo".toList, ⟨"demo".toList,
    [⟨"alice".toList, "10.0.0.1".toList, "us-east".toList, "v1".toList⟩,
     ⟨"alice".toList, "10.0.0.2".toList, [], "v2".toList⟩]⟩)]⟩

/-! ## Library: the verb %q of package fmt (strconv.Quote) -/

/-- Go strconv.IsPrint. Up to U+00FF it is a range test; above, it is read
from the Unicode tables of package strconv, which are taken as the parameter
`table`. -/
def isPrint (table : Char → Bool) (r : Char) : Bool :=
  if r.toNat ≤ 0xFF then
    if 0x20 ≤ r.toNat ∧ r.toNat < 0x7F then true
    else if 0xA1 ≤ r.toNat then r.toNat != 0xAD
    else false
  else table r

/-- The hexadecimal digit of the low four bits of a number. -/
def lowerhex (n : Nat) : Char := "0123456789abcdef".toList.getD (n % 16) '0'

/-- The `width` hexadecimal digits of a number, most significant first. -/
def hexDigits : Nat → Nat → Str
  | 0, _ => []
  | width + 1, n => hexDigits width (n / 16) ++ [lowerhex n]

/-- Go strconv.appendEscapedRune for the double quote: the quote and the
backslash are backslashed, a printable character is kept, the control
characters with a letter escape use it, and any other character is written
as a hexadecimal escape. -/
def appendEscapedRune (table : Char → Bool) (r : Char) : Str :=
  if r = '"' ∨ r = '\\' then ['\\', r]
  else if isPrint table r then [r]
  else if r.toNat = 7 then ['\\', 'a']
  else if r.toNat = 8 then ['\\', 'b']
  else if r.toNat = 12 then ['\\', 'f']
  else if r = '\n' then ['\\', 'n']
  else if r = '\r' then ['\\', 'r']
  else if r = '\t' then ['\\', 't']
  else if r.toNat = 11 then ['\\', 'v']
  else if r.toNat < 0x20 ∨ r.toNat = 0x7F then '\\' :: 'x' :: hexDigits 2 r.toNat
  else if r.toNat < 0x10000 then '\\' :: 'u' :: hexDigits 4 r.toNat
  else '\\' :: 'U' :: hexDigits 8 r.toNat

/-- Go strconv.Quote, the form the verb %q prints a string in: the escaped
characters between double quotes. -/
def Quote (table : Char → Bool) (s : Str) : Str :=
  '"' :: (s.flatMap (appendEscapedRune table)) ++ ['"']

/-- The text before the quoted line in the message of newInvalidHostsLineErr. -/
def invalidHostsLineLead : Str :=
  "invalid hosts line, expected <username>@<host> [locality] [vpcId], got ".toList

/-- Source: the message of the error newInvalidHostsLineErr(line) builds with
fmt.Errorf: the format text, with the line printed by the verb %q. -/
def invalidHostsLineText (table : Char → Bool) (line : Str) : Str :=
  invalidHostsLineLead ++ Quote table line

/-- A host directory whose file has a line of four fields separated by tabs. -/
def tabbedDir : HostDir :=
  HostDir.plain [⟨"demo".toList, true, "h1\na\tb\tc\td\n".toList⟩]

/-! ## Vocabulary of the cache transparency of the expander -/

/-- The results of expanding a sequence of arguments one after another on the
same expander, each call starting from the expander the previous one left. -/
def expandSeq (D : Deps) (c : SyncedCluster) : expander → List Str → List Str
  | _, [] => []
  | e, arg :: args => (expand D e c arg).1 :: expandSeq D c (expand D e c arg).2 args

/-- The replacement of one brace span by an expander that keeps no map: the
URL table and the port table are built anew at every token. -/
def expandParamUncached (D : Deps) (c : SyncedCluster) (node : Int) (s : Str) : Str :=
  match pgURLRe s with
  | some g => (maybeExpandMap D c (D.pgurls c (D.allNodes c.VMs.length)) g).1
  | none =>
    match pgPortRe s with
    | some g => (maybeExpandMap D c (buildPgPorts D c) g).1
    | none => if storeDirRe s then D.NodeDir c node else s

/-- The expansion of an argument by the expander that keeps no map. -/
def expandUncached (D : Deps) (c : SyncedCluster) (node : Int) (arg : Str) : Str :=
  (replaceParams (fun (u : Unit) s => (expandParamUncached D c node s, u)) () none arg).1

/-- A sample cluster of two nodes. -/
def twoNodeCluster : SyncedCluster :=
  ⟨"pair".toList, ["10.0.0.1".toList, "10.0.0.2".toList],
    ["alice".toList, "alice".toList], [[], []], [[], []]⟩

/-- An inventory keyed by cluster name whose one cluster has a name that ends
in a slash. -/
def slashCloud : Cloud :=
  ⟨[("x/".toList, ⟨"x/".toList,
    [⟨"alice".toList, "10.0.0.1".toList, "us-east".toList, "v1".toList⟩]⟩)]⟩

/-! # Properties -/

/-! ## Lemmas: strings.Split -/

theorem Split_ne_nil (s : Str) (sep : Char) : Split s sep ≠ [] := by
  induction s with
  | nil => simp [Split]
  | cons c cs ih =>
    unfold Split
    split_ifs
    · simp
    · split <;> simp

theorem Split_of_not_mem (sep : Char) (s : Str) (h : sep ∉ s) : Split s sep = [s] := by
  induction s with
  | nil => simp [Split]
  | cons c cs ih =>
    have hc : c ≠ sep := fun e => h (by simp [e])
    have hcs : sep ∉ cs := fun e => h (by simp [e])
    simp [Split, hc, ih hcs]

theorem Split_append_sep (sep : Char) (u v : Str) (h : sep ∉ u) :
    Split (u ++ sep :: v) sep = u :: Split v sep := by
  induction u with
  | nil => simp [Split]
  | cons c cs ih =>
    have hc : c ≠ sep := fun e => h (by simp [e])
    have hcs : sep ∉ cs := fun e => h (by simp [e])
    simp [Split, hc, ih hcs]

theorem Split_length (sep : Char) (s : Str) : (Split s sep).length = s.count sep + 1 := by
  induction s with
  | nil => simp [Split]
  | cons c cs ih =>
    unfold Split
    by_cases hc : c = sep
    · subst hc; simp [ih]
    · have hne : (c == sep) = false := by simpa using hc
      simp only [hc, if_false, List.count_cons, hne]
      split
      · rename_i h; exact absurd h (Split_ne_nil _ _)
      · rename_i p ps h; rw [h] at ih; simpa using ih

/-! ## Lemmas: the line loop of loadClusters -/

theorem split_at_sign (a : Str) (h : a.count '@' = 1) :
    Split a '@' = [a.takeWhile (fun ch => ch != '@'), (a.dropWhile (fun ch => ch != '@')).drop 1] := by
  induction a with
  | nil => simp at h
  | cons c cs ih =>
    by_cases hc : c = '@'
    · subst hc
      have h0 : cs.count '@' = 0 := by simpa using h
      have hn : '@' ∉ cs := List.count_eq_zero.mp h0
      simp [Split, Split_of_not_mem _ _ hn]
    · have hne : (c == '@') = false := by simpa using hc
      have h1 : cs.count '@' = 1 := by simpa [List.count_cons, hne] using h
      have := ih h1
      simp [Split, hc, this]

/-- The loop body of loadClusters, described in the words of the grammar. -/
theorem parseLine_eq (osUser l : Str) :
    parseLine osUser l =
      if isData l = false then .ok none
      else if isMalformed l then .error (HostsError.invalidHostsLine l)
      else .ok (some (lineNode osUser l)) := by
  unfold parseLine isMalformed isData isBlank isComment lineNode lineFirst newInvalidHostsLineErr
  cases hf : Fields l with
  | nil => simp
  | cons f0 rest =>
    by_cases hc : f0.head? = some '#'
    · simp [hc]
    · simp only [hc, if_false, List.headD_cons, List.isEmpty_cons, Bool.not_false, Bool.true_and,
        List.length_cons]
      by_cases h3 : 3 < rest.length + 1
      · simp [h3, hc]
      · have hr : rest.length ≤ 2 := by omega
        simp only [gt_iff_lt, h3, if_false]
        rcases Nat.lt_or_ge 1 (f0.count '@') with h2 | h2
        · have hl := Split_length '@' f0
          have : ¬ (∃ p0, Split f0 '@' = [p0]) := by
            rintro ⟨p0, hp⟩; rw [hp] at hl; simp at hl; omega
          have h2' : ¬ (∃ p0 p1, Split f0 '@' = [p0, p1]) := by
            rintro ⟨p0, p1, hp⟩; rw [hp] at hl; simp at hl; omega
          rcases hs : Split f0 '@' with _ | ⟨p0, _ | ⟨p1, _ | ⟨p2, ps⟩⟩⟩
          · exact absurd hs (Split_ne_nil _ _)
          · exact absurd ⟨p0, hs⟩ this
          · exact absurd ⟨p0, p1, hs⟩ h2'
          · simp [hc, h2]
        · rcases Nat.eq_zero_or_pos (f0.count '@') with h0 | h0
          · have hn : '@' ∉ f0 := List.count_eq_zero.mp h0
            rw [Split_of_not_mem _ _ hn]
            rcases rest with _ | ⟨r1, _ | ⟨r2, _ | ⟨r3, rs⟩⟩⟩
            · simp [hc, h0, addrHost, addrUser, hn]
            · simp [hc, h0, addrHost, addrUser, hn]
            · simp [hc, h0, addrHost, addrUser, hn]
            · simp at hr
          · have h1 : f0.count '@' = 1 := by omega
            have hm : '@' ∈ f0 := List.count_pos_iff.mp h0
            rw [split_at_sign _ h1]
            rcases rest with _ | ⟨r1, _ | ⟨r2, _ | ⟨r3, rs⟩⟩⟩
            · simp [hc, h1, addrHost, addrUser, hm]
            · simp [hc, h1, addrHost, addrUser, hm]
            · simp [hc, h1, addrHost, addrUser, hm]
            · simp at hr

theorem addLine_foldl_fields (hs : List HostLine) (c : SyncedCluster) :
    (hs.foldl SyncedCluster.addLine c).Name = c.Name ∧
    (hs.foldl SyncedCluster.addLine c).VMs = c.VMs ++ hs.map HostLine.n ∧
    (hs.foldl SyncedCluster.addLine c).Users = c.Users ++ hs.map HostLine.u ∧
    (hs.foldl SyncedCluster.addLine c).Localities = c.Localities ++ hs.map HostLine.locality ∧
    (hs.foldl SyncedCluster.addLine c).VPCs = c.VPCs ++ hs.map HostLine.vpc := by
  induction hs generalizing c with
  | nil => simp
  | cons h hs ih =>
    obtain ⟨h1, h2, h3, h4, h5⟩ := ih (c.addLine h)
    simp only [List.foldl_cons, List.map_cons]
    refine ⟨?_, ?_, ?_, ?_, ?_⟩
    · rw [h1]; rfl
    · rw [h2]; simp [SyncedCluster.addLine]
    · rw [h3]; simp [SyncedCluster.addLine]
    · rw [h4]; simp [SyncedCluster.addLine]
    · rw [h5]; simp [SyncedCluster.addLine]

/-- The line loop on lines none of which is malformed: every data line adds
its node, in order. -/
theorem parseLines_ok (osUser : Str) (ls : List Str) (c : SyncedCluster)
    (h : ∀ l ∈ ls, isMalformed l = false) :
    parseLines osUser c ls =
      .ok (((ls.filter isData).map (lineNode osUser)).foldl SyncedCluster.addLine c) := by
  induction ls generalizing c with
  | nil => simp [parseLines]
  | cons l ls ih =>
    have hl : isMalformed l = false := h l (by simp)
    have hls : ∀ x ∈ ls, isMalformed x = false := fun x hx => h x (by simp [hx])
    unfold parseLines
    rw [parseLine_eq]
    by_cases hd : isData l = true
    · simp [hd, hl, ih _ hls, List.filter_cons]
    · have hd' : isData l = false := by simpa using hd
      simp [hd', ih _ hls, List.filter_cons]

/-- The line loop stops at the first malformed line with its error. -/
theorem parseLines_error (osUser : Str) (pre post : List Str) (l : Str) (c : SyncedCluster)
    (h : ∀ x ∈ pre, isMalformed x = false) (hl : isMalformed l = true) :
    parseLines osUser c (pre ++ l :: post) = .error (HostsError.invalidHostsLine l) := by
  induction pre generalizing c with
  | nil =>
    have hd : isData l = true := by
      unfold isMalformed at hl; simp at hl; exact hl.1
    simp [parseLines, parseLine_eq, hd, hl]
  | cons x pre ih =>
    have hx : isMalformed x = false := h x (by simp)
    have hpre : ∀ y ∈ pre, isMalformed y = false := fun y hy => h y (by simp [hy])
    simp only [List.cons_append]
    unfold parseLines
    rw [parseLine_eq]
    by_cases hd : isData x = true
    · simp [hd, hx, ih _ hpre]
    · have hd' : isData x = false := by simpa using hd
      simp [hd', ih _ hpre]

/-- A list with an element satisfying `p` splits at the first such element. -/
theorem exists_first {α : Type} (p : α → Bool) (xs : List α) (h : ∃ x ∈ xs, p x = true) :
    ∃ pre x post, xs = pre ++ x :: post ∧ (∀ y ∈ pre, p y = false) ∧ p x = true := by
  induction xs with
  | nil => simp at h
  | cons a xs ih =>
    by_cases ha : p a = true
    · exact ⟨[], a, xs, rfl, by simp, ha⟩
    · have : ∃ x ∈ xs, p x = true := by
        obtain ⟨x, hx, hp⟩ := h
        rcases List.mem_cons.mp hx with rfl | hx
        · exact absurd hp ha
        · exact ⟨x, hx, hp⟩
      obtain ⟨pre, x, post, he, hpre, hx⟩ := ih this
      refine ⟨a :: pre, x, post, by simp [he], ?_, hx⟩
      intro y hy
      rcases List.mem_cons.mp hy with rfl | hy
      · simpa using ha
      · exact hpre y hy

/-- The line loop either accepts every line or returns the error of a
malformed line. -/
theorem parseLines_cases (osUser : Str) (ls : List Str) (c : SyncedCluster) :
    ((∀ l ∈ ls, isMalformed l = false) ∧
      parseLines osUser c ls =
        .ok (((ls.filter isData).map (lineNode osUser)).foldl SyncedCluster.addLine c)) ∨
    (∃ pre l post, ls = pre ++ l :: post ∧ (∀ x ∈ pre, isMalformed x = false) ∧
      isMalformed l = true ∧ parseLines osUser c ls = .error (HostsError.invalidHostsLine l)) := by
  by_cases h : ∃ l ∈ ls, isMalformed l = true
  · right
    obtain ⟨pre, l, post, he, hpre, hl⟩ := exists_first isMalformed ls h
    exact ⟨pre, l, post, he, hpre, hl, by rw [he]; exact parseLines_error osUser pre post l c hpre hl⟩
  · left
    have h' : ∀ l ∈ ls, isMalformed l = false := by
      intro l hl
      by_contra hc
      exact h ⟨l, hl, by simpa using hc⟩
    exact ⟨h', parseLines_ok osUser ls c h'⟩

/-! ## Lemmas: the file loop of loadClusters -/

theorem loadFiles_cons (osUser : Str) (canRead : Str → Bool) (cat : Catalog)
    (file : DirEntry) (files : List DirEntry) :
    loadFiles osUser canRead cat (file :: files) =
      if !file.regular then loadFiles osUser canRead cat files
      else if !canRead file.name then (some (HostsError.readFile file.name), cat)
      else
        match parseFile osUser file.name file.contents with
        | .error e => (some e, cat)
        | .ok c => loadFiles osUser canRead (cat.set file.name c) files := by
  rw [loadFiles]

theorem loadFiles_append (osUser : Str) (canRead : Str → Bool) (cat : Catalog)
    (pre rest : List DirEntry) :
    loadFiles osUser canRead cat (pre ++ rest) =
      if (loadFiles osUser canRead cat pre).1 = none then
        loadFiles osUser canRead (loadFiles osUser canRead cat pre).2 rest
      else loadFiles osUser canRead cat pre := by
  induction pre generalizing cat with
  | nil => simp [loadFiles]
  | cons f pre ih =>
    simp only [List.cons_append]
    simp only [loadFiles_cons]
    by_cases hr : f.regular = true
    · by_cases hc : canRead f.name = true
      · cases hp : parseFile osUser f.name f.contents with
        | error e => simp [hr, hc]
        | ok c => simp [hr, hc, ih]
      · simp [hr, hc]
    · simp [hr, ih]

/-- The file loop changes the catalog only at names of regular files. -/
theorem loadFiles_frame (osUser : Str) (canRead : Str → Bool) (es : List DirEntry)
    (cat : Catalog) (k : Str) (h : ∀ x ∈ es, x.regular = true → x.name ≠ k) :
    (loadFiles osUser canRead cat es).2 k = cat k := by
  induction es generalizing cat with
  | nil => simp [loadFiles]
  | cons f es ih =>
    have hes : ∀ x ∈ es, x.regular = true → x.name ≠ k := fun x hx => h x (by simp [hx])
    simp only [loadFiles_cons]
    by_cases hr : f.regular = true
    · by_cases hc : canRead f.name = true
      · cases hp : parseFile osUser f.name f.contents with
        | error e => simp [hr, hc]
        | ok c =>
          simp only [hr, hc, Bool.not_true, Bool.false_eq_true, if_false]
          rw [ih _ hes]
          have : k ≠ f.name := fun e => h f (by simp) hr e.symm
          simp [Catalog.set, this]
      · simp [hr, hc]
    · simp [hr, ih _ hes]

/-- The file loop succeeds when every regular file can be read and parses. -/
theorem loadFiles_ok (osUser : Str) (canRead : Str → Bool) (es : List DirEntry) (cat : Catalog)
    (h : ∀ x ∈ es, x.regular = true →
      canRead x.name = true ∧ ∃ c, parseFile osUser x.name x.contents = .ok c) :
    (loadFiles osUser canRead cat es).1 = none := by
  induction es generalizing cat with
  | nil => simp [loadFiles]
  | cons f es ih =>
    have hes : ∀ x ∈ es, x.regular = true →
        canRead x.name = true ∧ ∃ c, parseFile osUser x.name x.contents = .ok c :=
      fun x hx => h x (by simp [hx])
    simp only [loadFiles_cons]
    by_cases hr : f.regular = true
    · obtain ⟨hc, c, hp⟩ := h f (by simp) hr
      simp [hr, hc, hp, ih _ hes]
    · simp [hr, ih _ hes]

/-- After a successful file loop over entries of distinct names, the catalog
holds under each regular file's name the cluster parsed from that file. -/
theorem loadFiles_get (osUser : Str) (canRead : Str → Bool) (es : List DirEntry) (cat : Catalog)
    (hnd : (es.map DirEntry.name).Nodup)
    (h : ∀ x ∈ es, x.regular = true →
      canRead x.name = true ∧ ∃ c, parseFile osUser x.name x.contents = .ok c)
    (f : DirEntry) (hf : f ∈ es) (hr : f.regular = true) (c : SyncedCluster)
    (hp : parseFile osUser f.name f.contents = .ok c) :
    (loadFiles osUser canRead cat es).2 f.name = some c := by
  induction es generalizing cat with
  | nil => simp at hf
  | cons g es ih =>
    have hes : ∀ x ∈ es, x.regular = true →
        canRead x.name = true ∧ ∃ c, parseFile osUser x.name x.contents = .ok c :=
      fun x hx => h x (by simp [hx])
    have hnd' : (es.map DirEntry.name).Nodup := by
      simp only [List.map_cons, List.nodup_cons] at hnd; exact hnd.2
    have hg : ∀ x ∈ es, x.name ≠ g.name := by
      intro x hx e
      simp only [List.map_cons, List.nodup_cons] at hnd
      exact hnd.1 (by rw [← e]; exact List.mem_map_of_mem _ hx)
    simp only [loadFiles_cons]
    rcases List.mem_cons.mp hf with rfl | hf'
    · obtain ⟨hc, _⟩ := h f (by simp) hr
      simp only [hr, hc, hp, Bool.not_true, Bool.false_eq_true, if_false]
      rw [loadFiles_frame _ _ _ _ _ (fun x hx _ => hg x hx)]
      simp [Catalog.set]
    · by_cases hgr : g.regular = true
      · obtain ⟨hc, c', hp'⟩ := h g (by simp) hgr
        simp only [hgr, hc, hp', Bool.not_true, Bool.false_eq_true, if_false]
        exact ih _ hnd' hes hf'
      · simp only [hgr, Bool.not_false, if_true]
        exact ih _ hnd' hes hf'

theorem isMalformed_of_fields (l : Str) (hnc : (lineFirst l).head? ≠ some '#')
    (hbad : 4 ≤ (Fields l).length ∨ 2 ≤ (lineFirst l).count '@') : isMalformed l = true := by
  have hne : Fields l ≠ [] := by
    intro h
    rcases hbad with hb | hb
    · simp [h] at hb
    · simp [lineFirst, h] at hb
  have hd : isData l = true := by
    simp [isData, isBlank, isComment, hne, hnc]
  unfold isMalformed
  rcases hbad with hb | hb
  · have : 3 < (Fields l).length := by omega
    simp [hd, this]
  · have : 1 < (lineFirst l).count '@' := by omega
    simp [hd, this]

theorem not_isMalformed_of_wellformed (l : Str)
    (h : isBlank l = true ∨ isComment l = true ∨
      (1 ≤ (Fields l).length ∧ (Fields l).length ≤ 3 ∧ (lineFirst l).count '@' ≤ 1)) :
    isMalformed l = false := by
  unfold isMalformed isData
  rcases h with h | h | ⟨_, h3, h1⟩
  · simp [h]
  · simp [h]
  · have a : ¬ 3 < (Fields l).length := by omega
    have b : ¬ 1 < (lineFirst l).count '@' := by omega
    simp [a, b]

/-- The file loop fails with the error of a malformed line when the files
can be read and some regular file has a malformed line. -/
theorem loadFiles_malformed (osUser : Str) (canRead : Str → Bool) (es : List DirEntry)
    (cat : Catalog)
    (hread : ∀ x ∈ es, x.regular = true → canRead x.name = true)
    (h : ∃ f ∈ es, f.regular = true ∧ ∃ l ∈ Split f.contents '\n', isMalformed l = true) :
    ∃ l, isMalformed l = true ∧
      (loadFiles osUser canRead cat es).1 = some (HostsError.invalidHostsLine l) := by
  induction es generalizing cat with
  | nil => simp at h
  | cons g es ih =>
    have hread' : ∀ x ∈ es, x.regular = true → canRead x.name = true :=
      fun x hx => hread x (by simp [hx])
    rw [loadFiles_cons]
    by_cases hg : g.regular = true
    · have hc := hread g (by simp) hg
      simp only [hg, hc, Bool.not_true, Bool.false_eq_true, if_false]
      rcases parseLines_cases osUser (Split g.contents '\n') ⟨g.name, [], [], [], []⟩ with
        ⟨hall, hok⟩ | ⟨pre, l, post, _, _, hl, herr⟩
      · have hp : parseFile osUser g.name g.contents = _ := hok
        rw [hp]
        apply ih _ hread'
        obtain ⟨f, hf, hfr, l, hl, hm⟩ := h
        rcases List.mem_cons.mp hf with rfl | hf
        · rw [hall l hl] at hm; exact absurd hm (by simp)
        · exact ⟨f, hf, hfr, l, hl, hm⟩
      · have hp : parseFile osUser g.name g.contents = _ := herr
        rw [hp]
        exact ⟨l, hl, rfl⟩
    · simp only [hg, Bool.not_false, if_true]
      apply ih _ hread'
      obtain ⟨f, hf, hfr, l, hl, hm⟩ := h
      rcases List.mem_cons.mp hf with rfl | hf
      · exact absurd hfr hg
      · exact ⟨f, hf, hfr, l, hl, hm⟩

/-- C2, as the code has it: when the host directory can be listed and its
regular files read, and some regular file has a line whose first field does
not begin with a number sign and that has four or more fields, or two or more
at signs in its first field, loadClusters fails with an invalid-hosts-line
error, raised for a malformed line. -/
theorem C2_malformed_data_line_fails (osUser : Str) (hd : HostDir) (cat : Catalog)
    (file : DirEntry) (l : Str)
    (hlist : hd.listable = true)
    (hread : ∀ x ∈ hd.entries, x.regular = true → hd.canRead x.name = true)
    (hfile : file ∈ hd.entries) (hreg : file.regular = true)
    (hl : l ∈ Split file.contents '\n')
    (hnc : (lineFirst l).head? ≠ some '#')
    (hbad : 4 ≤ (Fields l).length ∨ 2 ≤ (lineFirst l).count '@') :
    ∃ l', isMalformed l' = true ∧
      (loadClusters osUser hd cat).1 = some (HostsError.invalidHostsLine l') := by
  unfold loadClusters
  simp only [hlist, Bool.not_true, Bool.false_eq_true, if_false]
  exact loadFiles_malformed osUser hd.canRead hd.entries cat hread
    ⟨file, hfile, hreg, l, hl, isMalformed_of_fields l hnc hbad⟩

/-- C2 at a concrete directory: the file demo has the line `a b c d`. -/
theorem C2_malformed_data_line_fails_witness :
    ∃ l', isMalformed l' = true ∧
      (loadClusters "me".toList (HostDir.plain [⟨"demo".toList, true, "a b c d\n".toList⟩])
        Catalog.empty).1 = some (HostsError.invalidHostsLine l') :=
  C2_malformed_data_line_fails "me".toList
    (HostDir.plain [⟨"demo".toList, true, "a b c d\n".toList⟩]) Catalog.empty
    ⟨"demo".toList, true, "a b c d\n".toList⟩ "a b c d".toList
    rfl (by intro x _ _; rfl) (by simp [HostDir.plain]) rfl (by decide) (by decide) (by decide)

/-- C2 as stated fails: the header line that syncHosts writes has four
fields, and a file made of it loads without an error, because a line whose
first field begins with a number sign is skipped before its fields are
counted. -/
theorem C2_comment_line_with_four_fields_loads :
    4 ≤ (Fields "# user@host  locality  vpcId".toList).length ∧
    "# user@host  locality  vpcId".toList ∈ Split "# user@host  locality  vpcId\n".toList '\n' ∧
    (loadClusters "me".toList
      (HostDir.plain [⟨"demo".toList, true, "# user@host  locality  vpcId\n".toList⟩])
      Catalog.empty).1 = none := by
  refine ⟨by decide, by decide, by decide⟩

/-- The cluster parsed from a file none of whose lines is malformed. -/
theorem parseFile_ok (osUser name contents : Str)
    (h : ∀ l ∈ Split contents '\n', isMalformed l = false) :
    ∃ c, parseFile osUser name contents = .ok c ∧ c.Name = name ∧
      c.VMs = (dataLines contents).map (fun l => addrHost (lineFirst l)) ∧
      c.Users = (dataLines contents).map (fun l => addrUser osUser (lineFirst l)) ∧
      c.Localities = (dataLines contents).map (fun l => (Fields l).getD 1 []) ∧
      c.VPCs = (dataLines contents).map (fun l => (Fields l).getD 2 []) := by
  refine ⟨_, parseLines_ok osUser _ _ h, ?_⟩
  obtain ⟨h1, h2, h3, h4, h5⟩ := addLine_foldl_fields
    (((Split contents '\n').filter isData).map (lineNode osUser)) ⟨name, [], [], [], []⟩
  refine ⟨h1, ?_, ?_, ?_, ?_⟩
  · rw [h2]; simp [dataLines, lineNode, Function.comp_def]
  · rw [h3]; simp [dataLines, lineNode, Function.comp_def]
  · rw [h4]; simp [dataLines, lineNode, Function.comp_def]
  · rw [h5]; simp [dataLines, lineNode, Function.comp_def]

/-- C4: when the host directory can be listed, its entries have distinct
names, its regular files can be read and each of their lines is blank, a
comment, or a data line with one to three fields and at most one at sign in
its first field, loadClusters succeeds and installs under each regular file's
name a cluster with one node per data line, in file order: the four
sequences are the hosts, users, localities and VPCs of the data lines. -/
theorem C4_wellformed_files_load (osUser : Str) (hd : HostDir) (cat : Catalog)
    (hlist : hd.listable = true)
    (hnd : (hd.entries.map DirEntry.name).Nodup)
    (hread : ∀ x ∈ hd.entries, x.regular = true → hd.canRead x.name = true)
    (hok : ∀ x ∈ hd.entries, x.regular = true → ∀ l ∈ Split x.contents '\n',
      isBlank l = true ∨ isComment l = true ∨
        (1 ≤ (Fields l).length ∧ (Fields l).length ≤ 3 ∧ (lineFirst l).count '@' ≤ 1)) :
    (loadClusters osUser hd cat).1 = none ∧
    ∀ x ∈ hd.entries, x.regular = true →
      ∃ c, (loadClusters osUser hd cat).2 x.name = some c ∧ c.Name = x.name ∧
        c.VMs.length = (dataLines x.contents).length ∧
        c.VMs = (dataLines x.contents).map (fun l => addrHost (lineFirst l)) ∧
        c.Users = (dataLines x.contents).map (fun l => addrUser osUser (lineFirst l)) ∧
        c.Localities = (dataLines x.contents).map (fun l => (Fields l).getD 1 []) ∧
        c.VPCs = (dataLines x.contents).map (fun l => (Fields l).getD 2 []) := by
  have hall : ∀ x ∈ hd.entries, x.regular = true →
      hd.canRead x.name = true ∧ ∃ c, parseFile osUser x.name x.contents = .ok c := by
    intro x hx hr
    obtain ⟨c, hc, _⟩ := parseFile_ok osUser x.name x.contents
      (fun l hl => not_isMalformed_of_wellformed l (hok x hx hr l hl))
    exact ⟨hread x hx hr, c, hc⟩
  unfold loadClusters
  simp only [hlist, Bool.not_true, Bool.false_eq_true, if_false]
  refine ⟨loadFiles_ok osUser hd.canRead hd.entries cat hall, ?_⟩
  intro x hx hr
  obtain ⟨c, hc, hn, hv, hu, hlo, hvp⟩ := parseFile_ok osUser x.name x.contents
    (fun l hl => not_isMalformed_of_wellformed l (hok x hx hr l hl))
  exact ⟨c, loadFiles_get osUser hd.canRead hd.entries cat hnd hall x hx hr c hc, hn,
    by rw [hv]; simp, hv, hu, hlo, hvp⟩

/-- C4 at a concrete directory: a file with a comment, a blank line and two
data lines gives a cluster of two nodes. -/
theorem C4_wellformed_files_load_witness :
    (loadClusters "me".toList
      (HostDir.plain [⟨"demo".toList, true, "# c\nalice@n1 loc v\n\nn2\n".toList⟩])
      Catalog.empty).1 = none ∧
    ∀ x ∈ (HostDir.plain [⟨"demo".toList, true, "# c\nalice@n1 loc v\n\nn2\n".toList⟩]).entries,
      x.regular = true →
      ∃ c, (loadClusters "me".toList
        (HostDir.plain [⟨"demo".toList, true, "# c\nalice@n1 loc v\n\nn2\n".toList⟩])
        Catalog.empty).2 x.name = some c ∧ c.Name = x.name ∧
        c.VMs.length = (dataLines x.contents).length ∧
        c.VMs = (dataLines x.contents).map (fun l => addrHost (lineFirst l)) ∧
        c.Users = (dataLines x.contents).map (fun l => addrUser "me".toList (lineFirst l)) ∧
        c.Localities = (dataLines x.contents).map (fun l => (Fields l).getD 1 []) ∧
        c.VPCs = (dataLines x.contents).map (fun l => (Fields l).getD 2 []) :=
  C4_wellformed_files_load "me".toList
    (HostDir.plain [⟨"demo".toList, true, "# c\nalice@n1 loc v\n\nn2\n".toList⟩]) Catalog.empty
    rfl (by decide) (by intro x _ _; rfl)
    (by
      intro x hx _ l hl
      have hx' : x = ⟨"demo".toList, true, "# c\nalice@n1 loc v\n\nn2\n".toList⟩ := by
        simpa [HostDir.plain] using hx
      subst hx'
      have hl' : l ∈ ["# c".toList, "alice@n1 loc v".toList, [], "n2".toList, []] := by
        have e : Split "# c\nalice@n1 loc v\n\nn2\n".toList '\n' =
            ["# c".toList, "alice@n1 loc v".toList, [], "n2".toList, []] := by decide
        rw [← e]; exact hl
      simp only [List.mem_cons, List.mem_singleton, List.not_mem_nil, or_false] at hl'
      rcases hl' with rfl | rfl | rfl | rfl | rfl
      · right; left; decide
      · right; right; decide
      · left; decide
      · right; right; decide
      · left; decide)

/-- C5: a data line with at most three fields is accepted when its address
field has no at sign, with the whole field as host and the local
operating-system user as user, and when its address field is u@h with no
further at sign, with user u and host h; so `alice@node1` gives user alice and
host node1. -/
theorem C5_address_field_split (osUser l : Str) (hdata : isData l = true)
    (hlen : (Fields l).length ≤ 3) :
    ('@' ∉ lineFirst l →
      ∃ loc vpc, parseLine osUser l = .ok (some ⟨lineFirst l, osUser, loc, vpc⟩)) ∧
    (∀ u h, lineFirst l = u ++ '@' :: h → '@' ∉ u → '@' ∉ h →
      ∃ loc vpc, parseLine osUser l = .ok (some ⟨h, u, loc, vpc⟩)) ∧
    parseLine osUser "alice@node1".toList =
      .ok (some ⟨"node1".toList, "alice".toList, [], []⟩) := by
  have h3 : ¬ 3 < (Fields l).length := by omega
  refine ⟨?_, ?_, ?_⟩
  · intro hn
    have h0 : (lineFirst l).count '@' = 0 := List.count_eq_zero.mpr hn
    refine ⟨(Fields l).getD 1 [], (Fields l).getD 2 [], ?_⟩
    rw [parseLine_eq]
    simp [hdata, isMalformed, h3, h0, lineNode, addrHost, addrUser, hn]
  · intro u h he hu hh
    have hm : '@' ∈ lineFirst l := by rw [he]; simp
    have hcnt : (lineFirst l).count '@' = 1 := by
      rw [he, List.count_append, List.count_cons_self, List.count_eq_zero.mpr hu,
        List.count_eq_zero.mpr hh]
    have htw : (lineFirst l).takeWhile (fun ch => ch != '@') = u := by
      have := split_at_sign _ hcnt
      rw [he, Split_append_sep _ _ _ hu, Split_of_not_mem _ _ hh] at this
      rw [he]; simp at this; exact this.1.symm
    have hdw : ((lineFirst l).dropWhile (fun ch => ch != '@')).drop 1 = h := by
      have := split_at_sign _ hcnt
      rw [he, Split_append_sep _ _ _ hu, Split_of_not_mem _ _ hh] at this
      rw [he]; simp at this ⊢; exact this.2.symm
    refine ⟨(Fields l).getD 1 [], (Fields l).getD 2 [], ?_⟩
    rw [parseLine_eq]
    simp only [hdata, isMalformed, h3, hcnt, lineNode, addrHost, addrUser, hm, htw, hdw]
    simp
  · rfl

/-- C5 at the line `bob@h1 east`: user bob, host h1. -/
theorem C5_address_field_split_witness :
    ∃ loc vpc, parseLine "me".toList "bob@h1 east".toList =
      .ok (some ⟨"h1".toList, "bob".toList, loc, vpc⟩) :=
  (C5_address_field_split "me".toList "bob@h1 east".toList (by decide) (by decide)).2.1
    "bob".toList "h1".toList (by decide) (by decide) (by decide)

/-- When the file loop returns the error of a malformed line, the listing
splits at the file that has the line: the files before it were read and
parsed, and the catalog is the one the loop over those files leaves. -/
theorem loadFiles_error_split (osUser : Str) (canRead : Str → Bool) (es : List DirEntry)
    (cat : Catalog) (l : Str)
    (h : (loadFiles osUser canRead cat es).1 = some (HostsError.invalidHostsLine l)) :
    ∃ pre file post, es = pre ++ file :: post ∧ file.regular = true ∧
      parseFile osUser file.name file.contents = .error (HostsError.invalidHostsLine l) ∧
      (∀ x ∈ pre, x.regular = true →
        canRead x.name = true ∧ ∃ c, parseFile osUser x.name x.contents = .ok c) ∧
      (loadFiles osUser canRead cat es).2 = (loadFiles osUser canRead cat pre).2 := by
  induction es generalizing cat with
  | nil => simp [loadFiles] at h
  | cons g es ih =>
    rw [loadFiles_cons] at h ⊢
    by_cases hg : g.regular = true
    · by_cases hc : canRead g.name = true
      · simp only [hg, hc, Bool.not_true, Bool.false_eq_true, if_false] at h ⊢
        cases hp : parseFile osUser g.name g.contents with
        | error e =>
          rw [hp] at h
          have he : e = HostsError.invalidHostsLine l := by simpa using h
          subst he
          exact ⟨[], g, es, rfl, hg, hp, by simp, by simp [loadFiles]⟩
        | ok c =>
          rw [hp] at h
          obtain ⟨pre, file, post, he, hr, hf, hpre, hcat⟩ := ih _ h
          refine ⟨g :: pre, file, post, by simp [he], hr, hf, ?_, ?_⟩
          · intro x hx hxr
            rcases List.mem_cons.mp hx with rfl | hx
            · exact ⟨hc, c, hp⟩
            · exact hpre x hx hxr
          · simp only [hcat]
            rw [loadFiles_cons]
            simp [hg, hc, hp]
      · simp [hg, hc] at h
    · simp only [hg, Bool.not_false, if_true] at h ⊢
      obtain ⟨pre, file, post, he, hr, hf, hpre, hcat⟩ := ih _ h
      refine ⟨g :: pre, file, post, by simp [he], hr, hf, ?_, ?_⟩
      · intro x hx hxr
        rcases List.mem_cons.mp hx with rfl | hx
        · exact absurd hxr hg
        · exact hpre x hx hxr
      · rw [hcat, loadFiles_cons]
        simp [hg]

/-- C3, as the code has it: when loadClusters on a directory of distinct
names fails on a malformed line, the listing splits at the file holding that
line; every regular file listed before it has been parsed and installed
under its name, and the catalog is what it was at every name that is not the
name of such an earlier regular file. The failing file and the files after
it install nothing. -/
theorem C3_failed_load_keeps_earlier_files (osUser : Str) (hd : HostDir) (cat : Catalog)
    (l : Str) (hnd : (hd.entries.map DirEntry.name).Nodup)
    (herr : (loadClusters osUser hd cat).1 = some (HostsError.invalidHostsLine l)) :
    ∃ pre file post, hd.entries = pre ++ file :: post ∧ file.regular = true ∧
      parseFile osUser file.name file.contents = .error (HostsError.invalidHostsLine l) ∧
      (∀ x ∈ pre, x.regular = true →
        ∃ c, parseFile osUser x.name x.contents = .ok c ∧
          (loadClusters osUser hd cat).2 x.name = some c) ∧
      (∀ k, (∀ x ∈ pre, x.regular = true → x.name ≠ k) →
        (loadClusters osUser hd cat).2 k = cat k) := by
  unfold loadClusters at herr ⊢
  by_cases hlist : hd.listable = true
  · simp only [hlist, Bool.not_true, Bool.false_eq_true, if_false] at herr ⊢
    obtain ⟨pre, file, post, he, hr, hf, hpre, hcat⟩ :=
      loadFiles_error_split osUser hd.canRead hd.entries cat l herr
    have hndpre : (pre.map DirEntry.name).Nodup := by
      rw [he, List.map_append] at hnd
      exact (List.nodup_append.mp hnd).1
    refine ⟨pre, file, post, he, hr, hf, ?_, ?_⟩
    · intro x hx hxr
      obtain ⟨_, c, hc⟩ := hpre x hx hxr
      refine ⟨c, hc, ?_⟩
      rw [hcat]
      exact loadFiles_get osUser hd.canRead pre cat hndpre hpre x hx hxr c hc
    · intro k hk
      rw [hcat]
      exact loadFiles_frame osUser hd.canRead pre cat k hk
  · simp [hlist] at herr

/-- C3 at a concrete directory: file a is well formed, file b has the line
`x y z w`; after the failed load the catalog holds the cluster of a. -/
theorem C3_failed_load_keeps_earlier_files_witness :
    ∃ pre file post,
      (HostDir.plain [⟨"a".toList, true, "h1\n".toList⟩,
        ⟨"b".toList, true, "x y z w\n".toList⟩]).entries = pre ++ file :: post ∧
      file.regular = true ∧
      parseFile "me".toList file.name file.contents =
        .error (HostsError.invalidHostsLine "x y z w".toList) ∧
      (∀ x ∈ pre, x.regular = true →
        ∃ c, parseFile "me".toList x.name x.contents = .ok c ∧
          (loadClusters "me".toList (HostDir.plain [⟨"a".toList, true, "h1\n".toList⟩,
            ⟨"b".toList, true, "x y z w\n".toList⟩]) Catalog.empty).2 x.name = some c) ∧
      (∀ k, (∀ x ∈ pre, x.regular = true → x.name ≠ k) →
        (loadClusters "me".toList (HostDir.plain [⟨"a".toList, true, "h1\n".toList⟩,
          ⟨"b".toList, true, "x y z w\n".toList⟩]) Catalog.empty).2 k = Catalog.empty k) :=
  C3_failed_load_keeps_earlier_files "me".toList
    (HostDir.plain [⟨"a".toList, true, "h1\n".toList⟩, ⟨"b".toList, true, "x y z w\n".toList⟩])
    Catalog.empty "x y z w".toList (by decide) (by decide)

/-- C3 as stated fails: with a well-formed file a listed before a file b
that has a malformed line, loadClusters returns the invalid-hosts-line error
and the catalog, empty before the call, holds the cluster of a after it. -/
theorem C3_failed_load_changes_catalog :
    (loadClusters "me".toList (HostDir.plain [⟨"a".toList, true, "h1\n".toList⟩,
      ⟨"b".toList, true, "x y z w\n".toList⟩]) Catalog.empty).1 =
        some (HostsError.invalidHostsLine "x y z w".toList) ∧
    Catalog.empty "a".toList = none ∧
    (loadClusters "me".toList (HostDir.plain [⟨"a".toList, true, "h1\n".toList⟩,
      ⟨"b".toList, true, "x y z w\n".toList⟩]) Catalog.empty).2 "a".toList =
        some ⟨"a".toList, ["h1".toList], ["me".toList], [[]], [[]]⟩ ∧
    (loadClusters "me".toList (HostDir.plain [⟨"a".toList, true, "h1\n".toList⟩,
      ⟨"b".toList, true, "x y z w\n".toList⟩]) Catalog.empty).2 ≠ Catalog.empty := by
  refine ⟨by decide, rfl, by decide, ?_⟩
  intro h
  have h2 := congrFun h "a".toList
  revert h2
  decide

/-! ## Lemmas: the scan of expand -/

theorem replaceParams_no_span {σ : Type} (f : σ → Str → Str × σ) (st : σ) (arg : Str)
    (h : ∀ pre mid post, '}' ∉ mid → arg ≠ pre ++ '{' :: (mid ++ '}' :: post)) :
    replaceParams f st none arg = (arg, st) := by
  induction arg with
  | nil => simp [replaceParams]
  | cons ch cs ih =>
    have hcs : ∀ pre mid post, '}' ∉ mid → cs ≠ pre ++ '{' :: (mid ++ '}' :: post) := by
      intro pre mid post hm e
      exact h (ch :: pre) mid post hm (by simp [e])
    have hno : ¬ (ch = '{' ∧ '}' ∈ cs) := by
      rintro ⟨rfl, hmem⟩
      obtain ⟨mid, x, post, he, hmid, hx⟩ :=
        exists_first (fun y => y == '}') cs ⟨'}', hmem, by simp⟩
      have hx' : x = '}' := by simpa using hx
      subst hx'
      refine h [] mid post ?_ (by simp [he])
      intro hin
      have := hmid _ hin
      simp at this
    rw [replaceParams]
    simp only [hno, if_false, ih hcs]

theorem no_span_of_hasSpan (arg : Str) (h : hasSpan arg = false) (pre mid post : Str) :
    arg ≠ pre ++ '{' :: (mid ++ '}' :: post) := by
  induction pre generalizing arg with
  | nil =>
    intro e
    subst e
    simp [hasSpan] at h
  | cons p pre ih =>
    intro e
    subst e
    simp only [List.cons_append, hasSpan, Bool.or_eq_false_iff] at h
    exact ih _ h.2 rfl

/-- C8: an argument with no brace span (no opening brace followed later by a
closing brace with no closing brace in between) is returned unchanged by
expand, for every cluster and every expander, whose maps stay as they were. -/
theorem C8_no_span_unchanged (D : Deps) (e : expander) (c : SyncedCluster) (arg : Str)
    (h : ∀ pre mid post, '}' ∉ mid → arg ≠ pre ++ '{' :: (mid ++ '}' :: post)) :
    expand D e c arg = (arg, e) :=
  replaceParams_no_span (expandParam D c) e arg h

/-- C8 at the argument `echo \x7d\x7b hi`, whose closing brace comes first. -/
theorem C8_no_span_unchanged_witness :
    expand sampleDeps (expander.fresh 1) sampleCluster "echo \x7d\x7b hi".toList
      = ("echo \x7d\x7b hi".toList, expander.fresh 1) :=
  C8_no_span_unchanged sampleDeps (expander.fresh 1) sampleCluster "echo \x7d\x7b hi".toList
    (fun pre mid post _ => no_span_of_hasSpan _ (by decide) pre mid post)

/-! ## Lemmas: the token families -/

theorem filterMap_of_some {α β : Type} (m : α → Option β) (g : α → β) (xs : List α)
    (h : ∀ x ∈ xs, m x = some (g x)) : xs.filterMap m = xs.map g := by
  induction xs with
  | nil => simp
  | cons x xs ih =>
    have hx := h x (by simp)
    have hxs : ∀ y ∈ xs, m y = some (g y) := fun y hy => h y (by simp [hy])
    simp [List.filterMap_cons, hx, ih hxs]

theorem replaceParams_inside {σ : Type} (f : σ → Str → Str × σ) (st : σ) (m mid rest : Str)
    (h : '}' ∉ mid) :
    replaceParams f st (some m) (mid ++ '}' :: rest) =
      ((f st (m ++ mid ++ ['}'])).1 ++ (replaceParams f (f st (m ++ mid ++ ['}'])).2 none rest).1,
        (replaceParams f (f st (m ++ mid ++ ['}'])).2 none rest).2) := by
  induction mid generalizing m with
  | nil => simp [replaceParams]
  | cons ch cs ih =>
    have hc : ch ≠ '}' := fun e => h (by simp [e])
    have hcs : '}' ∉ cs := fun e => h (by simp [e])
    simp only [List.cons_append]
    rw [replaceParams]
    simp only [hc, if_false]
    rw [ih _ hcs]
    simp

/-- The scan of expand at a brace span: the span is replaced by what the
replacement function returns for it, and the scan resumes after the span. -/
theorem replaceParams_span {σ : Type} (f : σ → Str → Str × σ) (st : σ) (mid rest : Str)
    (h : '}' ∉ mid) :
    replaceParams f st none ('{' :: (mid ++ '}' :: rest)) =
      ((f st ('{' :: mid ++ ['}'])).1 ++ (replaceParams f (f st ('{' :: mid ++ ['}'])).2 none rest).1,
        (replaceParams f (f st ('{' :: mid ++ ['}'])).2 none rest).2) := by
  rw [replaceParams]
  have : '}' ∈ mid ++ '}' :: rest := by simp
  simp only [this, and_self, if_true]
  exact replaceParams_inside f st ['{'] mid rest h

theorem maybeExpandMap_snd (D : Deps) (c : SyncedCluster) (m : IntMap) (spec : Str) :
    (maybeExpandMap D c m spec).2 = true := by
  unfold maybeExpandMap
  simp only
  cases D.ListNodes (if spec = [] then "all".toList else List.drop 1 spec) c.VMs.length <;> rfl

/-- The URL map an expander uses: the map it holds, or the one pgurls builds
when it holds none. -/
theorem expandParam_pgurl (D : Deps) (c : SyncedCluster) (e : expander) (s g : Str)
    (h : pgURLRe s = some g) :
    expandParam D c e s =
      ((maybeExpandMap D c (e.pgURLs.getD (D.pgurls c (D.allNodes c.VMs.length))) g).1,
        { e with pgURLs := some (e.pgURLs.getD (D.pgurls c (D.allNodes c.VMs.length))) }) := by
  unfold expandParam maybeExpandPgURL
  simp only [h, maybeExpandMap_snd, if_true]
  cases e.pgURLs <;> rfl

theorem expand_pgurl (D : Deps) (e : expander) (c : SyncedCluster) (h : e.pgURLs = none) :
    (expand D e c "\x7bpgurl\x7d".toList).1 =
      (maybeExpandMap D c (D.pgurls c (D.allNodes c.VMs.length)) []).1 := by
  have hs := replaceParams_span (expandParam D c) e "pgurl".toList [] (by decide)
  have e1 : ("\x7bpgurl\x7d".toList : Str) = '{' :: ("pgurl".toList ++ '}' :: []) := by decide
  have e2 : ('{' :: "pgurl".toList ++ ['}'] : Str) = "\x7bpgurl\x7d".toList := by decide
  unfold expand
  rw [e1, hs, e2, expandParam_pgurl D c e _ [] (by decide), h]
  simp [replaceParams]

theorem expand_pgurl_1_3 (D : Deps) (e : expander) (c : SyncedCluster)
    (h : e.pgURLs = none ∨ e.pgURLs = some (D.pgurls c (D.allNodes c.VMs.length))) :
    (expand D e c "\x7bpgurl:1,3\x7d".toList).1 =
      (maybeExpandMap D c (D.pgurls c (D.allNodes c.VMs.length)) ":1,3".toList).1 := by
  have hs := replaceParams_span (expandParam D c) e "pgurl:1,3".toList [] (by decide)
  have e1 : ("\x7bpgurl:1,3\x7d".toList : Str) = '{' :: ("pgurl:1,3".toList ++ '}' :: []) := by
    decide
  have e2 : ('{' :: "pgurl:1,3".toList ++ ['}'] : Str) = "\x7bpgurl:1,3\x7d".toList := by decide
  have hg : e.pgURLs.getD (D.pgurls c (D.allNodes c.VMs.length))
      = D.pgurls c (D.allNodes c.VMs.length) := by
    rcases h with h | h <;> simp [h]
  unfold expand
  rw [e1, hs, e2, expandParam_pgurl D c e _ ":1,3".toList (by decide), hg]
  simp [replaceParams]

/-- C9: on an expander whose URL map is not yet built, for a cluster of n
nodes where ListNodes resolves `all` to 1, ..., n and the URL table built by
pgurls has the entry url i for each of these nodes, expand of
`\x7bpgurl\x7d` is url 1, url 2, ..., url n joined by single spaces. -/
theorem C9_pgurl_all_nodes_in_order (D : Deps) (e : expander) (c : SyncedCluster)
    (url : Int → Str) (hfresh : e.pgURLs = none)
    (hall : D.ListNodes "all".toList c.VMs.length = .ok (nodes1 c.VMs.length))
    (hurl : ∀ i ∈ nodes1 c.VMs.length,
      D.pgurls c (D.allNodes c.VMs.length) i = some (url i)) :
    (expand D e c "\x7bpgurl\x7d".toList).1 = joinSpace ((nodes1 c.VMs.length).map url) := by
  rw [expand_pgurl D e c hfresh]
  unfold maybeExpandMap
  simp only [if_true]
  rw [hall]
  simp only
  rw [filterMap_of_some _ url _ hurl]

/-- C9 on the sample cluster of three nodes. -/
theorem C9_pgurl_all_nodes_in_order_witness :
    (expand sampleDeps (expander.fresh 2) sampleCluster "\x7bpgurl\x7d".toList).1
      = "pg://n1 pg://n2 pg://n3".toList :=
  C9_pgurl_all_nodes_in_order sampleDeps (expander.fresh 2) sampleCluster
    (fun i => "pg://n".toList ++ Sprint i) rfl (by decide) (by decide)

/-- C10, as the code has it: on an expander whose URL map is not yet built or
is the table built by pgurls, for a cluster of any size where ListNodes
resolves `1,3` to the sequence 1, 3 and the URL table has the entries u1 for
node 1 and u3 for node 3, expand of `\x7bpgurl:1,3\x7d` is u1, one space,
u3. -/
theorem C10_pgurl_1_3 (D : Deps) (e : expander) (c : SyncedCluster) (u1 u3 : Str)
    (hcache : e.pgURLs = none ∨ e.pgURLs = some (D.pgurls c (D.allNodes c.VMs.length)))
    (hsel : D.ListNodes "1,3".toList c.VMs.length = .ok [1, 3])
    (h1 : D.pgurls c (D.allNodes c.VMs.length) 1 = some u1)
    (h3 : D.pgurls c (D.allNodes c.VMs.length) 3 = some u3) :
    (expand D e c "\x7bpgurl:1,3\x7d".toList).1 = u1 ++ ' ' :: u3 := by
  rw [expand_pgurl_1_3 D e c hcache]
  unfold maybeExpandMap
  have hd : (":1,3".toList : Str).drop 1 = "1,3".toList := by decide
  have hne : (":1,3".toList : Str) ≠ [] := by decide
  simp only [hne, if_false, hd]
  rw [hsel]
  simp [List.filterMap_cons, h1, h3, joinSpace]

/-- C10 on the sample cluster of three nodes. -/
theorem C10_pgurl_1_3_witness :
    (expand sampleDeps (expander.fresh 2) sampleCluster "\x7bpgurl:1,3\x7d".toList).1
      = "pg://n1 pg://n3".toList :=
  C10_pgurl_1_3 sampleDeps (expander.fresh 2) sampleCluster
    "pg://n1".toList "pg://n3".toList (Or.inl rfl) (by decide) (by decide) (by decide)

/-- C10 fails on a cluster of two nodes: ListNodes resolves the selection to
1, 3, the URL table built over the nodes of the cluster has no entry for
node 3, and expand returns the URL of node 1 alone. -/
theorem C10_two_node_cluster_gives_one_url :
    sampleDeps.ListNodes "1,3".toList twoNodeCluster.VMs.length = .ok [1, 3] ∧
    sampleDeps.pgurls twoNodeCluster (sampleDeps.allNodes twoNodeCluster.VMs.length) 3 = none ∧
    (expand sampleDeps (expander.fresh 1) twoNodeCluster "\x7bpgurl:1,3\x7d".toList).1
      = "pg://n1".toList := by
  decide

/-- The function literal of expand, by cases on the three regular
expressions. -/
theorem expandParam_eq (D : Deps) (c : SyncedCluster) (e : expander) (s : Str) :
    expandParam D c e s =
      match pgURLRe s with
      | some g =>
        ((maybeExpandMap D c (e.pgURLs.getD (D.pgurls c (D.allNodes c.VMs.length))) g).1,
          { e with pgURLs := some (e.pgURLs.getD (D.pgurls c (D.allNodes c.VMs.length))) })
      | none =>
        match pgPortRe s with
        | some g =>
          ((maybeExpandMap D c (e.pgPorts.getD (buildPgPorts D c)) g).1,
            { e with pgPorts := some (e.pgPorts.getD (buildPgPorts D c)) })
        | none => if storeDirRe s then (D.NodeDir c e.node, e) else (s, e) := by
  cases hu : pgURLRe s with
  | some g => exact expandParam_pgurl D c e s g hu
  | none =>
    unfold expandParam maybeExpandPgURL maybeExpandPgPort maybeExpandStoreDir
    simp only [hu]
    cases hp : pgPortRe s with
    | some g =>
      simp only [maybeExpandMap_snd, if_true, Bool.false_eq_true, if_false]
      cases e.pgPorts <;> rfl
    | none =>
      by_cases hs : storeDirRe s = true <;> simp [hs]

/-- One token on a coherent expander: the replacement text is the one a
fresh expander for the same node gives, and the expander stays coherent. -/
theorem expandParam_coherent (D : Deps) (c : SyncedCluster) (e e2 : expander) (s : Str)
    (h : coherent D c e) (h2 : coherent D c e2) (hn : e.node = e2.node) :
    (expandParam D c e s).1 = (expandParam D c e2 s).1 ∧
    coherent D c (expandParam D c e s).2 ∧ coherent D c (expandParam D c e2 s).2 ∧
    (expandParam D c e s).2.node = (expandParam D c e2 s).2.node := by
  have key : ∀ x : expander, coherent D c x →
      x.pgURLs.getD (D.pgurls c (D.allNodes c.VMs.length))
        = D.pgurls c (D.allNodes c.VMs.length) ∧
      x.pgPorts.getD (buildPgPorts D c) = buildPgPorts D c := by
    intro x hx
    obtain ⟨hu, hp⟩ := hx
    constructor
    · rcases hu with hu | hu <;> simp [hu]
    · rcases hp with hp | hp <;> simp [hp]
  rw [expandParam_eq D c e s, expandParam_eq D c e2 s]
  obtain ⟨k1, k2⟩ := key e h
  obtain ⟨k3, k4⟩ := key e2 h2
  cases pgURLRe s with
  | some g =>
    simp only [k1, k3]
    exact ⟨trivial, ⟨Or.inr rfl, h.2⟩, ⟨Or.inr rfl, h2.2⟩, hn⟩
  | none =>
    cases pgPortRe s with
    | some g =>
      simp only [k2, k4]
      exact ⟨trivial, ⟨h.1, Or.inr rfl⟩, ⟨h2.1, Or.inr rfl⟩, hn⟩
    | none =>
      by_cases hs : storeDirRe s = true
      · simp only [hs, if_true]
        exact ⟨by rw [hn], h, h2, hn⟩
      · have hs2 : storeDirRe s = false := by simpa using hs
        simp only [hs2, Bool.false_eq_true, if_false]
        exact ⟨trivial, h, h2, hn⟩

/-- The scan of expand gives the same text from two coherent expanders for
the same node, and leaves both coherent. -/
theorem replaceParams_coherent (D : Deps) (c : SyncedCluster) (arg : Str) :
    ∀ (mode : Option Str) (e e2 : expander), coherent D c e → coherent D c e2 →
      e.node = e2.node →
      (replaceParams (expandParam D c) e mode arg).1
        = (replaceParams (expandParam D c) e2 mode arg).1 ∧
      coherent D c (replaceParams (expandParam D c) e mode arg).2 ∧
      coherent D c (replaceParams (expandParam D c) e2 mode arg).2 ∧
      (replaceParams (expandParam D c) e mode arg).2.node
        = (replaceParams (expandParam D c) e2 mode arg).2.node := by
  induction arg with
  | nil =>
    intro mode e e2 h h2 hn
    cases mode <;> simp [replaceParams, h, h2, hn]
  | cons ch cs ih =>
    intro mode e e2 h h2 hn
    cases mode with
    | none =>
      rw [replaceParams, replaceParams]
      by_cases hb : ch = '{' ∧ '}' ∈ cs
      · simp only [hb, and_self, if_true]
        exact ih _ e e2 h h2 hn
      · simp only [hb, if_false]
        obtain ⟨i1, i2, i3, i4⟩ := ih none e e2 h h2 hn
        exact ⟨by rw [i1], i2, i3, i4⟩
    | some m =>
      rw [replaceParams, replaceParams]
      by_cases hb : ch = '}'
      · simp only [hb, if_true]
        obtain ⟨p1, p2, p3, p4⟩ := expandParam_coherent D c e e2 (m ++ ['}']) h h2 hn
        obtain ⟨i1, i2, i3, i4⟩ := ih none _ _ p2 p3 p4
        exact ⟨by rw [p1, i1], i2, i3, i4⟩
      · simp only [hb, if_false]
        exact ih _ e e2 h h2 hn

theorem coherent_fresh (D : Deps) (c : SyncedCluster) (node : Int) :
    coherent D c (expander.fresh node) :=
  ⟨Or.inl rfl, Or.inl rfl⟩

theorem closedFrom_true_mem (s : Str) (h : closedFrom true s = true) : '}' ∈ s := by
  induction s with
  | nil => simp [closedFrom] at h
  | cons ch cs ih =>
    by_cases hc : ch = '}'
    · simp [hc]
    · simp only [closedFrom, hc, if_false] at h
      simp [ih h]

/-- The scan of expand over a text whose first part ends outside a brace
span: the first part is scanned on its own, then the rest. -/
theorem replaceParams_append_closed {σ : Type} (f : σ → Str → Str × σ) (pre rest : Str) :
    (∀ st, closedFrom false pre = true →
      replaceParams f st none (pre ++ rest) =
        ((replaceParams f st none pre).1
            ++ (replaceParams f (replaceParams f st none pre).2 none rest).1,
          (replaceParams f (replaceParams f st none pre).2 none rest).2)) ∧
    (∀ st m, closedFrom true pre = true →
      replaceParams f st (some m) (pre ++ rest) =
        ((replaceParams f st (some m) pre).1
            ++ (replaceParams f (replaceParams f st (some m) pre).2 none rest).1,
          (replaceParams f (replaceParams f st (some m) pre).2 none rest).2)) := by
  induction pre with
  | nil =>
    constructor
    · intro st _; simp [replaceParams]
    · intro st m h; simp [closedFrom] at h
  | cons ch cs ih =>
    obtain ⟨ih1, ih2⟩ := ih
    constructor
    · intro st h
      simp only [List.cons_append]
      rw [replaceParams, replaceParams]
      by_cases hc : ch = '{'
      · simp only [closedFrom, hc, if_true] at h
        have hm := closedFrom_true_mem cs h
        have hm2 : '}' ∈ cs ++ rest := by simp [hm]
        simp only [hc, hm, hm2, and_self, if_true]
        exact ih2 st _ h
      · simp only [closedFrom, hc, if_false] at h
        simp only [hc, false_and, if_false]
        rw [ih1 st h]
        simp
    · intro st m h
      simp only [List.cons_append]
      rw [replaceParams, replaceParams]
      by_cases hc : ch = '}'
      · simp only [closedFrom, hc, if_true] at h
        simp only [hc, if_true]
        rw [ih1 _ h]
        simp
      · simp only [closedFrom, hc, if_false] at h
        simp only [hc, if_false]
        exact ih2 st _ h

theorem dropLit_append (p s : Str) : dropLit p (p ++ s) = some s := by
  induction p with
  | nil => cases s <;> rfl
  | cons a p ih => simp [dropLit, ih]

theorem tokenAt_no_brace (name s : Str) (h : s.head? ≠ some '{') : tokenAt name s = none := by
  unfold tokenAt
  cases s with
  | nil => simp [dropLit]
  | cons ch cs =>
    have hc : ¬ '{' = ch := fun e => h (by simp [← e])
    simp [dropLit, hc]

theorem findToken_no_brace (name s : Str) (h : '{' ∉ s) : findToken name s = none := by
  induction s with
  | nil => rfl
  | cons ch cs ih =>
    have hc : ch ≠ '{' := fun e => h (by simp [e])
    have hcs : '{' ∉ cs := fun e => h (by simp [e])
    rw [findToken, tokenAt_no_brace name (ch :: cs) (by simpa using hc)]
    exact ih hcs

theorem takeWhile_spec (spec rest : Str) (h : ∀ ch ∈ spec, isSpecChar ch = true) :
    (spec ++ '}' :: rest).takeWhile isSpecChar = spec ∧
    (spec ++ '}' :: rest).dropWhile isSpecChar = '}' :: rest := by
  induction spec with
  | nil =>
    have : isSpecChar '}' = false := by decide
    simp [List.takeWhile, List.dropWhile, this]
  | cons ch cs ih =>
    have hc := h ch (by simp)
    obtain ⟨i1, i2⟩ := ih (fun x hx => h x (by simp [hx]))
    simp [List.takeWhile, List.dropWhile, hc, i1, i2]

/-- The regular expression of a token family matches a token of that family
that carries a node specification, with the specification as group 1. -/
theorem findToken_spec (name spec rest : Str) (hne : spec ≠ [])
    (h : ∀ ch ∈ spec, isSpecChar ch = true) :
    findToken name ('{' :: (name ++ ':' :: (spec ++ '}' :: rest))) = some (':' :: spec) := by
  have e : ('{' :: (name ++ ':' :: (spec ++ '}' :: rest)) : Str)
      = ('{' :: name) ++ (':' :: (spec ++ '}' :: rest)) := by simp
  obtain ⟨t1, t2⟩ := takeWhile_spec spec rest h
  rw [findToken]
  have : tokenAt name ('{' :: (name ++ ':' :: (spec ++ '}' :: rest))) = some (':' :: spec) := by
    unfold tokenAt
    rw [e, dropLit_append]
    simp [t1, t2, hne]
  rw [this]

theorem spec_no_brace (spec : Str) (h : ∀ ch ∈ spec, isSpecChar ch = true) :
    '{' ∉ spec ∧ '}' ∉ spec := by
  constructor
  · intro hm
    have := h _ hm
    revert this; decide
  · intro hm
    have := h _ hm
    revert this; decide

/-- A port token with a node specification is not a match of pgURLRe. -/
theorem pgURLRe_pgport (spec : Str) (h : ∀ ch ∈ spec, isSpecChar ch = true) :
    pgURLRe ('{' :: ("pgport".toList ++ ':' :: (spec ++ ['}']))) = none := by
  have e : ("pgport".toList : Str) = ['p', 'g', 'p', 'o', 'r', 't'] := by decide
  have e2 : ("pgurl".toList : Str) = ['p', 'g', 'u', 'r', 'l'] := by decide
  unfold pgURLRe
  rw [e, e2, findToken]
  have h0 : tokenAt ['p', 'g', 'u', 'r', 'l']
      ('{' :: (['p', 'g', 'p', 'o', 'r', 't'] ++ ':' :: (spec ++ ['}']))) = none := by
    simp [tokenAt, dropLit]
  rw [h0]
  apply findToken_no_brace
  have := (spec_no_brace spec h).1
  simp [this]

/-- What the function literal of expand returns for a connection-URL or port
token whose node specification ListNodes rejects: the text of the error. -/
theorem expandParam_rejected (D : Deps) (c : SyncedCluster) (e : expander) (name spec msg : Str)
    (hname : name = "pgurl".toList ∨ name = "pgport".toList)
    (hne : spec ≠ []) (hspec : ∀ ch ∈ spec, isSpecChar ch = true)
    (herr : D.ListNodes spec c.VMs.length = .error msg) :
    (expandParam D c e ('{' :: (name ++ ':' :: spec) ++ ['}'])).1 = msg := by
  have e0 : ('{' :: (name ++ ':' :: spec) ++ ['}'] : Str)
      = '{' :: (name ++ ':' :: (spec ++ '}' :: [])) := by simp
  have hmap : ∀ m : IntMap, (maybeExpandMap D c m (':' :: spec)).1 = msg := by
    intro m
    unfold maybeExpandMap
    simp [herr]
  rw [e0, expandParam_eq]
  rcases hname with rfl | rfl
  · have : pgURLRe ('{' :: ("pgurl".toList ++ ':' :: (spec ++ '}' :: []))) = some (':' :: spec) :=
      findToken_spec _ spec [] hne hspec
    rw [this]
    exact hmap _
  · have h1 := pgURLRe_pgport spec hspec
    have h2 : pgPortRe ('{' :: ("pgport".toList ++ ':' :: (spec ++ '}' :: [])))
        = some (':' :: spec) := findToken_spec _ spec [] hne hspec
    rw [h1, h2]
    exact hmap _

theorem expandParam_node (D : Deps) (c : SyncedCluster) (e : expander) (s : Str) :
    (expandParam D c e s).2.node = e.node := by
  rw [expandParam_eq]
  cases pgURLRe s with
  | some g => rfl
  | none =>
    cases pgPortRe s with
    | some g => rfl
    | none => by_cases hs : storeDirRe s = true <;> simp [hs]

theorem replaceParams_node (D : Deps) (c : SyncedCluster) (arg : Str) :
    ∀ (mode : Option Str) (e : expander),
      (replaceParams (expandParam D c) e mode arg).2.node = e.node := by
  induction arg with
  | nil => intro mode e; cases mode <;> simp [replaceParams]
  | cons ch cs ih =>
    intro mode e
    cases mode with
    | none =>
      rw [replaceParams]
      by_cases hb : ch = '{' ∧ '}' ∈ cs
      · simp only [hb, and_self, if_true]; exact ih _ e
      · simp only [hb, if_false]; exact ih _ e
    | some m =>
      rw [replaceParams]
      by_cases hb : ch = '}'
      · simp only [hb, if_true]
        rw [ih, expandParam_node]
      · simp only [hb, if_false]; exact ih _ e

/-- The expansion of a text whose first part ends outside a brace span, on a
fresh expander: the expansion of the first part followed by the expansion of
the rest, each as a fresh expander gives it. -/
theorem expand_append_closed (D : Deps) (c : SyncedCluster) (node : Int) (pre rest : Str)
    (hpre : closedFrom false pre = true) :
    (expand D (expander.fresh node) c (pre ++ rest)).1 =
      (expand D (expander.fresh node) c pre).1 ++ (expand D (expander.fresh node) c rest).1 := by
  unfold expand
  rw [(replaceParams_append_closed (expandParam D c) pre rest).1 _ hpre]
  simp only
  have hf := coherent_fresh D c node
  obtain ⟨_, h1, _, _⟩ := replaceParams_coherent D c pre none _ _ hf hf rfl
  have hn := replaceParams_node D c pre none (expander.fresh node)
  obtain ⟨h2, _⟩ := replaceParams_coherent D c rest none _ _ h1 hf hn
  rw [h2]

/-- The expansion, on a fresh expander, of a text that starts with a
connection-URL or port token whose node specification ListNodes rejects: the
text of the error, then the expansion of the rest. -/
theorem expand_rejected_token (D : Deps) (c : SyncedCluster) (node : Int)
    (name spec msg post : Str)
    (hname : name = "pgurl".toList ∨ name = "pgport".toList)
    (hne : spec ≠ []) (hspec : ∀ ch ∈ spec, isSpecChar ch = true)
    (herr : D.ListNodes spec c.VMs.length = .error msg) :
    (expand D (expander.fresh node) c (('{' :: (name ++ ':' :: spec) ++ ['}']) ++ post)).1 =
      msg ++ (expand D (expander.fresh node) c post).1 := by
  have hmid : '}' ∉ name ++ ':' :: spec := by
    have hs := (spec_no_brace spec hspec).2
    rcases hname with rfl | rfl
    · intro hm
      rcases List.mem_append.mp hm with h | h
      · revert h; decide
      · rcases List.mem_cons.mp h with h | h
        · revert h; decide
        · exact hs h
    · intro hm
      rcases List.mem_append.mp hm with h | h
      · revert h; decide
      · rcases List.mem_cons.mp h with h | h
        · revert h; decide
        · exact hs h
  have e0 : (('{' :: (name ++ ':' :: spec) ++ ['}']) ++ post : Str)
      = '{' :: ((name ++ ':' :: spec) ++ '}' :: post) := by simp
  unfold expand
  rw [e0, replaceParams_span _ _ _ _ hmid]
  simp only
  rw [expandParam_rejected D c _ name spec msg hname hne hspec herr]
  have hf := coherent_fresh D c node
  obtain ⟨_, h1, _, _⟩ := expandParam_coherent D c _ _
    ('{' :: (name ++ ':' :: spec) ++ ['}']) hf hf rfl
  have hn := expandParam_node D c (expander.fresh node) ('{' :: (name ++ ':' :: spec) ++ ['}'])
  obtain ⟨h2, _⟩ := replaceParams_coherent D c post none _ _ h1 hf hn
  rw [h2]

/-- C6, as the code has it: in an argument expanded on a fresh expander, a
pgurl or pgport token whose node specification is a non-empty text over the
characters `-`, `,` and the digits, that ListNodes rejects, and that follows
a text ending outside a brace span, is replaced by the text of the error of
ListNodes; what precedes and what follows the token is expanded as it is
without the token. -/
theorem C6_rejected_selection_is_inline (D : Deps) (c : SyncedCluster) (node : Int)
    (name spec msg pre post : Str)
    (hname : name = "pgurl".toList ∨ name = "pgport".toList)
    (hne : spec ≠ []) (hspec : ∀ ch ∈ spec, isSpecChar ch = true)
    (herr : D.ListNodes spec c.VMs.length = .error msg)
    (hpre : closedFrom false pre = true) :
    (expand D (expander.fresh node) c (pre ++ (('{' :: (name ++ ':' :: spec) ++ ['}']) ++ post))).1
      = (expand D (expander.fresh node) c pre).1 ++ msg
          ++ (expand D (expander.fresh node) c post).1 ∧
    (expand D (expander.fresh node) c (pre ++ post)).1
      = (expand D (expander.fresh node) c pre).1 ++ (expand D (expander.fresh node) c post).1 := by
  constructor
  · rw [expand_append_closed D c node pre _ hpre,
      expand_rejected_token D c node name spec msg post hname hne hspec herr]
    simp
  · exact expand_append_closed D c node pre post hpre

/-- C6 on the sample cluster: the selection `-` of a port token is rejected,
the tokens around it expand as usual. -/
theorem C6_rejected_selection_is_inline_witness :
    (expand sampleDeps (expander.fresh 2) sampleCluster
      ("a \x7bstore-dir\x7d ".toList ++ (('{' :: ("pgport".toList ++ ':' :: "-".toList) ++ ['}'])
        ++ " \x7bpgurl:1,3\x7d".toList))).1
      = (expand sampleDeps (expander.fresh 2) sampleCluster "a \x7bstore-dir\x7d ".toList).1
          ++ "invalid node spec".toList
          ++ (expand sampleDeps (expander.fresh 2) sampleCluster " \x7bpgurl:1,3\x7d".toList).1 ∧
    (expand sampleDeps (expander.fresh 2) sampleCluster
      ("a \x7bstore-dir\x7d ".toList ++ " \x7bpgurl:1,3\x7d".toList)).1
      = (expand sampleDeps (expander.fresh 2) sampleCluster "a \x7bstore-dir\x7d ".toList).1
          ++ (expand sampleDeps (expander.fresh 2) sampleCluster " \x7bpgurl:1,3\x7d".toList).1 :=
  C6_rejected_selection_is_inline sampleDeps sampleCluster 2 "pgport".toList "-".toList
    "invalid node spec".toList "a \x7bstore-dir\x7d ".toList " \x7bpgurl:1,3\x7d".toList
    (Or.inr rfl) (by decide) (by decide) (by decide) (by decide)

/-- C6 as stated fails at the example of the specification: ListNodes
rejects the selection `abc` with a non-empty message, and expand returns the
argument `\x7bpgport:abc\x7d` as it is, without the message: the letters
are outside the character class of pgPortRe, so the token is not recognized. -/
theorem C6_pgport_abc_is_left_unchanged :
    sampleDeps.ListNodes "abc".toList sampleCluster.VMs.length
      = .error "invalid node spec".toList ∧
    (expand sampleDeps (expander.fresh 1) sampleCluster "\x7bpgport:abc\x7d".toList).1
      = "\x7bpgport:abc\x7d".toList := by
  decide

/-- C7 at the failing input: the span `\x7bx\x7bpgurl\x7d`, which is not
one of the recognized tokens, is not left as it was; the whole span, the
characters `\x7bx` included, is replaced by the URL list, because pgURLRe
is searched inside the span. The same holds for store-dir. -/
theorem C7_span_with_inner_token_is_replaced :
    (expand sampleDeps (expander.fresh 1) sampleCluster "echo \x7bx\x7bpgurl\x7d".toList).1
      = "echo pg://n1 pg://n2 pg://n3".toList ∧
    (expand sampleDeps (expander.fresh 1) sampleCluster "f() \x7b ls \x7bstore-dir\x7d; \x7d".toList).1
      = "f() /mnt/data1; \x7d".toList := by
  decide

/-! ## Lemmas: the tabwriter on rows of three cells -/

theorem not_special_of_not_space (ch : Char) (h : isSpace ch = false) :
    ¬ (ch = '\t' ∨ ch = '\x0b' ∨ ch = '\n' ∨ ch = '\x0c') := by
  rintro (rfl | rfl | rfl | rfl) <;> revert h <;> decide

theorem noSpace_iff (s : Str) : noSpace s = true ↔ ∀ ch ∈ s, isSpace ch = false := by
  simp [noSpace, List.all_eq_true]

theorem Write_append (b : TabWriter) (x y : Str) : b.Write (x ++ y) = (b.Write x).Write y := by
  simp [TabWriter.Write, List.foldl_append]

theorem Write_text (b : TabWriter) (s : Str) (h : ∀ ch ∈ s, isSpace ch = false) :
    b.Write s = { b with cell := b.cell ++ s } := by
  induction s generalizing b with
  | nil => simp [TabWriter.Write]
  | cons ch cs ih =>
    have hc := not_special_of_not_space ch (h ch (by simp))
    have hcs : ∀ x ∈ cs, isSpace x = false := fun x hx => h x (by simp [hx])
    have : b.Write (ch :: cs) = (b.writeChar ch).Write cs := by simp [TabWriter.Write]
    rw [this, ih _ hcs]
    simp [TabWriter.writeChar, hc]

theorem Write_tab (b : TabWriter) (rest : Str) :
    b.Write ('\t' :: rest) = ({ b with line := b.line ++ [b.cell], cell := [] } : TabWriter).Write rest := by
  simp [TabWriter.Write, TabWriter.writeChar]

theorem Write_newline (b : TabWriter) (rest : Str) (h : (b.line ++ [b.cell]).length ≠ 1) :
    b.Write ('\n' :: rest) =
      ({ b with lines := b.lines ++ [b.line ++ [b.cell]], line := [], cell := [] } : TabWriter).Write rest := by
  have h' : ¬ (b.line ++ [b.cell]).length = 1 := h
  have hl : ¬ b.line.length = 0 := by
    intro e; apply h'; simp [e]
  simp [TabWriter.Write, TabWriter.writeChar, hl]

/-- Writing a row of three cells without whitespace adds one line of three
cells to the buffer. -/
theorem Write_row (out : Str) (lines : List TwLine) (a b c rest : Str)
    (ha : ∀ ch ∈ a, isSpace ch = false) (hb : ∀ ch ∈ b, isSpace ch = false)
    (hc : ∀ ch ∈ c, isSpace ch = false) :
    (⟨out, lines, [], []⟩ : TabWriter).Write (a ++ '\t' :: (b ++ '\t' :: (c ++ '\n' :: rest))) =
      (⟨out, lines ++ [[a, b, c]], [], []⟩ : TabWriter).Write rest := by
  rw [Write_append, Write_text _ a ha, Write_tab, Write_append, Write_text _ b hb, Write_tab,
    Write_append, Write_text _ c hc, Write_newline _ _ (by simp)]
  simp

theorem cleanVM_parts (vm : VM) (h : cleanVM vm = true) :
    (∀ ch ∈ vm.RemoteUser, isSpace ch = false) ∧ (∀ ch ∈ vm.PublicIP, isSpace ch = false) ∧
    (∀ ch ∈ vm.locality, isSpace ch = false) ∧ (∀ ch ∈ vm.VPC, isSpace ch = false) ∧
    '@' ∉ vm.RemoteUser ∧ '@' ∉ vm.PublicIP ∧ vm.RemoteUser.head? ≠ some '#' := by
  simp only [cleanVM, Bool.and_eq_true, noSpace_iff] at h
  obtain ⟨⟨⟨⟨⟨⟨h1, h2⟩, h3⟩, h4⟩, h5⟩, h6⟩, h7⟩ := h
  refine ⟨h1, h2, h3, h4, by simpa using h5, by simpa using h6, by simpa using h7⟩

theorem Write_vmRow (out : Str) (lines : List TwLine) (vm : VM) (h : cleanVM vm = true) :
    (⟨out, lines, [], []⟩ : TabWriter).Write (vmRow vm) = ⟨out, lines ++ [vmCells vm], [], []⟩ := by
  obtain ⟨h1, h2, h3, h4, _, _, _⟩ := cleanVM_parts vm h
  have ha : ∀ ch ∈ vm.RemoteUser ++ '@' :: vm.PublicIP, isSpace ch = false := by
    intro ch hch
    rcases List.mem_append.mp hch with hh | hh
    · exact h1 ch hh
    · rcases List.mem_cons.mp hh with rfl | hh
      · decide
      · exact h2 ch hh
  have e : vmRow vm = (vm.RemoteUser ++ '@' :: vm.PublicIP) ++
      '\t' :: (vm.locality ++ '\t' :: (vm.VPC ++ '\n' :: [])) := by
    simp [vmRow]
  rw [e, Write_row out lines _ _ _ [] ha h3 h4]
  simp [TabWriter.Write, vmCells]

theorem Write_vmRows (vms : List VM) (out : Str) (lines : List TwLine)
    (h : ∀ vm ∈ vms, cleanVM vm = true) :
    vms.foldl (fun tw vm => tw.Write (vmRow vm)) (⟨out, lines, [], []⟩ : TabWriter) =
      ⟨out, lines ++ vms.map vmCells, [], []⟩ := by
  induction vms generalizing lines with
  | nil => simp
  | cons vm vms ih =>
    simp only [List.foldl_cons, List.map_cons]
    rw [Write_vmRow out lines vm (h vm (by simp)), ih _ (fun x hx => h x (by simp [hx]))]
    simp

/-- The text syncHosts writes for a cluster of clean VMs is what the
tabwriter formats from the header line and one line of three cells per VM,
followed by an empty last line. -/
theorem hostsFileText_clean (c : Cluster) (h : ∀ vm ∈ c.VMs, cleanVM vm = true) :
    hostsFileText c = flushText ((headerCells :: c.VMs.map vmCells) ++ [[]]) := by
  have hh : TabWriter.new.Write hostsHeader = ⟨[], [headerCells], [], []⟩ := by decide
  unfold hostsFileText
  rw [hh, Write_vmRows _ _ _ h]
  simp [TabWriter.Flush]

theorem scanBlocks_block (rec : List Nat → List TwLine → List Str) (widths : List Nat)
    (ls tail block : List TwLine) (h : ∀ l ∈ ls, hasCell widths.length l = true) :
    scanBlocks rec widths block (ls ++ tail) = scanBlocks rec widths (block ++ ls) tail := by
  induction ls generalizing block with
  | nil => simp
  | cons l ls ih =>
    have hl := h l (by simp)
    simp only [List.cons_append]
    rw [scanBlocks]
    simp only [hl, if_true]
    rw [ih _ (fun x hx => h x (by simp [hx]))]
    simp

theorem scanBlocks_none (rec : List Nat → List TwLine → List Str) (widths : List Nat)
    (ls : List TwLine) (h : ∀ l ∈ ls, hasCell widths.length l = false) :
    scanBlocks rec widths [] ls = ls.map (writeCells widths) := by
  induction ls with
  | nil => simp [scanBlocks]
  | cons l ls ih =>
    have hl := h l (by simp)
    rw [scanBlocks]
    simp [hl, ih (fun x hx => h x (by simp [hx]))]

theorem foldl_max_le (xs : List Nat) (acc k : Nat) (h : ∀ x ∈ xs, x ≤ k) (ha : acc ≤ k) :
    xs.foldl max acc ≤ k := by
  induction xs generalizing acc with
  | nil => simpa
  | cons x xs ih =>
    simp only [List.foldl_cons]
    exact ih _ (fun y hy => h y (by simp [hy])) (max_le ha (h x (by simp)))

theorem le_foldl_max_acc (xs : List Nat) (acc : Nat) : acc ≤ xs.foldl max acc := by
  induction xs generalizing acc with
  | nil => simp
  | cons x xs ih =>
    simp only [List.foldl_cons]
    exact le_trans (le_max_left _ _) (ih _)

theorem le_foldl_max (xs : List Nat) (acc x : Nat) (h : x ∈ xs) : x ≤ xs.foldl max acc := by
  induction xs generalizing acc with
  | nil => simp at h
  | cons y xs ih =>
    simp only [List.foldl_cons]
    rcases List.mem_cons.mp h with rfl | h
    · exact le_trans (le_max_right _ _) (le_foldl_max_acc _ _)
    · exact ih _ h

/-- The tabwriter on lines of three cells each, followed by the empty last
line: every line is written with the widths of the two column blocks, which
span all the lines. -/
theorem flushText_three (L : List TwLine) (hne : L ≠ []) (h3 : ∀ l ∈ L, l.length = 3) :
    flushText (L ++ [[]]) =
      joinLines (L.map (writeCells [blockWidth 0 L, blockWidth 1 L]) ++ [[]]) := by
  have hfuel : ((L ++ [[]]).map List.length).foldl max 0 = 3 := by
    apply le_antisymm
    · apply foldl_max_le
      · intro x hx
        simp only [List.map_append, List.map_cons, List.map_nil, List.mem_append, List.mem_map,
          List.mem_singleton] at hx
        rcases hx with ⟨l, hl, rfl⟩ | rfl
        · exact le_of_eq (h3 l hl)
        · simp
      · simp
    · obtain ⟨l, hl⟩ := List.exists_mem_of_ne_nil L hne
      apply le_foldl_max
      simp only [List.map_append, List.mem_append, List.mem_map]
      exact Or.inl ⟨l, hl, h3 l hl⟩
  have hempty : L.isEmpty = false := by
    cases L with
    | nil => exact absurd rfl hne
    | cons _ _ => rfl
  have c0 : ∀ l ∈ L, hasCell ([] : List Nat).length l = true := by
    intro l hl; simp [hasCell, h3 l hl]
  have c1 : ∀ l ∈ L, hasCell ([blockWidth 0 L] : List Nat).length l = true := by
    intro l hl; simp [hasCell, h3 l hl]
  have c2 : ∀ l ∈ L, hasCell ([blockWidth 0 L, blockWidth 1 L] : List Nat).length l = false := by
    intro l hl; simp [hasCell, h3 l hl]
  unfold flushText
  rw [hfuel]
  have f1 : format 1 [blockWidth 0 L, blockWidth 1 L] L
      = L.map (writeCells [blockWidth 0 L, blockWidth 1 L]) := by
    rw [format]
    exact scanBlocks_none _ _ _ c2
  have f2 : format 2 [blockWidth 0 L] L
      = L.map (writeCells [blockWidth 0 L, blockWidth 1 L]) := by
    rw [format]
    have := scanBlocks_block (format 1) [blockWidth 0 L] L [] [] c1
    simp only [List.append_nil, List.nil_append] at this
    rw [this, scanBlocks]
    simp [hempty, f1]
  have f3 : format 3 [] (L ++ [[]])
      = L.map (writeCells [blockWidth 0 L, blockWidth 1 L]) ++ [[]] := by
    rw [format]
    have := scanBlocks_block (format 2) [] L [[]] [] c0
    simp only [List.nil_append] at this
    rw [this, scanBlocks]
    simp [hempty, f2, hasCell, scanBlocks, writeCells]
  rw [f3]

theorem Split_joinLines (xs : List Str) (h : ∀ x ∈ xs, '\n' ∉ x) :
    Split (joinLines (xs ++ [[]])) '\n' = xs ++ [[]] := by
  induction xs with
  | nil => simp [joinLines, Split]
  | cons x xs ih =>
    have hx := h x (by simp)
    have hxs : ∀ y ∈ xs, '\n' ∉ y := fun y hy => h y (by simp [hy])
    have e : joinLines ((x :: xs) ++ [[]]) = x ++ '\n' :: joinLines (xs ++ [[]]) := by
      cases xs <;> simp [joinLines]
    rw [e, Split_append_sep _ _ _ hx, ih hxs]
    simp

/-! ## Lemmas: strings.Fields on padded rows -/

theorem Fields_cons (c : Char) (cs : Str) :
    Fields (c :: cs) =
      if isSpace c then Fields cs
      else
        match cs with
        | [] => [[c]]
        | d :: _ =>
          if isSpace d then [c] :: Fields cs
          else
            match Fields cs with
            | [] => [[c]]
            | f :: fs => (c :: f) :: fs := by
  cases cs with
  | nil => rfl
  | cons d t => rfl

theorem Fields_spaces (n : Nat) (s : Str) : Fields (List.replicate n ' ' ++ s) = Fields s := by
  induction n with
  | zero => simp
  | succ n ih =>
    have : isSpace ' ' = true := by decide
    simp only [List.replicate_succ, List.cons_append]
    rw [Fields_cons]
    simp only [this, if_true]
    exact ih

/-- A run of non-space characters that ends the text or is followed by a
space character is one field. -/
theorem Fields_word (w s : Str) (hne : w ≠ []) (hw : ∀ ch ∈ w, isSpace ch = false)
    (hs : s = [] ∨ ∃ d t, s = d :: t ∧ isSpace d = true) :
    Fields (w ++ s) = w :: Fields s := by
  induction w with
  | nil => exact absurd rfl hne
  | cons c w ih =>
    have hc := hw c (by simp)
    have hw' : ∀ ch ∈ w, isSpace ch = false := fun x hx => hw x (by simp [hx])
    cases w with
    | nil =>
      rcases hs with rfl | ⟨d, t, rfl, hd⟩
      · simp only [List.append_nil]
        rw [Fields_cons]
        simp only [hc, Bool.false_eq_true, if_false]
        rfl
      · simp only [List.cons_append, List.nil_append]
        rw [Fields_cons]
        simp [hc, hd]
    | cons c2 w2 =>
      have hc2 := hw c2 (by simp)
      have := ih (by simp) hw'
      simp only [List.cons_append] at this ⊢
      rw [Fields_cons]
      simp only [hc, hc2, Bool.false_eq_true, if_false]
      rw [this]

theorem Fields_word_end (w : Str) (hw : ∀ ch ∈ w, isSpace ch = false) :
    Fields w = if w = [] then [] else [w] := by
  by_cases h : w = []
  · subst h; rfl
  · have := Fields_word w [] h hw (Or.inl rfl)
    simp only [List.append_nil] at this
    rw [this]
    simp only [h, if_false]
    rfl

theorem Fields_word_pad (w s : Str) (n : Nat) (hn : 0 < n) (hw : ∀ ch ∈ w, isSpace ch = false) :
    Fields (w ++ (List.replicate n ' ' ++ s)) = (if w = [] then [] else [w]) ++ Fields s := by
  by_cases h : w = []
  · simp [h, Fields_spaces]
  · have hs : List.replicate n ' ' ++ s = [] ∨
        ∃ d t, List.replicate n ' ' ++ s = d :: t ∧ isSpace d = true := by
      right
      obtain ⟨m, rfl⟩ : ∃ m, n = m + 1 := ⟨n - 1, by omega⟩
      exact ⟨' ', List.replicate m ' ' ++ s, by simp [List.replicate_succ], by decide⟩
    rw [Fields_word w _ h hw hs, Fields_spaces]
    simp [h]

/-- The fields of a row of three cells as the tabwriter pads it: the cells
that are not empty. -/
theorem Fields_row (a b c : Str) (w0 w1 : Nat) (h0 : a.length < w0) (h1 : b.length < w1)
    (ha : ∀ ch ∈ a, isSpace ch = false) (hb : ∀ ch ∈ b, isSpace ch = false)
    (hc : ∀ ch ∈ c, isSpace ch = false) :
    Fields (writeCells [w0, w1] [a, b, c]) =
      (if a = [] then [] else [a]) ++ ((if b = [] then [] else [b]) ++
        (if c = [] then [] else [c])) := by
  have e : writeCells [w0, w1] [a, b, c] =
      a ++ (List.replicate (w0 - a.length) ' ' ++ (b ++ (List.replicate (w1 - b.length) ' ' ++ c))) := by
    simp [writeCells]
  rw [e, Fields_word_pad a _ _ (by omega) ha, Fields_word_pad b _ _ (by omega) hb,
    Fields_word_end c hc]

theorem blockWidth_gt (column : Nat) (block : List TwLine) (l : TwLine) (h : l ∈ block) :
    (l.getD column []).length < blockWidth column block := by
  have key : ∀ (xs : List TwLine) (acc : Nat), l ∈ xs →
      (l.getD column []).length + twPadding ≤
        xs.foldl (fun width line => max width ((line.getD column []).length + twPadding)) acc := by
    intro xs
    induction xs with
    | nil => intro acc hx; simp at hx
    | cons y ys ih =>
      intro acc hx
      simp only [List.foldl_cons]
      rcases List.mem_cons.mp hx with rfl | hx
      · have mono : ∀ (zs : List TwLine) (a : Nat),
            a ≤ zs.foldl (fun width line => max width ((line.getD column []).length + twPadding)) a := by
          intro zs
          induction zs with
          | nil => intro a; simp
          | cons z zs ihz =>
            intro a
            simp only [List.foldl_cons]
            exact le_trans (le_max_left _ _) (ihz _)
        exact le_trans (le_max_right _ _) (mono _ _)
      · exact ih _ hx
  have := key block twMinwidth h
  unfold blockWidth
  have hp : twPadding = 2 := rfl
  omega

theorem addr_split (osUser u h : Str) (hu : '@' ∉ u) (hh : '@' ∉ h) :
    (u ++ '@' :: h).count '@' = 1 ∧ addrUser osUser (u ++ '@' :: h) = u ∧
    addrHost (u ++ '@' :: h) = h := by
  have hcnt : (u ++ '@' :: h).count '@' = 1 := by
    rw [List.count_append, List.count_cons_self, List.count_eq_zero.mpr hu,
      List.count_eq_zero.mpr hh]
  have hm : '@' ∈ u ++ '@' :: h := by simp
  have hs := split_at_sign _ hcnt
  rw [Split_append_sep _ _ _ hu, Split_of_not_mem _ _ hh] at hs
  simp only [List.cons.injEq, and_true] at hs
  refine ⟨hcnt, ?_, ?_⟩
  · simp only [addrUser, hm, if_true]; exact hs.1.symm
  · simp only [addrHost, hm, if_true]; exact hs.2.symm

/-! ## Lemmas: loading the file syncHosts writes -/

theorem mem_writeCells_row (w0 w1 : Nat) (a b c : Str) (ch : Char)
    (h : ch ∈ writeCells [w0, w1] [a, b, c]) : ch ∈ a ∨ ch ∈ b ∨ ch ∈ c ∨ ch = ' ' := by
  simp only [writeCells, List.append_nil, List.mem_append, List.mem_replicate] at h
  rcases h with (h | h) | (h | h) | h
  · exact Or.inl h
  · exact Or.inr (Or.inr (Or.inr h.2))
  · exact Or.inr (Or.inl h)
  · exact Or.inr (Or.inr (Or.inr h.2))
  · exact Or.inr (Or.inr (Or.inl h))

/-- The header line as the tabwriter pads it is a comment line. -/
theorem header_row (w0 w1 : Nat) :
    isData (writeCells [w0, w1] headerCells) = false ∧
    '\n' ∉ writeCells [w0, w1] headerCells := by
  constructor
  · have e : ∃ rest, writeCells [w0, w1] headerCells = '#' :: ' ' :: rest := by
      refine ⟨(writeCells [w0, w1] headerCells).drop 2, ?_⟩
      have : headerCells = ['#' :: ' ' :: "user@host".toList, "locality".toList, "vpcId".toList] := by
        decide
      rw [this]
      simp only [writeCells, List.cons_append, List.drop_succ_cons, List.drop_zero]
    obtain ⟨rest, e⟩ := e
    have hf : Fields ('#' :: ' ' :: rest) = ['#'] :: Fields (' ' :: rest) := by
      rw [Fields_cons]
      have h1 : isSpace '#' = false := by decide
      have h2 : isSpace ' ' = true := by decide
      simp only [h1, h2, Bool.false_eq_true, if_false, if_true]
    simp [isData, isBlank, isComment, lineFirst, e, hf]
  · intro hm
    rcases mem_writeCells_row w0 w1 _ _ _ _ hm with h | h | h | h
    · revert h; decide
    · revert h; decide
    · revert h; decide
    · revert h; decide

/-- The row of a clean VM as the tabwriter pads it is a well-formed data
line whose address field is user@address. -/
theorem vm_row (vm : VM) (w0 w1 : Nat) (h : cleanVM vm = true)
    (h0 : (vm.RemoteUser ++ '@' :: vm.PublicIP).length < w0) (h1 : vm.locality.length < w1) :
    isData (writeCells [w0, w1] (vmCells vm)) = true ∧
    isMalformed (writeCells [w0, w1] (vmCells vm)) = false ∧
    lineFirst (writeCells [w0, w1] (vmCells vm)) = vm.RemoteUser ++ '@' :: vm.PublicIP ∧
    '\n' ∉ writeCells [w0, w1] (vmCells vm) ∧
    Fields (writeCells [w0, w1] (vmCells vm)) =
      (vm.RemoteUser ++ '@' :: vm.PublicIP) ::
        ((if vm.locality = [] then [] else [vm.locality]) ++
          (if vm.VPC = [] then [] else [vm.VPC])) := by
  obtain ⟨c1, c2, c3, c4, c5, c6, c7⟩ := cleanVM_parts vm h
  have ha : ∀ ch ∈ vm.RemoteUser ++ '@' :: vm.PublicIP, isSpace ch = false := by
    intro ch hch
    rcases List.mem_append.mp hch with hh | hh
    · exact c1 ch hh
    · rcases List.mem_cons.mp hh with rfl | hh
      · decide
      · exact c2 ch hh
  have hne : vm.RemoteUser ++ '@' :: vm.PublicIP ≠ [] := by simp
  have hf := Fields_row _ _ _ w0 w1 h0 h1 ha c3 c4
  simp only [hne, if_false, List.singleton_append] at hf
  have hf' : Fields (writeCells [w0, w1] (vmCells vm)) = _ := hf
  have hfirst : lineFirst (writeCells [w0, w1] (vmCells vm))
      = vm.RemoteUser ++ '@' :: vm.PublicIP := by
    simp [lineFirst, hf']
  have hhead : (vm.RemoteUser ++ '@' :: vm.PublicIP).head? ≠ some '#' := by
    cases hu : vm.RemoteUser with
    | nil => simp
    | cons x xs =>
      rw [hu] at c7
      simpa using c7
  have hdata : isData (writeCells [w0, w1] (vmCells vm)) = true := by
    have hb : isBlank (writeCells [w0, w1] (vmCells vm)) = false := by
      simp only [isBlank, hf']; rfl
    have hcm : isComment (writeCells [w0, w1] (vmCells vm)) = false := by
      simp only [isComment, hfirst]
      exact beq_eq_false_iff_ne.mpr hhead
    simp only [isData, hb, hcm]; rfl
  have hlen : (Fields (writeCells [w0, w1] (vmCells vm))).length ≤ 3 := by
    rw [hf']
    by_cases hl : vm.locality = [] <;> by_cases hv : vm.VPC = [] <;> simp [hl, hv]
  have hcnt := (addr_split [] vm.RemoteUser vm.PublicIP c5 c6).1
  refine ⟨hdata, ?_, hfirst, ?_, hf'⟩
  · have a : ¬ 3 < (Fields (writeCells [w0, w1] (vmCells vm))).length := by omega
    simp [isMalformed, hfirst, hcnt, a]
  · intro hm
    have hnl : isSpace '\n' = true := by decide
    rcases mem_writeCells_row w0 w1 _ _ _ _ hm with h | h | h | h
    · rw [ha _ h] at hnl; exact absurd hnl (by simp)
    · rw [c3 _ h] at hnl; exact absurd hnl (by simp)
    · rw [c4 _ h] at hnl; exact absurd hnl (by simp)
    · revert h; decide

/-- The lines of the file syncHosts writes for a cluster of clean VMs: the
padded header, one padded row per VM, and an empty last line. -/
theorem hostsFileText_lines (c : Cluster) (h : ∀ vm ∈ c.VMs, cleanVM vm = true) :
    ∃ w0 w1, (∀ vm ∈ c.VMs, (vm.RemoteUser ++ '@' :: vm.PublicIP).length < w0 ∧
        vm.locality.length < w1) ∧
      Split (hostsFileText c) '\n' =
        writeCells [w0, w1] headerCells ::
          (c.VMs.map (fun vm => writeCells [w0, w1] (vmCells vm)) ++ [[]]) := by
  let L : List TwLine := headerCells :: c.VMs.map vmCells
  refine ⟨blockWidth 0 L, blockWidth 1 L, ?_, ?_⟩
  · intro vm hvm
    have hm : vmCells vm ∈ L := by
      simp only [L, List.mem_cons, List.mem_map]
      exact Or.inr ⟨vm, hvm, rfl⟩
    exact ⟨blockWidth_gt 0 L _ hm, blockWidth_gt 1 L _ hm⟩
  · have h3 : ∀ l ∈ L, l.length = 3 := by
      intro l hl
      simp only [L, List.mem_cons, List.mem_map] at hl
      rcases hl with rfl | ⟨vm, _, rfl⟩
      · rfl
      · rfl
    rw [hostsFileText_clean c h, flushText_three L (by simp [L]) h3, Split_joinLines]
    · simp [L]
    · intro x hx
      simp only [L, List.map_cons, List.map_map, List.mem_cons, List.mem_map,
        Function.comp] at hx
      rcases hx with rfl | ⟨vm, hvm, rfl⟩
      · exact (header_row _ _).2
      · have hm : vmCells vm ∈ L := by
          simp only [L, List.mem_cons, List.mem_map]
          exact Or.inr ⟨vm, hvm, rfl⟩
        exact (vm_row vm _ _ (h vm hvm) (blockWidth_gt 0 L _ hm) (blockWidth_gt 1 L _ hm)).2.2.2.1

/-- Loading the file syncHosts writes for a cluster of clean VMs gives one
node per VM, with the VM's user and address. -/
theorem parseFile_hostsFileText (osUser name : Str) (c : Cluster)
    (h : ∀ vm ∈ c.VMs, cleanVM vm = true) :
    ∃ sc, parseFile osUser name (hostsFileText c) = .ok sc ∧ sc.Name = name ∧
      sc.VMs = c.VMs.map VM.PublicIP ∧ sc.Users = c.VMs.map VM.RemoteUser := by
  obtain ⟨w0, w1, hw, hsplit⟩ := hostsFileText_lines c h
  have hrow : ∀ vm ∈ c.VMs, _ := fun vm hvm =>
    vm_row vm w0 w1 (h vm hvm) (hw vm hvm).1 (hw vm hvm).2
  have hmal : ∀ l ∈ Split (hostsFileText c) '\n', isMalformed l = false := by
    intro l hl
    rw [hsplit] at hl
    simp only [List.mem_cons, List.mem_append, List.mem_map, List.mem_singleton,
      List.not_mem_nil, or_false] at hl
    rcases hl with rfl | ⟨vm, hvm, rfl⟩ | rfl
    · simp [isMalformed, (header_row w0 w1).1]
    · exact (hrow vm hvm).2.1
    · rfl
  have hdl : dataLines (hostsFileText c) = c.VMs.map (fun vm => writeCells [w0, w1] (vmCells vm)) := by
    unfold dataLines
    rw [hsplit, List.filter_cons]
    simp only [(header_row w0 w1).1, Bool.false_eq_true, if_false, List.filter_append]
    have e1 : List.filter isData [([] : Str)] = [] := by rfl
    rw [e1, List.append_nil, List.filter_eq_self]
    intro l hl
    obtain ⟨vm, hvm, rfl⟩ := List.mem_map.mp hl
    exact (hrow vm hvm).1
  obtain ⟨sc, hsc, hn, hv, hu, _, _⟩ := parseFile_ok osUser name (hostsFileText c) hmal
  refine ⟨sc, hsc, hn, ?_, ?_⟩
  · rw [hv, hdl, List.map_map]
    apply List.map_congr_left
    intro vm hvm
    obtain ⟨c1, c2, c3, c4, c5, c6, c7⟩ := cleanVM_parts vm (h vm hvm)
    simp only [Function.comp, (hrow vm hvm).2.2.1]
    exact (addr_split osUser _ _ c5 c6).2.2
  · rw [hu, hdl, List.map_map]
    apply List.map_congr_left
    intro vm hvm
    obtain ⟨c1, c2, c3, c4, c5, c6, c7⟩ := cleanVM_parts vm (h vm hvm)
    simp only [Function.comp, (hrow vm hvm).2.2.1]
    exact (addr_split osUser _ _ c5 c6).2.1

/-! ## Lemmas: the host directory under syncHosts and gcHostsFiles -/

theorem mem_insertSorted (e x : DirEntry) (es : List DirEntry) :
    x ∈ insertSorted e es ↔ x = e ∨ x ∈ es := by
  induction es with
  | nil => simp [insertSorted]
  | cons y ys ih =>
    rw [insertSorted]
    by_cases h : strLt e.name y.name = true
    · simp [h]
    · have h' : strLt e.name y.name = false := by simpa using h
      simp only [h', Bool.false_eq_true, if_false, List.mem_cons, ih]
      tauto

theorem insertSorted_names_perm (e : DirEntry) (es : List DirEntry) :
    ((insertSorted e es).map DirEntry.name).Perm (e.name :: es.map DirEntry.name) := by
  induction es with
  | nil => simp [insertSorted]
  | cons y ys ih =>
    rw [insertSorted]
    by_cases h : strLt e.name y.name = true
    · simp [h]
    · simp only [h, if_false, List.map_cons]
      exact (List.Perm.cons _ ih).trans (List.Perm.swap _ _ _)

theorem putEntry_names_nodup (name contents : Str) (es : List DirEntry)
    (h : (es.map DirEntry.name).Nodup) : ((putEntry name contents es).map DirEntry.name).Nodup := by
  unfold putEntry
  by_cases ha : es.any (fun e => e.name == name) = true
  · simp only [ha, if_true, List.map_map]
    have : (DirEntry.name ∘ fun e : DirEntry =>
        if e.name = name ∧ e.regular = true then (⟨name, true, contents⟩ : DirEntry) else e)
        = DirEntry.name := by
      funext e
      simp only [Function.comp]
      by_cases hc : e.name = name ∧ e.regular = true
      · simp [hc]
      · simp [hc]
    rw [this]; exact h
  · simp only [ha, Bool.false_eq_true, if_false]
    rw [(insertSorted_names_perm _ es).nodup_iff]
    simp only [List.nodup_cons]
    refine ⟨?_, h⟩
    intro hm
    apply ha
    obtain ⟨x, hx, hxn⟩ := List.mem_map.mp hm
    exact List.any_eq_true.mpr ⟨x, hx, by simpa using hxn⟩

/-- An entry of another name is in the listing after os.Create exactly when
it was in it before. -/
theorem mem_putEntry_other (name contents : Str) (es : List DirEntry) (x : DirEntry)
    (hx : x.name ≠ name) : x ∈ putEntry name contents es ↔ x ∈ es := by
  unfold putEntry
  by_cases ha : es.any (fun e => e.name == name) = true
  · simp only [ha, if_true, List.mem_map]
    constructor
    · rintro ⟨y, hy, rfl⟩
      by_cases hc : y.name = name ∧ y.regular = true
      · simp [hc] at hx
      · simpa [hc] using hy
    · intro h
      refine ⟨x, h, ?_⟩
      simp [hx]
  · simp only [ha, Bool.false_eq_true, if_false, mem_insertSorted]
    constructor
    · rintro (rfl | h)
      · exact absurd rfl hx
      · exact h
    · exact Or.inr

/-- An entry of the created name is the new regular file, or an entry that
was there and is not a regular file. -/
theorem mem_putEntry_same (name contents : Str) (es : List DirEntry) (x : DirEntry)
    (h : x ∈ putEntry name contents es) (hx : x.name = name) :
    x = ⟨name, true, contents⟩ ∨ (x ∈ es ∧ x.regular = false) := by
  unfold putEntry at h
  by_cases ha : es.any (fun e => e.name == name) = true
  · simp only [ha, if_true, List.mem_map] at h
    obtain ⟨y, hy, rfl⟩ := h
    by_cases hc : y.name = name ∧ y.regular = true
    · left; simp [hc]
    · right
      simp only [hc, if_false] at hx ⊢
      refine ⟨hy, ?_⟩
      by_contra hr
      exact hc ⟨hx, by simpa using hr⟩
  · simp only [ha, Bool.false_eq_true, if_false, mem_insertSorted] at h
    rcases h with rfl | h
    · left; rfl
    · exfalso
      apply ha
      exact List.any_eq_true.mpr ⟨x, h, by simpa using hx⟩

/-- After os.Create and the write, the regular file is in the listing unless
the name belonged to an entry that is not a regular file. -/
theorem putEntry_mem (name contents : Str) (es : List DirEntry)
    (h : ∀ x ∈ es, x.regular = false → x.name ≠ name) :
    (⟨name, true, contents⟩ : DirEntry) ∈ putEntry name contents es := by
  unfold putEntry
  by_cases ha : es.any (fun e => e.name == name) = true
  · simp only [ha, if_true, List.mem_map]
    obtain ⟨y, hy, hyn⟩ := List.any_eq_true.mp ha
    have hyn' : y.name = name := by simpa using hyn
    have hr : y.regular = true := by
      by_contra hr
      exact h y hy (by simpa using hr) hyn'
    exact ⟨y, hy, by simp [hyn', hr]⟩
  · simp only [ha, Bool.false_eq_true, if_false]
    exact (mem_insertSorted _ _ _).mpr (Or.inl rfl)

/-- The loop of gcHostsFiles keeps the entries whose name is not the name of
a listed regular file that is stale and can be removed. -/
theorem gcLoop_eq (cloud : Cloud) (canRemove : Str → Bool) (files cur : List DirEntry) :
    gcLoop cloud canRemove files cur =
      cur.filter (fun e => !(files.any (fun f =>
        f.regular && !cloud.hasKey f.name && canRemove f.name && f.name == e.name))) := by
  induction files generalizing cur with
  | nil => simp [gcLoop]
  | cons f files ih =>
    rw [gcLoop]
    by_cases hr : f.regular = true
    · by_cases hk : cloud.hasKey f.name = true
      · simp [hr, hk, ih]
      · by_cases hc : canRemove f.name = true
        · simp only [hr, hk, hc, Bool.not_true, Bool.false_eq_true, if_false, if_true, ih,
            removeEntry, List.filter_filter, List.any_cons, Bool.true_and, Bool.not_false]
          apply List.filter_congr
          intro x _
          by_cases hx : x.name = f.name
          · have e1 : (f.name == x.name) = true := by simp [hx]
            have e2 : (x.name != f.name) = false := by simp [hx]
            simp [e1, e2]
          · have e1 : (f.name == x.name) = false := by
              simpa using fun e : f.name = x.name => hx e.symm
            have e2 : (x.name != f.name) = true := by simpa using hx
            simp [e1, e2]
        · simp [hr, hk, hc, ih]
    · simp [hr, ih]

theorem mem_gcLoop (cloud : Cloud) (canRemove : Str → Bool) (es : List DirEntry) (x : DirEntry) :
    x ∈ gcLoop cloud canRemove es es ↔
      x ∈ es ∧ ∀ f ∈ es, f.regular = true → cloud.hasKey f.name = false →
        canRemove f.name = true → f.name ≠ x.name := by
  rw [gcLoop_eq, List.mem_filter]
  constructor
  · rintro ⟨hx, hn⟩
    refine ⟨hx, ?_⟩
    intro f hf hr hk hc he
    have : (es.any (fun f => f.regular && !cloud.hasKey f.name && canRemove f.name
        && f.name == x.name)) = true :=
      List.any_eq_true.mpr ⟨f, hf, by
        simp only [hr, hk, hc, Bool.not_false, Bool.and_self, Bool.true_and, beq_iff_eq]
        exact he⟩
    simp [this] at hn
  · rintro ⟨hx, hn⟩
    refine ⟨hx, ?_⟩
    simp only [Bool.not_eq_true', ← Bool.not_eq_true, List.any_eq_true, not_exists, not_and]
    intro f hf hb
    simp only [Bool.and_eq_true, Bool.not_eq_true', beq_iff_eq] at hb
    exact hn f hf hb.1.1.1 hb.1.1.2 hb.1.2 hb.2

/-- A separator splits the text before it from the text after it. -/
theorem Split_append_sep_any (sep : Char) (u v : Str) :
    Split (u ++ sep :: v) sep = Split u sep ++ Split v sep := by
  induction u with
  | nil => simp [Split]
  | cons c cs ih =>
    by_cases hc : c = sep
    · simp [Split, hc, ← ih]
    · cases hs : Split cs sep with
      | nil => exact absurd hs (Split_ne_nil cs sep)
      | cons q qs =>
        rw [hs] at ih
        simp [Split, hc, ih, hs]

/-- The elements of a plain file name: the name itself. -/
theorem pathElems_fileName (name : Str) (h : isFileName name = true) :
    pathElems name = [name] ∧ name ≠ ['.', '.'] ∧ name.head? ≠ some '/' := by
  simp only [isFileName, Bool.and_eq_true, Bool.not_eq_true', bne_iff_ne, ne_eq,
    List.isEmpty_eq_false] at h
  obtain ⟨⟨⟨⟨h1, h2⟩, _⟩, h4⟩, h5⟩ := h
  have hmem : '/' ∉ name := by
    intro hm
    have hc : name.contains '/' = true := by simpa using hm
    rw [h2] at hc
    exact absurd hc (by simp)
  refine ⟨?_, h5, ?_⟩
  · rw [pathElems, Split_of_not_mem _ _ hmem]
    simp [h1, h4]
  · intro hh
    cases name with
    | nil => simp at hh
    | cons a as =>
      simp only [List.head?_cons, Option.some.injEq] at hh
      exact hmem (by simp [hh])

/-- The path path.Join(hd, name) of a plain file name designates the entry of
hd called name. -/
theorem joinEntry_fileName (hd name : Str) (h : isFileName name = true) :
    joinEntry hd name = some name := by
  obtain ⟨he, hdd, hroot⟩ := pathElems_fileName name h
  unfold joinEntry joinStr
  by_cases hh : hd = []
  · subst hh
    have hr : (name.head? == some '/') = false := by simpa using hroot
    have h0 : cleanElems [] = [] := rfl
    rw [h0, cleanElems]
    simp only [if_true]
    rw [he]
    simp [hr, cleanStep, hdd]
  · have hhead : (hd ++ '/' :: name).head? = hd.head? := by
      cases hd with
      | nil => exact absurd rfl hh
      | cons a as => rfl
    have hel : pathElems (hd ++ '/' :: name) = pathElems hd ++ [name] := by
      rw [pathElems, Split_append_sep_any, List.filter_append]
      rw [← pathElems, ← pathElems, he]
    simp [hh, cleanElems, hhead, hel, List.foldl_append, cleanStep, hdd]

/-- Creating the file of a cluster with a plain file name puts the entry of
that name. -/
theorem created_fileName (hd : HostDir) (name contents : Str) (h : isFileName name = true) :
    hd.created name contents = putEntry name contents hd.entries := by
  rw [HostDir.created, joinEntry_fileName hd.path name h]

/-- When every file can be created and written, syncHosts is the write loop
followed by gcHostsFiles. -/
theorem syncLoop_ok (cloud : Cloud) (rest : List (Str × Cluster)) (hd : HostDir)
    (h : ∀ kc ∈ rest, isFileName kc.2.Name = true ∧ hd.canCreate kc.2.Name = true ∧
      hd.canWrite kc.2.Name = true) :
    syncLoop cloud rest hd = gcHostsFiles cloud { hd with entries := writeAll rest hd.entries } := by
  induction rest generalizing hd with
  | nil => simp [syncLoop, writeAll]
  | cons kc rest ih =>
    obtain ⟨k, c⟩ := kc
    obtain ⟨h1, h2, h3⟩ := h (k, c) (by simp)
    simp only at h1 h2 h3
    rw [syncLoop]
    simp only [h2, h3, Bool.not_true, Bool.false_eq_true, if_false]
    rw [created_fileName hd c.Name _ h1, ih]
    · simp [writeAll]
    · intro kc hkc
      exact h kc (by simp [hkc])

theorem writeAll_cons (kc : Str × Cluster) (cl : List (Str × Cluster)) (es : List DirEntry) :
    writeAll (kc :: cl) es = writeAll cl (putEntry kc.2.Name (hostsFileText kc.2) es) := by
  simp [writeAll]

theorem writeAll_nodup (cl : List (Str × Cluster)) (es : List DirEntry)
    (h : (es.map DirEntry.name).Nodup) : ((writeAll cl es).map DirEntry.name).Nodup := by
  induction cl generalizing es with
  | nil => simpa [writeAll]
  | cons kc cl ih =>
    rw [writeAll_cons]
    exact ih _ (putEntry_names_nodup _ _ _ h)

theorem mem_writeAll_other (cl : List (Str × Cluster)) (es : List DirEntry) (x : DirEntry)
    (hx : ∀ kc ∈ cl, x.name ≠ kc.2.Name) : x ∈ writeAll cl es ↔ x ∈ es := by
  induction cl generalizing es with
  | nil => simp [writeAll]
  | cons kc cl ih =>
    rw [writeAll_cons, ih _ (fun k hk => hx k (by simp [hk])),
      mem_putEntry_other _ _ _ _ (hx kc (by simp))]

theorem writeAll_not_regular (cl : List (Str × Cluster)) (es : List DirEntry) (x : DirEntry)
    (h : x ∈ writeAll cl es) (hr : x.regular = false) : x ∈ es := by
  induction cl generalizing es with
  | nil => simpa [writeAll] using h
  | cons kc cl ih =>
    rw [writeAll_cons] at h
    have h1 := ih _ h
    by_cases hn : x.name = kc.2.Name
    · rcases mem_putEntry_same _ _ _ _ h1 hn with rfl | ⟨hm, _⟩
      · simp at hr
      · exact hm
    · exact (mem_putEntry_other _ _ _ _ hn).mp h1

/-- After the write loop, the file of every written cluster is in the
listing with the text syncHosts writes for it, when the clusters have
distinct names, none of which is the name of an entry that is not a regular
file. -/
theorem writeAll_mem (cl : List (Str × Cluster)) (es : List DirEntry)
    (hnd : (cl.map (fun kc => kc.2.Name)).Nodup)
    (hreg : ∀ x ∈ es, x.regular = false → ∀ kc ∈ cl, x.name ≠ kc.2.Name)
    (kc : Str × Cluster) (hkc : kc ∈ cl) :
    (⟨kc.2.Name, true, hostsFileText kc.2⟩ : DirEntry) ∈ writeAll cl es := by
  induction cl generalizing es with
  | nil => simp at hkc
  | cons k cl ih =>
    simp only [List.map_cons, List.nodup_cons] at hnd
    rw [writeAll_cons]
    have hreg' : ∀ x ∈ putEntry k.2.Name (hostsFileText k.2) es, x.regular = false →
        ∀ kc ∈ cl, x.name ≠ kc.2.Name := by
      intro x hx hr q hq
      have hxes : x ∈ es := by
        by_cases hn : x.name = k.2.Name
        · rcases mem_putEntry_same _ _ _ _ hx hn with rfl | ⟨hm, _⟩
          · simp at hr
          · exact hm
        · exact (mem_putEntry_other _ _ _ _ hn).mp hx
      exact hreg x hxes hr q (by simp [hq])
    rcases List.mem_cons.mp hkc with rfl | hkc'
    · rw [mem_writeAll_other]
      · exact putEntry_mem _ _ _ (fun x hx hr => hreg x hx hr kc (by simp))
      · intro q hq e
        apply hnd.1
        simp only [List.mem_map]
        exact ⟨q, hq, e.symm⟩
    · exact ih _ hnd.2 hreg' hkc'

theorem hasKey_iff (cloud : Cloud) (name : Str) :
    cloud.hasKey name = true ↔ ∃ kc ∈ cloud.Clusters, kc.1 = name := by
  unfold Cloud.hasKey
  rw [List.any_eq_true]
  constructor
  · rintro ⟨kc, hkc, h⟩
    exact ⟨kc, hkc, by simpa using h⟩
  · rintro ⟨kc, hkc, h⟩
    exact ⟨kc, hkc, by simpa using h⟩

/-- The host directory after a successful syncHosts on an inventory keyed by
cluster name: distinct names, the file of each cluster with the text written
for it, and no other regular file. -/
theorem syncHosts_ok (cloud : Cloud) (hd : HostDir)
    (hkeys : (cloud.Clusters.map Prod.fst).Nodup)
    (hnames : ∀ kc ∈ cloud.Clusters, kc.2.Name = kc.1 ∧ isFileName kc.1 = true)
    (hlist : hd.listable = true)
    (hnd : (hd.entries.map DirEntry.name).Nodup)
    (hperm : ∀ kc ∈ cloud.Clusters, hd.canCreate kc.1 = true ∧ hd.canWrite kc.1 = true)
    (hstale : ∀ x ∈ hd.entries, x.regular = true → cloud.hasKey x.name = false →
      hd.canRemove x.name = true)
    (hreg : ∀ x ∈ hd.entries, x.regular = false → cloud.hasKey x.name = false) :
    (syncHosts cloud hd).1 = none ∧
    (syncHosts cloud hd).2.listable = true ∧
    (syncHosts cloud hd).2.canRead = hd.canRead ∧
    ((syncHosts cloud hd).2.entries.map DirEntry.name).Nodup ∧
    (∀ kc ∈ cloud.Clusters,
      (⟨kc.2.Name, true, hostsFileText kc.2⟩ : DirEntry) ∈ (syncHosts cloud hd).2.entries) ∧
    (∀ x ∈ (syncHosts cloud hd).2.entries, x.regular = true →
      ∃ kc ∈ cloud.Clusters, x = ⟨kc.2.Name, true, hostsFileText kc.2⟩) := by
  have hok : ∀ kc ∈ cloud.Clusters, isFileName kc.2.Name = true ∧
      hd.canCreate kc.2.Name = true ∧ hd.canWrite kc.2.Name = true := by
    intro kc hkc
    obtain ⟨e, hf⟩ := hnames kc hkc
    obtain ⟨p1, p2⟩ := hperm kc hkc
    rw [e]; exact ⟨hf, p1, p2⟩
  have hnm : cloud.Clusters.map (fun kc => kc.2.Name) = cloud.Clusters.map Prod.fst :=
    List.map_congr_left (fun kc hkc => (hnames kc hkc).1)
  have hkey : ∀ kc ∈ cloud.Clusters, cloud.hasKey kc.2.Name = true := by
    intro kc hkc
    exact (hasKey_iff _ _).mpr ⟨kc, hkc, (hnames kc hkc).1.symm⟩
  have hW := writeAll_nodup cloud.Clusters hd.entries hnd
  have hmem := writeAll_mem cloud.Clusters hd.entries (by rw [hnm]; exact hkeys)
    (by
      intro x hx hr kc hkc e
      have := hreg x hx hr
      rw [e, hkey kc hkc] at this
      exact absurd this (by simp))
  unfold syncHosts
  rw [syncLoop_ok cloud _ hd hok]
  unfold gcHostsFiles
  simp only [hlist, Bool.not_true, Bool.false_eq_true, if_false]
  refine ⟨trivial, trivial, trivial, ?_, ?_, ?_⟩
  · rw [gcLoop_eq]
    exact (List.filter_sublist _).map _ |>.nodup hW
  · intro kc hkc
    rw [mem_gcLoop]
    refine ⟨hmem kc hkc, ?_⟩
    intro f _ _ hk _ e
    rw [e] at hk
    simp only at hk
    rw [hkey kc hkc] at hk
    exact absurd hk (by simp)
  · intro x hx hr
    rw [mem_gcLoop] at hx
    obtain ⟨hxW, hkeep⟩ := hx
    have hk : cloud.hasKey x.name = true := by
      by_contra hk
      have hk' : cloud.hasKey x.name = false := by simpa using hk
      have hxes : x ∈ hd.entries := by
        refine (mem_writeAll_other _ _ _ ?_).mp hxW
        intro kc hkc e
        rw [e, hkey kc hkc] at hk'
        exact absurd hk' (by simp)
      exact hkeep x hxW hr hk' (hstale x hxes hr hk') rfl
    obtain ⟨kc, hkc, e⟩ := (hasKey_iff _ _).mp hk
    refine ⟨kc, hkc, ?_⟩
    have hin := hmem kc hkc
    have hname : (⟨kc.2.Name, true, hostsFileText kc.2⟩ : DirEntry).name = x.name := by
      simp only
      rw [(hnames kc hkc).1, e]
    exact (List.inj_on_of_nodup_map hW hxW hin hname.symm)

/-- C1, as the code has it: for an inventory keyed by cluster name, with
distinct file names as keys and VMs whose user, address, locality and VPC
have no whitespace, whose user and address have no at sign and whose user
does not begin with a number sign, on a listable host directory of distinct
names where the cluster files can be created, written and read, every stale
regular file can be removed and no entry other than a regular file bears a
cluster's name: syncHosts succeeds, loadClusters then succeeds, and the
catalog holds under the name of each cluster of N VMs a record of that name
with N nodes whose Users and VMs are the VMs' RemoteUser and PublicIP values
in order. -/
theorem C1_sync_then_load_round_trip (osUser : Str) (cloud : Cloud) (hd : HostDir)
    (cat : Catalog) (key : Str) (c : Cluster)
    (hc : (key, c) ∈ cloud.Clusters)
    (hkeys : (cloud.Clusters.map Prod.fst).Nodup)
    (hnames : ∀ kc ∈ cloud.Clusters, kc.2.Name = kc.1 ∧ isFileName kc.1 = true)
    (hclean : ∀ kc ∈ cloud.Clusters, ∀ vm ∈ kc.2.VMs, cleanVM vm = true)
    (hlist : hd.listable = true)
    (hnd : (hd.entries.map DirEntry.name).Nodup)
    (hperm : ∀ kc ∈ cloud.Clusters, hd.canCreate kc.1 = true ∧ hd.canWrite kc.1 = true ∧
      hd.canRead kc.1 = true)
    (hstale : ∀ x ∈ hd.entries, x.regular = true → cloud.hasKey x.name = false →
      hd.canRemove x.name = true)
    (hreg : ∀ x ∈ hd.entries, x.regular = false → cloud.hasKey x.name = false) :
    (syncHosts cloud hd).1 = none ∧
    (loadClusters osUser (syncHosts cloud hd).2 cat).1 = none ∧
    ∃ sc, (loadClusters osUser (syncHosts cloud hd).2 cat).2 c.Name = some sc ∧
      sc.Name = c.Name ∧ sc.VMs.length = c.VMs.length ∧
      sc.Users = c.VMs.map VM.RemoteUser ∧ sc.VMs = c.VMs.map VM.PublicIP := by
  obtain ⟨s1, s2, s3, s4, s5, s6⟩ := syncHosts_ok cloud hd hkeys hnames hlist hnd
    (fun kc hkc => ⟨(hperm kc hkc).1, (hperm kc hkc).2.1⟩) hstale hreg
  have hall : ∀ x ∈ (syncHosts cloud hd).2.entries, x.regular = true →
      (syncHosts cloud hd).2.canRead x.name = true ∧
        ∃ sc, parseFile osUser x.name x.contents = .ok sc := by
    intro x hx hr
    obtain ⟨kc, hkc, rfl⟩ := s6 x hx hr
    obtain ⟨sc, hsc, _⟩ := parseFile_hostsFileText osUser kc.2.Name kc.2 (hclean kc hkc)
    refine ⟨?_, sc, hsc⟩
    rw [s3]
    simp only
    rw [(hnames kc hkc).1]
    exact (hperm kc hkc).2.2
  refine ⟨s1, ?_, ?_⟩
  · unfold loadClusters
    simp only [s2, Bool.not_true, Bool.false_eq_true, if_false]
    exact loadFiles_ok osUser _ _ cat hall
  · obtain ⟨sc, hsc, hn, hv, hu⟩ := parseFile_hostsFileText osUser c.Name c (hclean _ hc)
    refine ⟨sc, ?_, hn, by rw [hv]; simp, hu, hv⟩
    unfold loadClusters
    simp only [s2, Bool.not_true, Bool.false_eq_true, if_false]
    exact loadFiles_get osUser _ _ cat s4 hall ⟨c.Name, true, hostsFileText c⟩
      (s5 _ hc) rfl sc hsc

/-- C1 on the example of the specification: the cluster demo, written to a
directory that holds a stale file, is loaded back with its two users and two
addresses. -/
theorem C1_sync_then_load_round_trip_witness :
    (syncHosts demoCloud demoDir).1 = none ∧
    (loadClusters "me".toList (syncHosts demoCloud demoDir).2 Catalog.empty).1 = none ∧
    ∃ sc, (loadClusters "me".toList (syncHosts demoCloud demoDir).2 Catalog.empty).2
        "demo".toList = some sc ∧
      sc.Name = "demo".toList ∧ sc.VMs.length = 2 ∧
      sc.Users = ["alice".toList, "alice".toList] ∧
      sc.VMs = ["10.0.0.1".toList, "10.0.0.2".toList] :=
  C1_sync_then_load_round_trip "me".toList demoCloud demoDir Catalog.empty "demo".toList
    ⟨"demo".toList,
      [⟨"alice".toList, "10.0.0.1".toList, "us-east".toList, "v1".toList⟩,
       ⟨"alice".toList, "10.0.0.2".toList, "us-east".toList, "v2".toList⟩]⟩
    (List.Mem.head _) (by decide) (by decide) (by decide) rfl (by decide)
    (fun _ _ => ⟨rfl, rfl, rfl⟩) (fun _ _ _ _ => rfl) (by decide)

/-- C1 as stated fails: for a cluster whose VM has the locality `us east`,
syncHosts succeeds and writes a row of four fields, loadClusters fails on it
with the invalid-hosts-line error, and the catalog holds no record for the
cluster. -/
theorem C1_locality_with_space_is_not_loaded :
    (syncHosts spacedCloud (HostDir.plain [])).1 = none ∧
    (loadClusters "me".toList (syncHosts spacedCloud (HostDir.plain [])).2 Catalog.empty).1
      = some (HostsError.invalidHostsLine "alice@10.0.0.1  us east   v1".toList) ∧
    (loadClusters "me".toList (syncHosts spacedCloud (HostDir.plain [])).2 Catalog.empty).2
      "demo".toList = none := by
  decide

/-! ## The value table of a token family (C11) and the store directory (C12) -/

theorem filterMap_eq_filter_map {α β : Type} (m : α → Option β) (d : β) (xs : List α) :
    xs.filterMap m = (xs.filter (fun i => (m i).isSome)).map (fun i => (m i).getD d) := by
  induction xs with
  | nil => simp
  | cons x xs ih =>
    cases h : m x with
    | none => simp [List.filterMap_cons, List.filter_cons, h, ih]
    | some v => simp [List.filterMap_cons, List.filter_cons, h, ih]

/-- C11: when ListNodes resolves the node specification (`all` for an empty
one, else the text after the colon) to a sequence of indices, maybeExpandMap
returns, joined by single spaces and in the order of the sequence, the values
m[i] of exactly those indices of the sequence that are keys of m, and reports
an expansion; an empty sequence gives the empty string, and so does a
sequence none of whose indices is a key: a missing index is skipped, it is
not an error. -/
theorem C11_selected_values_joined (D : Deps) (c : SyncedCluster) (m : IntMap)
    (nodeSpec : Str) (nodes : List Int)
    (hsel : D.ListNodes (if nodeSpec = [] then "all".toList else nodeSpec.drop 1) c.VMs.length
      = .ok nodes) :
    maybeExpandMap D c m nodeSpec =
      (joinSpace ((nodes.filter (fun i => (m i).isSome)).map (fun i => (m i).getD [])), true) ∧
    (nodes = [] → (maybeExpandMap D c m nodeSpec).1 = []) ∧
    ((∀ i ∈ nodes, m i = none) → (maybeExpandMap D c m nodeSpec).1 = []) := by
  have h : maybeExpandMap D c m nodeSpec = (joinSpace (nodes.filterMap m), true) := by
    unfold maybeExpandMap
    simp only [hsel]
  refine ⟨?_, ?_, ?_⟩
  · rw [h, filterMap_eq_filter_map m []]
  · intro hn
    rw [h, hn]
    rfl
  · intro hn
    have : nodes.filterMap m = [] := by
      rw [List.filterMap_eq_nil_iff]
      exact hn
    rw [h, this]
    rfl

/-- C11 on the sample cluster: of the selected nodes 1 and 3 only node 1
has a value in the table, and the result is that value alone. -/
theorem C11_selected_values_joined_witness :
    maybeExpandMap sampleDeps sampleCluster
        (fun k => if k = 1 then some "a".toList else none) ":1,3".toList
      = ("a".toList, true) :=
  (C11_selected_values_joined sampleDeps sampleCluster
    (fun k => if k = 1 then some "a".toList else none) ":1,3".toList [1, 3] (by decide)).1

theorem replaceParams_no_open {σ : Type} (f : σ → Str → Str × σ) (st : σ) (arg : Str)
    (h : '{' ∉ arg) : replaceParams f st none arg = (arg, st) := by
  apply replaceParams_no_span
  intro pre mid post _ e
  apply h
  rw [e]
  simp

theorem closedFrom_no_open (p : Str) (h : '{' ∉ p) : closedFrom false p = true := by
  induction p with
  | nil => rfl
  | cons ch cs ih =>
    have hc : ch ≠ '{' := fun e => h (by simp [e])
    have hcs : '{' ∉ cs := fun e => h (by simp [e])
    simp [closedFrom, hc, ih hcs]

/-- What the function literal of expand returns for the store-dir token: the
data directory of the expander's node, the expander unchanged. -/
theorem expandParam_store_dir (D : Deps) (c : SyncedCluster) (e : expander) :
    expandParam D c e "\x7bstore-dir\x7d".toList = (D.NodeDir c e.node, e) := by
  rw [expandParam_eq]
  have h1 : pgURLRe "\x7bstore-dir\x7d".toList = none := by decide
  have h2 : pgPortRe "\x7bstore-dir\x7d".toList = none := by decide
  have h3 : storeDirRe "\x7bstore-dir\x7d".toList = true := by decide
  simp only [h1, h2, h3, if_true]

/-- C12: for every cluster, every expander and every text before and after
without an opening brace (so for every text without braces), expand replaces
the token store-dir by the data directory NodeDir of the expander's own node;
the result does not depend on ListNodes or on another node, and the expander
is left as it was. -/
theorem C12_store_dir_is_target_node_dir (D : Deps) (e : expander) (c : SyncedCluster)
    (p s : Str) (hp : '{' ∉ p) (hs : '{' ∉ s) :
    expand D e c (p ++ ("\x7bstore-dir\x7d".toList ++ s)) = (p ++ (D.NodeDir c e.node ++ s), e) := by
  have e1 : ("\x7bstore-dir\x7d".toList ++ s : Str)
      = '{' :: ("store-dir".toList ++ '}' :: s) := by
    have : ("\x7bstore-dir\x7d".toList : Str) = '{' :: ("store-dir".toList ++ ['}']) := by decide
    rw [this]; simp
  have e2 : ('{' :: "store-dir".toList ++ ['}'] : Str) = "\x7bstore-dir\x7d".toList := by decide
  unfold expand
  rw [(replaceParams_append_closed (expandParam D c) p _).1 e (closedFrom_no_open p hp),
    replaceParams_no_open _ _ p hp, e1, replaceParams_span _ _ _ _ (by decide), e2,
    expandParam_store_dir, replaceParams_no_open _ _ s hs]

/-- C12 on the sample cluster, for the target node 2. -/
theorem C12_store_dir_is_target_node_dir_witness :
    expand sampleDeps (expander.fresh 2) sampleCluster
        ("--store=".toList ++ ("\x7bstore-dir\x7d".toList ++ "/logs".toList))
      = ("--store=".toList ++ ("/mnt/data2".toList ++ "/logs".toList), expander.fresh 2) :=
  C12_store_dir_is_target_node_dir sampleDeps (expander.fresh 2) sampleCluster
    "--store=".toList "/logs".toList (by decide) (by decide)

/-! ## gcHostsFiles (C13, C14) and the directory after syncHosts (C15) -/

theorem hasName_eq_hasKey (cloud : Cloud) (hkeyed : ∀ kc ∈ cloud.Clusters, kc.2.Name = kc.1)
    (name : Str) : cloud.hasName name = cloud.hasKey name := by
  unfold Cloud.hasName Cloud.hasKey
  rw [Bool.eq_iff_iff, List.any_eq_true, List.any_eq_true]
  constructor
  · rintro ⟨kc, hkc, h⟩
    exact ⟨kc, hkc, by rw [← hkeyed kc hkc]; exact h⟩
  · rintro ⟨kc, hkc, h⟩
    exact ⟨kc, hkc, by rw [hkeyed kc hkc]; exact h⟩

theorem gcHostsFiles_entries (cloud : Cloud) (hd : HostDir) (hlist : hd.listable = true) :
    gcHostsFiles cloud hd =
      (none, { hd with entries := gcLoop cloud hd.canRemove hd.entries hd.entries }) := by
  unfold gcHostsFiles
  simp [hlist]

/-- C13: on a listable directory of distinct names and an inventory keyed by
cluster name, gcHostsFiles returns no error, keeps every entry whose name is
the name of a cluster of the inventory, keeps every entry that is not a
regular file, adds nothing, and removes a regular file whose name is no
cluster's name exactly when its removal succeeds (the removal of each is
attempted); when all these removals succeed, the directory afterwards is the
original one without the stale regular files. -/
theorem C13_gc_removes_stale_regular_files_only (cloud : Cloud) (hd : HostDir)
    (hkeyed : ∀ kc ∈ cloud.Clusters, kc.2.Name = kc.1)
    (hlist : hd.listable = true)
    (hnd : (hd.entries.map DirEntry.name).Nodup) :
    (gcHostsFiles cloud hd).1 = none ∧
    (∀ x ∈ hd.entries, cloud.hasName x.name = true → x ∈ (gcHostsFiles cloud hd).2.entries) ∧
    (∀ x ∈ hd.entries, x.regular = false → x ∈ (gcHostsFiles cloud hd).2.entries) ∧
    (∀ x ∈ (gcHostsFiles cloud hd).2.entries, x ∈ hd.entries) ∧
    (∀ x ∈ hd.entries, x.regular = true → cloud.hasName x.name = false →
      (x ∈ (gcHostsFiles cloud hd).2.entries ↔ hd.canRemove x.name = false)) ∧
    ((∀ x ∈ hd.entries, x.regular = true → cloud.hasName x.name = false →
        hd.canRemove x.name = true) →
      (gcHostsFiles cloud hd).2.entries =
        hd.entries.filter (fun x => !(x.regular && !cloud.hasName x.name))) := by
  have hsame : ∀ f ∈ hd.entries, ∀ x ∈ hd.entries, f.name = x.name → f = x :=
    fun f hf x hx e => List.inj_on_of_nodup_map hnd hf hx e
  rw [gcHostsFiles_entries cloud hd hlist]
  simp only [hasName_eq_hasKey cloud hkeyed]
  refine ⟨trivial, ?_, ?_, ?_, ?_, ?_⟩
  · intro x hx hk
    rw [mem_gcLoop]
    refine ⟨hx, ?_⟩
    intro f _ _ hfk _ e
    rw [e, hk] at hfk
    exact absurd hfk (by simp)
  · intro x hx hr
    rw [mem_gcLoop]
    refine ⟨hx, ?_⟩
    intro f hf hfr _ _ e
    have := hsame f hf x hx e
    rw [this, hr] at hfr
    exact absurd hfr (by simp)
  · intro x hx
    exact ((mem_gcLoop _ _ _ _).mp hx).1
  · intro x hx hr hk
    rw [mem_gcLoop]
    constructor
    · rintro ⟨_, hkeep⟩
      by_contra hc
      exact hkeep x hx hr hk (by simpa using hc) rfl
    · intro hc
      refine ⟨hx, ?_⟩
      intro f hf _ _ hfc e
      have := hsame f hf x hx e
      rw [this, hc] at hfc
      exact absurd hfc (by simp)
  · intro hall
    have : gcLoop cloud hd.canRemove hd.entries hd.entries
        = hd.entries.filter (fun x => !(x.regular && !cloud.hasKey x.name)) := by
      rw [gcLoop_eq]
      apply List.filter_congr
      intro x hx
      by_cases hr : x.regular = true
      · by_cases hk : cloud.hasKey x.name = true
        · have : (hd.entries.any (fun f => f.regular && !cloud.hasKey f.name &&
              hd.canRemove f.name && f.name == x.name)) = false := by
            rw [List.any_eq_false]
            intro f hf
            have hk' : ∀ e : f.name = x.name, cloud.hasKey f.name = true := fun e => by
              rw [e]; exact hk
            by_cases e : f.name = x.name
            · simp [hk' e]
            · simp [e]
          simp [this, hr, hk]
        · have hk' : cloud.hasKey x.name = false := by simpa using hk
          have : (hd.entries.any (fun f => f.regular && !cloud.hasKey f.name &&
              hd.canRemove f.name && f.name == x.name)) = true := by
            rw [List.any_eq_true]
            exact ⟨x, hx, by simp [hr, hk', hall x hx hr hk']⟩
          simp [this, hr, hk']
      · have hr' : x.regular = false := by simpa using hr
        have : (hd.entries.any (fun f => f.regular && !cloud.hasKey f.name &&
            hd.canRemove f.name && f.name == x.name)) = false := by
          rw [List.any_eq_false]
          intro f hf
          by_cases e : f.name = x.name
          · have := hsame f hf x hx e
            simp [this, hr']
          · simp [e]
        simp [this, hr']
    rw [this]

/-- C13 on a directory with a cluster file, two stale files of which one
cannot be removed, and a subdirectory: only the removable stale file goes. -/
theorem C13_gc_removes_stale_regular_files_only_witness :
    (gcHostsFiles demoCloud gcDir).2.entries =
      [⟨"demo".toList, true, "alice@10.0.0.1\n".toList⟩, ⟨"locked".toList, true, []⟩,
       ⟨"sub".toList, false, []⟩] ∧
    (gcHostsFiles demoCloud gcDir).1 = none :=
  ⟨by decide, (C13_gc_removes_stale_regular_files_only demoCloud gcDir
    (by decide) rfl (by decide)).1⟩

/-- The error syncHosts returns does not depend on which removals succeed. -/
theorem syncLoop_error_removal_free (cloud : Cloud) (rest : List (Str × Cluster)) (hd : HostDir)
    (canRemove2 : Str → Bool) :
    (syncLoop cloud rest { hd with canRemove := canRemove2 }).1 = (syncLoop cloud rest hd).1 := by
  induction rest generalizing hd with
  | nil =>
    simp only [syncLoop, gcHostsFiles]
    by_cases hl : hd.listable = true <;> simp [hl]
  | cons kc rest ih =>
    obtain ⟨k, c⟩ := kc
    rw [syncLoop, syncLoop]
    by_cases h1 : hd.canCreate c.Name = true
    · by_cases h2 : hd.canWrite c.Name = true
      · simp only [h1, h2, Bool.not_true, Bool.false_eq_true, if_false]
        exact ih { hd with entries := hd.created c.Name (hostsFileText c) }
      · simp [h1, h2]
    · simp [h1]

/-- The directory after a successful syncHosts: the files are written, then
the stale files removed. -/
theorem syncHosts_eq (cloud : Cloud) (hd : HostDir) (hlist : hd.listable = true)
    (hok : ∀ kc ∈ cloud.Clusters, isFileName kc.2.Name = true ∧ hd.canCreate kc.2.Name = true ∧
      hd.canWrite kc.2.Name = true) :
    syncHosts cloud hd =
      (none, { hd with entries := (gcLoop cloud hd.canRemove
        (writeAll cloud.Clusters hd.entries) (writeAll cloud.Clusters hd.entries)) }) := by
  unfold syncHosts
  rw [syncLoop_ok cloud _ hd hok]
  exact gcHostsFiles_entries cloud { hd with entries := writeAll cloud.Clusters hd.entries } hlist

/-- C14: on a listable directory and an inventory keyed by cluster name,
whichever removals fail, gcHostsFiles returns no error and every regular file
whose name is no cluster's name and whose removal succeeds is gone afterwards,
wherever it is listed; the error syncHosts returns is the same whichever
removals fail, and syncHosts returns none when every cluster file can be
created and written. -/
theorem C14_gc_removal_failures_are_not_fatal (cloud : Cloud) (hd : HostDir)
    (hkeyed : ∀ kc ∈ cloud.Clusters, kc.2.Name = kc.1)
    (hlist : hd.listable = true) :
    (gcHostsFiles cloud hd).1 = none ∧
    (∀ x ∈ hd.entries, x.regular = true → cloud.hasName x.name = false →
      hd.canRemove x.name = true → x ∉ (gcHostsFiles cloud hd).2.entries) ∧
    (∀ canRemove2 : Str → Bool,
      (syncHosts cloud { hd with canRemove := canRemove2 }).1 = (syncHosts cloud hd).1) ∧
    ((∀ kc ∈ cloud.Clusters, isFileName kc.2.Name = true ∧ hd.canCreate kc.2.Name = true ∧
        hd.canWrite kc.2.Name = true) → (syncHosts cloud hd).1 = none) := by
  refine ⟨?_, ?_, ?_, ?_⟩
  · rw [gcHostsFiles_entries cloud hd hlist]
  · intro x hx hr hk hc hmem
    rw [gcHostsFiles_entries cloud hd hlist] at hmem
    rw [hasName_eq_hasKey cloud hkeyed] at hk
    exact ((mem_gcLoop _ _ _ _).mp hmem).2 x hx hr hk hc rfl
  · intro canRemove2
    exact syncLoop_error_removal_free cloud cloud.Clusters hd canRemove2
  · intro hok
    rw [syncHosts_eq cloud hd hlist hok]

/-- C14 on the directory whose stale file `locked` cannot be removed: no
error, and the stale file `old`, listed after it, is removed. -/
theorem C14_gc_removal_failures_are_not_fatal_witness :
    (gcHostsFiles demoCloud gcDir).1 = none ∧
    (⟨"old".toList, true, "junk\n".toList⟩ : DirEntry) ∉ (gcHostsFiles demoCloud gcDir).2.entries ∧
    (syncHosts demoCloud gcDir).1 = none :=
  ⟨(C14_gc_removal_failures_are_not_fatal demoCloud gcDir (by decide) rfl).1,
    (C14_gc_removal_failures_are_not_fatal demoCloud gcDir (by decide) rfl).2.1
      ⟨"old".toList, true, "junk\n".toList⟩ (by decide) rfl (by decide) (by decide),
    (C14_gc_removal_failures_are_not_fatal demoCloud gcDir (by decide) rfl).2.2.2
      (by decide)⟩

/-- A successful syncHosts means that the directory could be listed and every
cluster file created and written. -/
theorem syncLoop_none_inv (cloud : Cloud) (rest : List (Str × Cluster)) (hd : HostDir)
    (h : (syncLoop cloud rest hd).1 = none) :
    hd.listable = true ∧
    ∀ kc ∈ rest, hd.canCreate kc.2.Name = true ∧ hd.canWrite kc.2.Name = true := by
  induction rest generalizing hd with
  | nil =>
    simp only [syncLoop, gcHostsFiles] at h
    by_cases hl : hd.listable = true
    · exact ⟨hl, by simp⟩
    · simp [hl] at h
  | cons kc rest ih =>
    obtain ⟨k, c⟩ := kc
    rw [syncLoop] at h
    by_cases h1 : hd.canCreate c.Name = true
    · by_cases h2 : hd.canWrite c.Name = true
      · simp only [h1, h2, Bool.not_true, Bool.false_eq_true, if_false] at h
        obtain ⟨i1, i2⟩ := ih _ h
        refine ⟨i1, ?_⟩
        intro kc hkc
        rcases List.mem_cons.mp hkc with rfl | hkc
        · exact ⟨h1, h2⟩
        · exact i2 kc hkc
      · simp [h1, h2] at h
    · simp [h1] at h

/-- C15, as the code has it: after a successful syncHosts, for an inventory
keyed by cluster name (distinct keys) whose cluster names are plain file
names, on a directory of distinct names that holds only regular files, all of
which can be removed, the directory holds exactly the files of the clusters:
an entry is in it exactly when it is the regular file named by the Name of a
cluster of the inventory, with the text written for that cluster, and no two
entries share a name. -/
theorem C15_directory_after_sync (cloud : Cloud) (hd : HostDir)
    (hkeys : (cloud.Clusters.map Prod.fst).Nodup)
    (hkeyed : ∀ kc ∈ cloud.Clusters, kc.2.Name = kc.1)
    (hfile : ∀ kc ∈ cloud.Clusters, isFileName kc.2.Name = true)
    (hnd : (hd.entries.map DirEntry.name).Nodup)
    (hreg : ∀ x ∈ hd.entries, x.regular = true)
    (hrem : ∀ x ∈ hd.entries, hd.canRemove x.name = true)
    (hok : (syncHosts cloud hd).1 = none) :
    (∀ x, x ∈ (syncHosts cloud hd).2.entries ↔
      ∃ kc ∈ cloud.Clusters, x = ⟨kc.2.Name, true, hostsFileText kc.2⟩) ∧
    ((syncHosts cloud hd).2.entries.map DirEntry.name).Nodup := by
  obtain ⟨hlist, hperm0⟩ := syncLoop_none_inv cloud cloud.Clusters hd hok
  have hperm : ∀ kc ∈ cloud.Clusters, isFileName kc.2.Name = true ∧
      hd.canCreate kc.2.Name = true ∧ hd.canWrite kc.2.Name = true :=
    fun kc hkc => ⟨hfile kc hkc, hperm0 kc hkc⟩
  have hnames : ∀ kc ∈ cloud.Clusters, kc.2.Name = kc.1 ∧ isFileName kc.1 = true := by
    intro kc hkc
    refine ⟨hkeyed kc hkc, ?_⟩
    rw [← hkeyed kc hkc]
    exact (hperm kc hkc).1
  obtain ⟨_, _, _, s4, s5, s6⟩ := syncHosts_ok cloud hd hkeys hnames hlist hnd
    (fun kc hkc => by
      rw [← hkeyed kc hkc]
      exact ⟨(hperm kc hkc).2.1, (hperm kc hkc).2.2⟩)
    (fun x hx _ _ => hrem x hx)
    (fun x hx hr => by rw [hreg x hx] at hr; exact absurd hr (by simp))
  refine ⟨?_, s4⟩
  intro x
  constructor
  · intro hx
    apply s6 x hx
    by_contra hr
    have hr' : x.regular = false := by simpa using hr
    have hx' : x ∈ (syncHosts cloud hd).2.entries := hx
    rw [syncHosts_eq cloud hd hlist hperm] at hx'
    have hw := ((mem_gcLoop _ _ _ _).mp hx').1
    have := writeAll_not_regular _ _ _ hw hr'
    rw [hreg x this] at hr'
    exact absurd hr' (by simp)
  · rintro ⟨kc, hkc, rfl⟩
    exact s5 kc hkc

/-- C15 on the example of the specification: after syncHosts on a directory
with a stale file, the directory holds the file demo alone. -/
theorem C15_directory_after_sync_witness :
    (∀ x, x ∈ (syncHosts demoCloud demoDir).2.entries ↔
      ∃ kc ∈ demoCloud.Clusters, x = ⟨kc.2.Name, true, hostsFileText kc.2⟩) ∧
    ((syncHosts demoCloud demoDir).2.entries.map DirEntry.name).Nodup :=
  C15_directory_after_sync demoCloud demoDir (by decide) (by decide) (by decide) (by decide)
    (by decide) (fun _ _ => rfl) (by decide)

/-- C15 fails for a cluster whose name is not a plain file name: for the
name `x/` the file is created as the entry `x` of the directory, syncHosts
succeeds, and gcHostsFiles removes the entry `x`, which is the key of no
cluster; the directory is left without a file for the cluster. -/
theorem C15_file_of_slash_name_is_removed :
    (∀ kc ∈ slashCloud.Clusters, kc.2.Name = kc.1) ∧
    joinEntry (HostDir.plain []).path "x/".toList = some "x".toList ∧
    (syncHosts slashCloud (HostDir.plain [])).1 = none ∧
    (syncHosts slashCloud (HostDir.plain [])).2.entries = [] := by
  decide

/-! ## The catalog after loadClusters (C16, C18) -/

/-- A file loop without error has read and parsed every regular file. -/
theorem loadFiles_none_inv (osUser : Str) (canRead : Str → Bool) (es : List DirEntry)
    (cat : Catalog) (h : (loadFiles osUser canRead cat es).1 = none) :
    ∀ x ∈ es, x.regular = true →
      canRead x.name = true ∧ ∃ c, parseFile osUser x.name x.contents = .ok c := by
  induction es generalizing cat with
  | nil => simp
  | cons g es ih =>
    rw [loadFiles_cons] at h
    by_cases hg : g.regular = true
    · by_cases hc : canRead g.name = true
      · simp only [hg, hc, Bool.not_true, Bool.false_eq_true, if_false] at h
        cases hp : parseFile osUser g.name g.contents with
        | error e => rw [hp] at h; simp at h
        | ok c =>
          rw [hp] at h
          intro x hx hr
          rcases List.mem_cons.mp hx with rfl | hx
          · exact ⟨hc, c, hp⟩
          · exact ih _ h x hx hr
      · simp [hg, hc] at h
    · simp only [hg, Bool.not_false, if_true] at h
      intro x hx hr
      rcases List.mem_cons.mp hx with rfl | hx
      · exact absurd hr hg
      · exact ih _ h x hx hr

/-- Every record of the catalog after the file loop was there before or is
the cluster parsed from a regular file of that name. -/
theorem loadFiles_installed (osUser : Str) (canRead : Str → Bool) (es : List DirEntry)
    (cat : Catalog) (k : Str) (c : SyncedCluster)
    (h : (loadFiles osUser canRead cat es).2 k = some c) :
    cat k = some c ∨
      ∃ x ∈ es, x.regular = true ∧ x.name = k ∧ parseFile osUser x.name x.contents = .ok c := by
  induction es generalizing cat with
  | nil => left; simpa [loadFiles] using h
  | cons g es ih =>
    rw [loadFiles_cons] at h
    by_cases hg : g.regular = true
    · by_cases hc : canRead g.name = true
      · simp only [hg, hc, Bool.not_true, Bool.false_eq_true, if_false] at h
        cases hp : parseFile osUser g.name g.contents with
        | error e => rw [hp] at h; left; exact h
        | ok c2 =>
          rw [hp] at h
          rcases ih _ h with h1 | ⟨x, hx, hr, hn, hpx⟩
          · by_cases hk : k = g.name
            · right
              simp only [Catalog.set, hk, if_true, Option.some.injEq] at h1
              exact ⟨g, by simp, hg, hk.symm, by rw [hp, h1]⟩
            · left
              simpa [Catalog.set, hk] using h1
          · right
            exact ⟨x, by simp [hx], hr, hn, hpx⟩
      · simp only [hg, hc, Bool.not_true, Bool.not_false, Bool.false_eq_true, if_false,
          if_true] at h
        left; exact h
    · simp only [hg, Bool.not_false, if_true] at h
      rcases ih _ h with h1 | ⟨x, hx, hr, hn, hpx⟩
      · left; exact h1
      · right
        exact ⟨x, by simp [hx], hr, hn, hpx⟩

/-- A cluster parsed from a file has four sequences of the length of the
file's data lines. -/
theorem parseFile_lengths (osUser name contents : Str) (c : SyncedCluster)
    (h : parseFile osUser name contents = .ok c) :
    c.Name = name ∧ c.VMs.length = (dataLines contents).length ∧
    c.Users.length = (dataLines contents).length ∧
    c.Localities.length = (dataLines contents).length ∧
    c.VPCs.length = (dataLines contents).length := by
  rcases parseLines_cases osUser (Split contents '\n') ⟨name, [], [], [], []⟩ with
    ⟨hall, _⟩ | ⟨pre, l, post, _, _, _, herr⟩
  · obtain ⟨c2, hc2, hn, hv, hu, hl, hp⟩ := parseFile_ok osUser name contents hall
    rw [h] at hc2
    have e : c = c2 := by simpa using hc2
    subst e
    refine ⟨hn, ?_, ?_, ?_, ?_⟩
    · rw [hv]; simp
    · rw [hu]; simp
    · rw [hl]; simp
    · rw [hp]; simp
  · have h2 : parseFile osUser name contents = _ := herr
    rw [h] at h2
    simp at h2

/-- C16, as the code has it: after a successful loadClusters on a directory
of distinct names, the catalog holds under the name of every regular file the
cluster parsed from that file, and at every other name what the prior catalog
held; so it has an entry for a name exactly when the directory has a regular
file of that name or the prior catalog had an entry for it, and exactly when
the directory has such a file if the prior catalog was empty. -/
theorem C16_load_assigns_per_file_name (osUser : Str) (hd : HostDir) (cat : Catalog)
    (hnd : (hd.entries.map DirEntry.name).Nodup)
    (hok : (loadClusters osUser hd cat).1 = none) :
    (∀ x ∈ hd.entries, x.regular = true →
      ∃ c, parseFile osUser x.name x.contents = .ok c ∧
        (loadClusters osUser hd cat).2 x.name = some c) ∧
    (∀ k, (∀ x ∈ hd.entries, x.regular = true → x.name ≠ k) →
      (loadClusters osUser hd cat).2 k = cat k) ∧
    (∀ k, ((loadClusters osUser hd cat).2 k).isSome = true ↔
      ((∃ x ∈ hd.entries, x.regular = true ∧ x.name = k) ∨ (cat k).isSome = true)) ∧
    ((∀ k, cat k = none) →
      ∀ k, ((loadClusters osUser hd cat).2 k).isSome = true ↔
        ∃ x ∈ hd.entries, x.regular = true ∧ x.name = k) := by
  have hlist : hd.listable = true := by
    by_contra hl
    unfold loadClusters at hok
    simp [hl] at hok
  have heq : loadClusters osUser hd cat = loadFiles osUser hd.canRead cat hd.entries := by
    unfold loadClusters
    simp [hlist]
  rw [heq] at hok ⊢
  have hall := loadFiles_none_inv osUser hd.canRead hd.entries cat hok
  have p1 : ∀ x ∈ hd.entries, x.regular = true →
      ∃ c, parseFile osUser x.name x.contents = .ok c ∧
        (loadFiles osUser hd.canRead cat hd.entries).2 x.name = some c := by
    intro x hx hr
    obtain ⟨_, c, hc⟩ := hall x hx hr
    exact ⟨c, hc, loadFiles_get osUser hd.canRead hd.entries cat hnd hall x hx hr c hc⟩
  have p2 : ∀ k, (∀ x ∈ hd.entries, x.regular = true → x.name ≠ k) →
      (loadFiles osUser hd.canRead cat hd.entries).2 k = cat k :=
    fun k hk => loadFiles_frame osUser hd.canRead hd.entries cat k hk
  have p3 : ∀ k, ((loadFiles osUser hd.canRead cat hd.entries).2 k).isSome = true ↔
      ((∃ x ∈ hd.entries, x.regular = true ∧ x.name = k) ∨ (cat k).isSome = true) := by
    intro k
    by_cases hex : ∃ x ∈ hd.entries, x.regular = true ∧ x.name = k
    · obtain ⟨x, hx, hr, rfl⟩ := hex
      obtain ⟨c, _, hc⟩ := p1 x hx hr
      simp only [hc, Option.isSome_some, true_iff]
      exact Or.inl ⟨x, hx, hr, rfl⟩
    · have hk : ∀ x ∈ hd.entries, x.regular = true → x.name ≠ k :=
        fun x hx hr e => hex ⟨x, hx, hr, e⟩
      rw [p2 k hk]
      simp [hex]
  refine ⟨p1, p2, p3, ?_⟩
  intro hempty k
  rw [p3 k, hempty k]
  simp

/-- C16 on a directory with the file demo and a prior catalog that holds
`old`: after the load the catalog has the entry `old` of the prior catalog
and the cluster of the file demo. -/
theorem C16_load_assigns_per_file_name_witness :
    (loadClusters "me".toList oneFileDir oldCatalog).2 "old".toList = oldCatalog "old".toList ∧
    (((loadClusters "me".toList oneFileDir oldCatalog).2 "demo".toList).isSome = true ↔
      ((∃ x ∈ oneFileDir.entries, x.regular = true ∧ x.name = "demo".toList) ∨
        (oldCatalog "demo".toList).isSome = true)) :=
  ⟨(C16_load_assigns_per_file_name "me".toList oneFileDir oldCatalog (by decide)
      (by decide)).2.1 "old".toList (by decide),
    (C16_load_assigns_per_file_name "me".toList oneFileDir oldCatalog (by decide)
      (by decide)).2.2.1 "demo".toList⟩

/-- C16 as stated fails: a prior catalog holds a cluster under the name
`old`, the directory has the single file demo, the load succeeds, and the
catalog still has the entry `old`, for which the directory has no file; the
result depends on the prior catalog. -/
theorem C16_prior_entry_survives_load :
    (loadClusters "me".toList oneFileDir oldCatalog).1 = none ∧
    (loadClusters "me".toList oneFileDir oldCatalog).2 "old".toList = some sampleCluster ∧
    (¬ ∃ x ∈ oneFileDir.entries, x.regular = true ∧ x.name = "old".toList) ∧
    (loadClusters "me".toList oneFileDir Catalog.empty).2 "old".toList = none := by
  refine ⟨by decide, by decide, by decide, by decide⟩

/-- C18: every record in the catalog after loadClusters was in the prior
catalog or was installed from a regular file of that name, and an installed
record bears the file's name and has four sequences VMs, Users, Localities
and VPCs of one length, the number of data lines of the file. -/
theorem C18_installed_records_are_aligned (osUser : Str) (hd : HostDir) (cat : Catalog)
    (k : Str) (c : SyncedCluster) (h : (loadClusters osUser hd cat).2 k = some c) :
    cat k = some c ∨
      ∃ x ∈ hd.entries, x.regular = true ∧ x.name = k ∧
        parseFile osUser x.name x.contents = .ok c ∧ c.Name = k ∧
        c.VMs.length = (dataLines x.contents).length ∧
        c.Users.length = (dataLines x.contents).length ∧
        c.Localities.length = (dataLines x.contents).length ∧
        c.VPCs.length = (dataLines x.contents).length := by
  unfold loadClusters at h
  by_cases hlist : hd.listable = true
  · simp only [hlist, Bool.not_true, Bool.false_eq_true, if_false] at h
    rcases loadFiles_installed osUser hd.canRead hd.entries cat k c h with h1 | ⟨x, hx, hr, hn, hp⟩
    · exact Or.inl h1
    · obtain ⟨l0, l1, l2, l3, l4⟩ := parseFile_lengths osUser x.name x.contents c hp
      exact Or.inr ⟨x, hx, hr, hn, hp, by rw [l0, hn], l1, l2, l3, l4⟩
  · simp only [hlist, Bool.not_false, if_true] at h
    exact Or.inl h

/-- C18 on the directory with the file demo: its record has one node. -/
theorem C18_installed_records_are_aligned_witness :
    Catalog.empty "demo".toList
        = some ⟨"demo".toList, ["n1".toList], ["alice".toList], ["east".toList], ["v1".toList]⟩ ∨
      ∃ x ∈ oneFileDir.entries, x.regular = true ∧ x.name = "demo".toList ∧
        parseFile "me".toList x.name x.contents
          = .ok ⟨"demo".toList, ["n1".toList], ["alice".toList], ["east".toList], ["v1".toList]⟩ ∧
        (⟨"demo".toList, ["n1".toList], ["alice".toList], ["east".toList], ["v1".toList]⟩ :
          SyncedCluster).Name = "demo".toList ∧
        [("n1".toList : Str)].length = (dataLines x.contents).length ∧
        [("alice".toList : Str)].length = (dataLines x.contents).length ∧
        [("east".toList : Str)].length = (dataLines x.contents).length ∧
        [("v1".toList : Str)].length = (dataLines x.contents).length :=
  C18_installed_records_are_aligned "me".toList oneFileDir Catalog.empty "demo".toList
    ⟨"demo".toList, ["n1".toList], ["alice".toList], ["east".toList], ["v1".toList]⟩ (by decide)

/-! ## Localities and VPCs through a host-list file (C17) -/

/-- The data lines of the file syncHosts writes for a cluster of clean VMs
are the padded rows of its VMs, and no line of the file is malformed. -/
theorem hostsFileText_dataLines (c : Cluster) (h : ∀ vm ∈ c.VMs, cleanVM vm = true) :
    ∃ w0 w1, (∀ vm ∈ c.VMs, (vm.RemoteUser ++ '@' :: vm.PublicIP).length < w0 ∧
        vm.locality.length < w1) ∧
      (∀ l ∈ Split (hostsFileText c) '\n', isMalformed l = false) ∧
      dataLines (hostsFileText c) = c.VMs.map (fun vm => writeCells [w0, w1] (vmCells vm)) := by
  obtain ⟨w0, w1, hw, hsplit⟩ := hostsFileText_lines c h
  have hrow : ∀ vm ∈ c.VMs, _ := fun vm hvm =>
    vm_row vm w0 w1 (h vm hvm) (hw vm hvm).1 (hw vm hvm).2
  refine ⟨w0, w1, hw, ?_, ?_⟩
  · intro l hl
    rw [hsplit] at hl
    simp only [List.mem_cons, List.mem_append, List.mem_map, List.mem_singleton,
      List.not_mem_nil, or_false] at hl
    rcases hl with rfl | ⟨vm, hvm, rfl⟩ | rfl
    · simp [isMalformed, (header_row w0 w1).1]
    · exact (hrow vm hvm).2.1
    · rfl
  · unfold dataLines
    rw [hsplit, List.filter_cons]
    simp only [(header_row w0 w1).1, Bool.false_eq_true, if_false, List.filter_append]
    have e1 : List.filter isData [([] : Str)] = [] := by rfl
    rw [e1, List.append_nil, List.filter_eq_self]
    intro l hl
    obtain ⟨vm, hvm, rfl⟩ := List.mem_map.mp hl
    exact (hrow vm hvm).1

/-- The cluster loaded from the file syncHosts writes for a cluster of clean
VMs: users and addresses are those of the VMs, the locality and the VPC are
the second and third field of each row. -/
theorem parseFile_hostsFileText_fields (osUser name : Str) (c : Cluster) (sc : SyncedCluster)
    (h : ∀ vm ∈ c.VMs, cleanVM vm = true)
    (hsc : parseFile osUser name (hostsFileText c) = .ok sc) :
    sc.Name = name ∧ sc.VMs = c.VMs.map VM.PublicIP ∧ sc.Users = c.VMs.map VM.RemoteUser ∧
    sc.Localities = c.VMs.map readLocality ∧ sc.VPCs = c.VMs.map readVPC := by
  obtain ⟨w0, w1, hw, hmal, hdl⟩ := hostsFileText_dataLines c h
  obtain ⟨sc2, hsc2, hn, _, _, hl, hp⟩ := parseFile_ok osUser name (hostsFileText c) hmal
  obtain ⟨sc3, hsc3, _, hv, hu⟩ := parseFile_hostsFileText osUser name c h
  have e2 : sc = sc2 := by rw [hsc] at hsc2; simpa using hsc2
  have e3 : sc = sc3 := by rw [hsc] at hsc3; simpa using hsc3
  refine ⟨by rw [e2]; exact hn, by rw [e3]; exact hv, by rw [e3]; exact hu, ?_, ?_⟩
  · rw [e2, hl, hdl, List.map_map]
    apply List.map_congr_left
    intro vm hvm
    have hf := (vm_row vm w0 w1 (h vm hvm) (hw vm hvm).1 (hw vm hvm).2).2.2.2.2
    simp only [Function.comp, hf, readLocality]
    by_cases h1 : vm.locality = [] <;> by_cases h2 : vm.VPC = [] <;> simp [h1, h2]
  · rw [e2, hp, hdl, List.map_map]
    apply List.map_congr_left
    intro vm hvm
    have hf := (vm_row vm w0 w1 (h vm hvm) (hw vm hvm).1 (hw vm hvm).2).2.2.2.2
    simp only [Function.comp, hf, readVPC]
    by_cases h1 : vm.locality = [] <;> by_cases h2 : vm.VPC = [] <;> simp [h1, h2]

/-- The catalog after syncHosts and loadClusters on an inventory of clean
VMs keyed by cluster name: both succeed, and each cluster's name holds the
record parsed from the file written for it. -/
theorem sync_then_load (osUser : Str) (cloud : Cloud) (hd : HostDir) (cat : Catalog)
    (hkeys : (cloud.Clusters.map Prod.fst).Nodup)
    (hnames : ∀ kc ∈ cloud.Clusters, kc.2.Name = kc.1 ∧ isFileName kc.1 = true)
    (hclean : ∀ kc ∈ cloud.Clusters, ∀ vm ∈ kc.2.VMs, cleanVM vm = true)
    (hlist : hd.listable = true)
    (hnd : (hd.entries.map DirEntry.name).Nodup)
    (hperm : ∀ kc ∈ cloud.Clusters, hd.canCreate kc.1 = true ∧ hd.canWrite kc.1 = true ∧
      hd.canRead kc.1 = true)
    (hstale : ∀ x ∈ hd.entries, x.regular = true → cloud.hasKey x.name = false →
      hd.canRemove x.name = true)
    (hreg : ∀ x ∈ hd.entries, x.regular = false → cloud.hasKey x.name = false) :
    (syncHosts cloud hd).1 = none ∧
    (loadClusters osUser (syncHosts cloud hd).2 cat).1 = none ∧
    ∀ kc ∈ cloud.Clusters, ∃ sc,
      (loadClusters osUser (syncHosts cloud hd).2 cat).2 kc.2.Name = some sc ∧
      parseFile osUser kc.2.Name (hostsFileText kc.2) = .ok sc := by
  obtain ⟨s1, s2, s3, s4, s5, s6⟩ := syncHosts_ok cloud hd hkeys hnames hlist hnd
    (fun kc hkc => ⟨(hperm kc hkc).1, (hperm kc hkc).2.1⟩) hstale hreg
  have hall : ∀ x ∈ (syncHosts cloud hd).2.entries, x.regular = true →
      (syncHosts cloud hd).2.canRead x.name = true ∧
        ∃ sc, parseFile osUser x.name x.contents = .ok sc := by
    intro x hx hr
    obtain ⟨kc, hkc, rfl⟩ := s6 x hx hr
    obtain ⟨sc, hsc, _⟩ := parseFile_hostsFileText osUser kc.2.Name kc.2 (hclean kc hkc)
    refine ⟨?_, sc, hsc⟩
    rw [s3]
    simp only
    rw [(hnames kc hkc).1]
    exact (hperm kc hkc).2.2
  have heq : loadClusters osUser (syncHosts cloud hd).2 cat
      = loadFiles osUser (syncHosts cloud hd).2.canRead cat (syncHosts cloud hd).2.entries := by
    unfold loadClusters
    simp [s2]
  rw [heq]
  refine ⟨s1, loadFiles_ok osUser _ _ cat hall, ?_⟩
  intro kc hkc
  obtain ⟨sc, hsc, _⟩ := parseFile_hostsFileText osUser kc.2.Name kc.2 (hclean kc hkc)
  exact ⟨sc, loadFiles_get osUser _ _ cat s4 hall ⟨kc.2.Name, true, hostsFileText kc.2⟩
    (s5 kc hkc) rfl sc hsc, hsc⟩

/-- C17, as the code has it: under the conditions of the round trip (an
inventory keyed by cluster name whose VMs have values without whitespace, no
at sign in user and address and no user beginning with a number sign; a
listable directory of distinct names where the cluster files can be created,
written and read, stale regular files removed, and no other kind of entry
bears a cluster's name), syncHosts and loadClusters succeed and each
cluster's record has as Localities the second field and as VPCs the third
field of each written row; these are the VMs' locality and VPC values, in
order, when every VM with an empty locality has an empty VPC too. -/
theorem C17_localities_and_vpcs_round_trip (osUser : Str) (cloud : Cloud) (hd : HostDir)
    (cat : Catalog) (key : Str) (c : Cluster)
    (hc : (key, c) ∈ cloud.Clusters)
    (hkeys : (cloud.Clusters.map Prod.fst).Nodup)
    (hnames : ∀ kc ∈ cloud.Clusters, kc.2.Name = kc.1 ∧ isFileName kc.1 = true)
    (hclean : ∀ kc ∈ cloud.Clusters, ∀ vm ∈ kc.2.VMs, cleanVM vm = true)
    (hlist : hd.listable = true)
    (hnd : (hd.entries.map DirEntry.name).Nodup)
    (hperm : ∀ kc ∈ cloud.Clusters, hd.canCreate kc.1 = true ∧ hd.canWrite kc.1 = true ∧
      hd.canRead kc.1 = true)
    (hstale : ∀ x ∈ hd.entries, x.regular = true → cloud.hasKey x.name = false →
      hd.canRemove x.name = true)
    (hreg : ∀ x ∈ hd.entries, x.regular = false → cloud.hasKey x.name = false) :
    (syncHosts cloud hd).1 = none ∧
    (loadClusters osUser (syncHosts cloud hd).2 cat).1 = none ∧
    ∃ sc, (loadClusters osUser (syncHosts cloud hd).2 cat).2 c.Name = some sc ∧
      sc.Localities = c.VMs.map readLocality ∧ sc.VPCs = c.VMs.map readVPC ∧
      ((∀ vm ∈ c.VMs, vm.locality = [] → vm.VPC = []) →
        sc.Localities = c.VMs.map VM.locality ∧ sc.VPCs = c.VMs.map VM.VPC) := by
  obtain ⟨s1, s2, s3⟩ := sync_then_load osUser cloud hd cat hkeys hnames hclean hlist hnd
    hperm hstale hreg
  obtain ⟨sc, hcat, hsc⟩ := s3 (key, c) hc
  obtain ⟨_, _, _, hl, hv⟩ := parseFile_hostsFileText_fields osUser c.Name c sc
    (hclean _ hc) hsc
  refine ⟨s1, s2, sc, hcat, hl, hv, ?_⟩
  intro hgap
  constructor
  · rw [hl]
    apply List.map_congr_left
    intro vm hvm
    by_cases h1 : vm.locality = []
    · simp [readLocality, h1, hgap vm hvm h1]
    · simp [readLocality, h1]
  · rw [hv]
    apply List.map_congr_left
    intro vm hvm
    by_cases h1 : vm.locality = []
    · simp [readVPC, h1, hgap vm hvm h1]
    · simp [readVPC, h1]

/-- C17 on the example of the specification: the cluster demo is loaded
back with the localities us-east, us-east and the VPCs v1, v2. -/
theorem C17_localities_and_vpcs_round_trip_witness :
    ∃ sc, (loadClusters "me".toList (syncHosts demoCloud demoDir).2 Catalog.empty).2
        "demo".toList = some sc ∧
      sc.Localities = ["us-east".toList, "us-east".toList] ∧
      sc.VPCs = ["v1".toList, "v2".toList] :=
  match C17_localities_and_vpcs_round_trip "me".toList demoCloud demoDir Catalog.empty
    "demo".toList
    ⟨"demo".toList,
      [⟨"alice".toList, "10.0.0.1".toList, "us-east".toList, "v1".toList⟩,
       ⟨"alice".toList, "10.0.0.2".toList, "us-east".toList, "v2".toList⟩]⟩
    (List.Mem.head _) (by decide) (by decide) (by decide) rfl (by decide)
    (fun _ _ => ⟨rfl, rfl, rfl⟩) (fun _ _ _ _ => rfl) (by decide) with
  | ⟨_, _, sc, h1, _, _, h4⟩ => ⟨sc, h1, h4 (by decide)⟩

/-- C17 as stated fails: a VM with an empty locality and the VPC v2 is
written as a row of two fields, and loadClusters reads v2 back as the
locality and an empty VPC. -/
theorem C17_empty_locality_shifts_vpc :
    (syncHosts gapCloud (HostDir.plain [])).1 = none ∧
    (loadClusters "me".toList (syncHosts gapCloud (HostDir.plain [])).2 Catalog.empty).2
      "demo".toList =
      some ⟨"demo".toList, ["10.0.0.1".toList, "10.0.0.2".toList],
        ["alice".toList, "alice".toList], ["us-east".toList, "v2".toList],
        ["v1".toList, []]⟩ := by
  decide

/-! ## The error of a malformed line (C19) -/

/-- A file whose parse fails with the error of a line: the line is the first
malformed line of the file. -/
theorem parseFile_error_first (osUser name contents l : Str)
    (h : parseFile osUser name contents = .error (HostsError.invalidHostsLine l)) :
    ∃ lpre lpost, Split contents '\n' = lpre ++ l :: lpost ∧
      (∀ x ∈ lpre, isMalformed x = false) ∧ isMalformed l = true := by
  rcases parseLines_cases osUser (Split contents '\n') ⟨name, [], [], [], []⟩ with
    ⟨_, hok⟩ | ⟨lpre, l2, lpost, he, hpre, hl, herr⟩
  · have h2 : parseFile osUser name contents = _ := hok
    rw [h] at h2
    simp at h2
  · have h2 : parseFile osUser name contents = _ := herr
    rw [h] at h2
    have e : l = l2 := by simpa using h2
    subst e
    exact ⟨lpre, lpost, he, hpre, hl⟩

/-- A file that parses has no malformed line. -/
theorem parseFile_ok_no_malformed (osUser name contents : Str) (c : SyncedCluster)
    (h : parseFile osUser name contents = .ok c) :
    ∀ x ∈ Split contents '\n', isMalformed x = false := by
  rcases parseLines_cases osUser (Split contents '\n') ⟨name, [], [], [], []⟩ with
    ⟨hall, _⟩ | ⟨_, l2, _, _, _, _, herr⟩
  · exact hall
  · have h2 : parseFile osUser name contents = _ := herr
    rw [h] at h2
    simp at h2

theorem flatMap_plain (table : Char → Bool) (l : Str)
    (h : ∀ ch ∈ l, isPrint table ch = true ∧ ch ≠ '"' ∧ ch ≠ '\\') :
    l.flatMap (appendEscapedRune table) = l := by
  induction l with
  | nil => rfl
  | cons ch cs ih =>
    obtain ⟨h1, h2, h3⟩ := h ch (by simp)
    have := ih (fun x hx => h x (by simp [hx]))
    simp [List.flatMap_cons, appendEscapedRune, h1, h2, h3, this]

theorem containsLit_of_infix (lit pre post : Str) :
    containsLit lit (pre ++ (lit ++ post)) = true := by
  induction pre with
  | nil =>
    cases hl : [] ++ (lit ++ post) with
    | nil =>
      have : lit = [] := (List.append_eq_nil.mp (by simpa using hl)).1
      simp [containsLit, this]
    | cons ch cs =>
      have hd : dropLit lit (ch :: cs) = some post := by
        rw [← hl]; exact dropLit_append lit post
      rw [List.nil_append] at hl
      rw [containsLit, hd]
      rfl
  | cons p pre ih =>
    rw [List.cons_append, containsLit, ih]
    simp

/-- C19, as the code has it: when loadClusters returns the error of
newInvalidHostsLineErr for a line, that line is the first malformed line
met: the listing splits at a regular file whose lines split at that line,
no earlier line of the file and no line of an earlier regular file is
malformed. The message of the error is the text `invalid hosts line,
expected <username>@<host> [locality] [vpcId], got ` followed by the line as
the verb %q prints it; the message contains the expected grammar, and it is
the lead followed by the line itself between double quotes when every
character of the line is printable and is neither a double quote nor a
backslash. -/
theorem C19_error_is_for_first_malformed_line (table : Char → Bool) (osUser : Str)
    (hd : HostDir) (cat : Catalog) (l : Str)
    (herr : (loadClusters osUser hd cat).1 = some (newInvalidHostsLineErr l)) :
    (∃ pre file post lpre lpost, hd.entries = pre ++ file :: post ∧ file.regular = true ∧
      Split file.contents '\n' = lpre ++ l :: lpost ∧ isMalformed l = true ∧
      (∀ x ∈ lpre, isMalformed x = false) ∧
      (∀ f ∈ pre, f.regular = true → ∀ x ∈ Split f.contents '\n', isMalformed x = false)) ∧
    invalidHostsLineText table l =
      "invalid hosts line, expected <username>@<host> [locality] [vpcId], got ".toList
        ++ Quote table l ∧
    (∃ a b, invalidHostsLineText table l =
      a ++ ("expected <username>@<host> [locality] [vpcId]".toList ++ b)) ∧
    ((∀ ch ∈ l, isPrint table ch = true ∧ ch ≠ '"' ∧ ch ≠ '\\') →
      invalidHostsLineText table l =
        "invalid hosts line, expected <username>@<host> [locality] [vpcId], got ".toList
          ++ ('"' :: l ++ ['"'])) := by
  refine ⟨?_, rfl, ?_, ?_⟩
  · unfold loadClusters at herr
    by_cases hlist : hd.listable = true
    · simp only [hlist, Bool.not_true, Bool.false_eq_true, if_false] at herr
      obtain ⟨pre, file, post, he, hr, hf, hpre, _⟩ :=
        loadFiles_error_split osUser hd.canRead hd.entries cat l herr
      obtain ⟨lpre, lpost, hs, hlp, hl⟩ := parseFile_error_first osUser _ _ l hf
      refine ⟨pre, file, post, lpre, lpost, he, hr, hs, hl, hlp, ?_⟩
      intro f hfp hfr
      obtain ⟨_, c, hc⟩ := hpre f hfp hfr
      exact parseFile_ok_no_malformed osUser _ _ c hc
    · simp [hlist, newInvalidHostsLineErr] at herr
  · refine ⟨"invalid hosts line, ".toList, ", got ".toList ++ Quote table l, ?_⟩
    have e : invalidHostsLineLead = "invalid hosts line, ".toList ++
        ("expected <username>@<host> [locality] [vpcId]".toList ++ ", got ".toList) := by
      decide
    unfold invalidHostsLineText
    rw [e]
    simp only [List.append_assoc]
  · intro hplain
    unfold invalidHostsLineText Quote
    rw [flatMap_plain table l hplain]
    rfl

/-- C19 on a directory whose second file has the malformed line `x y z w`
after a well-formed one. -/
theorem C19_error_is_for_first_malformed_line_witness :
    invalidHostsLineText (fun _ => false) "x y z w".toList =
      "invalid hosts line, expected <username>@<host> [locality] [vpcId], got ".toList
        ++ ('"' :: "x y z w".toList ++ ['"']) :=
  (C19_error_is_for_first_malformed_line (fun _ => false) "me".toList
    (HostDir.plain [⟨"a".toList, true, "h1\n".toList⟩,
      ⟨"b".toList, true, "h2\nx y z w\nq r s t u\n".toList⟩])
    Catalog.empty "x y z w".toList (by decide)).2.2.2 (by decide)

/-- C19 as stated fails on its last part: for the malformed line whose four
fields are separated by tabs, loadClusters returns the error of that line,
whose message prints each tab as a backslash and the letter t, so the
message does not contain the line as it is in the file. -/
theorem C19_message_escapes_the_line :
    (loadClusters "me".toList tabbedDir Catalog.empty).1
      = some (newInvalidHostsLineErr "a\tb\tc\td".toList) ∧
    invalidHostsLineText (fun _ => false) "a\tb\tc\td".toList =
      "invalid hosts line, expected <username>@<host> [locality] [vpcId], got \"a\\tb\\tc\\td\"".toList ∧
    ¬ ∃ pre post, invalidHostsLineText (fun _ => false) "a\tb\tc\td".toList
        = pre ++ ("a\tb\tc\td".toList ++ post) := by
  refine ⟨by decide, by decide, ?_⟩
  rintro ⟨pre, post, h⟩
  have h1 := containsLit_of_infix "a\tb\tc\td".toList pre post
  rw [← h] at h1
  revert h1
  decide

/-! ## The caches of the expander are transparent (C20) -/

theorem expandParam_uncached (D : Deps) (c : SyncedCluster) (e : expander) (s : Str)
    (h : coherent D c e) :
    (expandParam D c e s).1 = expandParamUncached D c e.node s := by
  obtain ⟨hu, hp⟩ := h
  have k1 : e.pgURLs.getD (D.pgurls c (D.allNodes c.VMs.length))
      = D.pgurls c (D.allNodes c.VMs.length) := by
    rcases hu with hu | hu <;> simp [hu]
  have k2 : e.pgPorts.getD (buildPgPorts D c) = buildPgPorts D c := by
    rcases hp with hp | hp <;> simp [hp]
  rw [expandParam_eq]
  unfold expandParamUncached
  cases pgURLRe s with
  | some g => simp only [k1]
  | none =>
    cases pgPortRe s with
    | some g => simp only [k2]
    | none => by_cases hs : storeDirRe s = true <;> simp [hs]

/-- The scan of expand on a coherent expander gives the text the expander
without maps gives. -/
theorem replaceParams_uncached (D : Deps) (c : SyncedCluster) (arg : Str) :
    ∀ (mode : Option Str) (e : expander), coherent D c e →
      (replaceParams (expandParam D c) e mode arg).1 =
        (replaceParams (fun (u : Unit) s => (expandParamUncached D c e.node s, u)) ()
          mode arg).1 := by
  induction arg with
  | nil => intro mode e _; cases mode <;> simp [replaceParams]
  | cons ch cs ih =>
    intro mode e h
    cases mode with
    | none =>
      rw [replaceParams, replaceParams]
      by_cases hb : ch = '{' ∧ '}' ∈ cs
      · simp only [hb, and_self, if_true]
        exact ih _ e h
      · simp only [hb, if_false]
        rw [ih none e h]
    | some m =>
      rw [replaceParams, replaceParams]
      by_cases hb : ch = '}'
      · simp only [hb, if_true]
        obtain ⟨_, hco, _, _⟩ := expandParam_coherent D c e e (m ++ ['}']) h h rfl
        have hn := expandParam_node D c e (m ++ ['}'])
        rw [expandParam_uncached D c e _ h, ih none _ hco, hn]
      · simp only [hb, if_false]
        exact ih _ e h

/-- Expanding a sequence of arguments on one coherent expander gives, for
each argument, what a fresh expander for the same node gives. -/
theorem expandSeq_coherent (D : Deps) (c : SyncedCluster) (args : List Str) :
    ∀ e : expander, coherent D c e →
      expandSeq D c e args = args.map (fun a => (expand D (expander.fresh e.node) c a).1) := by
  induction args with
  | nil => intro e _; rfl
  | cons a args ih =>
    intro e h
    have hf := coherent_fresh D c e.node
    obtain ⟨h1, h2, _, _⟩ := replaceParams_coherent D c a none e (expander.fresh e.node) h hf rfl
    have hn : (expand D e c a).2.node = e.node := replaceParams_node D c a none e
    have h2' : coherent D c (expand D e c a).2 := h2
    rw [expandSeq, ih _ h2', hn]
    simp only [List.map_cons]
    congr 1

/-- C20: for every cluster, target node and sequence of arguments expanded
one after another on the same expander, starting from a new one, each result
is the result of expanding that argument on a fresh expander for the same
cluster and node, and is the result of the expander that keeps no map and
builds the URL and port tables anew at every token. -/
theorem C20_caches_are_transparent (D : Deps) (c : SyncedCluster) (node : Int)
    (args : List Str) :
    expandSeq D c (expander.fresh node) args
      = args.map (fun a => (expand D (expander.fresh node) c a).1) ∧
    expandSeq D c (expander.fresh node) args = args.map (expandUncached D c node) := by
  have h1 := expandSeq_coherent D c args (expander.fresh node) (coherent_fresh D c node)
  refine ⟨h1, ?_⟩
  rw [h1]
  apply List.map_congr_left
  intro a _
  exact replaceParams_uncached D c a none (expander.fresh node) (coherent_fresh D c node)

end Roachprod
